import Mathlib

/-!
# Client/server keyword search: the shared request queue, the dispatcher and the handler

A shallow embedding of `src/client-server/client.c` and `src/client-server/server.c`.

* Bytes are natural numbers; a C string is the list of its bytes, the terminating
  NUL excluded. Memory is a function from byte offsets to bytes.
* The shared mapping holds the data region `buffer[0 .. size)`, one spare byte
  `buffer[size]`, and the `unsigned short` overlap word at `buffer + size + 1`.
  The overlap word is kept as a field of its own.
* `unsigned short` values are reduced modulo `65536` where the source converts. An
  `int` is a natural number: the cursors and sizes are never negative, and overflow of
  `int` (a region of 2^31 bytes or more) is outside the model.
* A call that blocks on a semaphore, or whose string read leaves the mapping,
  has no result (`none`).
* A file is the list of its bytes. The threads of a handler are described one by one: a
  worker by the items it passes to the item buffer, the printer by the strings it writes
  when the items reach it in a given order. The client is described by the strings it
  passes to `enqueue`.

The list routines of `src/dirlist/dirlist.c` are embedded in the namespace `Dirlist`, over
a memory of nodes indexed by addresses.
-/

namespace ClientServer

def MAXDIRPATH : Nat := 1024
def MAXKEYWORD : Nat := 256

/-- The `linesize` of `open_queue` and `line_size` of `create_queue`. -/
def linesize : Nat := MAXDIRPATH + 1 + MAXKEYWORD + 1

/-- Conversion to `unsigned short`. -/
def ushort (n : Nat) : Nat := n % 65536

/-- Memory after the bytes `bs` are stored from offset `a` on. -/
def store (m : Nat → Nat) (a : Nat) (bs : List Nat) : Nat → Nat :=
  fun i => if a ≤ i ∧ i < a + bs.length then bs.getD (i - a) 0 else m i

/-- The call `sprintf(dst, "%s", s)`: the bytes of `s`, then a NUL. -/
def sprintf (m : Nat → Nat) (dst : Nat) (s : List Nat) : Nat → Nat :=
  store m dst (s ++ [0])

/-- The call `snprintf(dst, n, "%s", s)`: at most `n - 1` bytes of `s`, then a NUL;
nothing is written when `n = 0`. -/
def snprintf (m : Nat → Nat) (dst n : Nat) (s : List Nat) : Nat → Nat :=
  if n = 0 then m else store m dst (s.take (n - 1) ++ [0])

/-- The C string at offset `p`: the bytes up to the first NUL. At most `fuel` bytes
may be examined; there is no result when none of them is NUL. -/
def cstr (m : Nat → Nat) : Nat → Nat → Option (List Nat)
  | 0, _ => none
  | fuel + 1, p =>
    if m p = 0 then some []
    else (cstr m fuel (p + 1)).map (fun s => m p :: s)

/-- The `n` bytes `strncpy(dst, src, n)` writes: the bytes at `p` up to a NUL, padded
with NULs to `n` bytes. -/
def strncpy (m : Nat → Nat) : Nat → Nat → List Nat
  | 0, _ => []
  | n + 1, p =>
    if m p = 0 then List.replicate (n + 1) 0
    else m p :: strncpy m n (p + 1)

/-- The shared mapping and the three named semaphores. -/
structure Shm where
  buffer : Nat → Nat
  overlap : Nat
  empty : Nat
  full : Nat
  mutex : Nat

namespace Client

/-- The producer's `struct Queue`: its cursor is private to the client process. -/
structure Queue where
  back : Nat
  size : Nat
deriving DecidableEq, Repr

/-- The function `open_queue`: attaches to the queue created for `size` requests. -/
def open_queue (size : Nat) : Queue :=
  { back := 0, size := size * linesize }

/-- The test of `enqueue`, line 103, negated: the record does not fit between `back`
and the end of the region. -/
def splits (request : List Nat) (q : Queue) : Prop :=
  ¬ (q.back + ushort (request.length + 1) ≤ q.size)

instance (request : List Nat) (q : Queue) : Decidable (splits request q) := by
  unfold splits; infer_instance

/-- Lines 103 to 110 of `enqueue`: the stores made under the mutex. The difference
`size - back` is taken in the natural numbers: `back <= size` in every state the
theorems reach. -/
def enqueue_store (request : List Nat) (q : Queue) (sh : Shm) : Shm :=
  if splits request q then
    let offset := ushort (q.size - q.back)
    { sh with
      buffer := sprintf (snprintf sh.buffer q.back (offset + 1) request) 0 (request.drop offset)
      overlap := offset }
  else
    { sh with buffer := sprintf sh.buffer q.back request }

/-- The function `enqueue`. It blocks (no result) while no slot is free or the mutex is
held. -/
def enqueue (request : List Nat) (q : Queue) (sh : Shm) : Option (Queue × Shm) :=
  let reqlen := ushort (request.length + 1)
  if sh.empty = 0 ∨ sh.mutex = 0 then none
  else
    let sh1 := enqueue_store request q sh
    some ({ q with back := (q.back + reqlen) % q.size },
          { sh1 with empty := sh.empty - 1, full := sh.full + 1 })

/-- The offsets `enqueue` stores to, in the order of the source's stores. -/
def enqueue_writes (request : List Nat) (q : Queue) : List Nat :=
  if splits request q then
    let offset := ushort (q.size - q.back)
    (List.range ((request.take offset).length + 1)).map (fun i => q.back + i)
      ++ List.range ((request.drop offset).length + 1)
  else
    (List.range (request.length + 1)).map (fun i => q.back + i)

end Client

namespace Server

/-- The consumer's `struct Queue`: its cursor is private to the server process. -/
structure Queue where
  front : Nat
  size : Nat
deriving DecidableEq, Repr

/-- The function `create_queue` on a fresh shared-memory object (zero filled). -/
def create_queue (size : Nat) : Queue × Shm :=
  ({ front := 0, size := size * linesize },
   { buffer := fun _ => 0, overlap := 0, empty := size, full := 0, mutex := 1 })

/-- Lines 479 to 485 of `dequeue`: the string left in `request_buffer` and the new
value of the overlap word. Reads stop at the spare byte `buffer[size]`. -/
def dequeue_load (q : Queue) (sh : Shm) : Option (List Nat × Nat) :=
  if sh.overlap ≠ 0 ∨ (q.front : Int) ≠ (q.size : Int) - (sh.overlap : Int) then
    (cstr sh.buffer (q.size + 1 - q.front) q.front).map (fun s => (s, sh.overlap))
  else
    (cstr sh.buffer (q.size + 1) 0).map
      (fun s => ((strncpy sh.buffer sh.overlap q.front ++ s).takeWhile (fun b => b ≠ 0), 0))

/-- The function `dequeue`. It blocks (no result) while no slot is filled or the mutex
is held. -/
def dequeue (q : Queue) (sh : Shm) : Option (List Nat × Queue × Shm) :=
  if sh.full = 0 ∨ sh.mutex = 0 then none
  else
    (dequeue_load q sh).map (fun p =>
      (p.1,
       { q with front := (q.front + ushort (p.1.length + 1)) % q.size },
       { sh with overlap := p.2, full := sh.full - 1, empty := sh.empty + 1 }))

end Server

/-! ## The queue as a transition system

One producer, one consumer. Every `enqueue` and `dequeue` call is one atomic step: the
body of each call runs under the mutex. A call that blocks completes no step. The
fields `pending`, `accepted` and `delivered` are bookkeeping: no step reads them. -/

/-- A request record as `read_inputfile` passes it: a C string (no NUL byte) that fits,
with its terminator, in the `bufflen` bytes of the line buffer. -/
def Record (r : List Nat) : Prop :=
  (∀ b ∈ r, b ≠ 0) ∧ r.length + 1 ≤ linesize

instance (r : List Nat) : Decidable (Record r) := by
  unfold Record; infer_instance

/-- An enqueued record: the producer's `back` when `enqueue` was called, and its bytes. -/
structure Pending where
  start : Nat
  req : List Nat
deriving DecidableEq, Repr

/-- The record was split by `enqueue` in a region of `size` bytes. -/
def Pending.split (size : Nat) (p : Pending) : Prop :=
  Client.splits p.req { back := p.start, size := size }

instance (size : Nat) (p : Pending) : Decidable (p.split size) := by
  unfold Pending.split; infer_instance

/-- The offsets inside the region of `size` bytes that the record's `enqueue` stored to. -/
def Pending.cells (size : Nat) (p : Pending) : List Nat :=
  (Client.enqueue_writes p.req { back := p.start, size := size }).filter (fun a => a < size)

structure Sys where
  server : Server.Queue
  client : Client.Queue
  sh : Shm
  /-- Enqueued and not yet dequeued, oldest first. -/
  pending : List Pending
  /-- Every record whose `enqueue` completed, oldest first. -/
  accepted : List Pending
  /-- The strings `dequeue` returned, oldest first. -/
  delivered : List (List Nat)

inductive Op where
  | enq (request : List Nat)
  | deq
deriving DecidableEq, Repr

/-- The server has run `create_queue(n)` and the client `open_queue(n)`. -/
def Sys.init (n : Nat) : Sys :=
  { server := (Server.create_queue n).1, client := Client.open_queue n,
    sh := (Server.create_queue n).2, pending := [], accepted := [], delivered := [] }

def Sys.step (s : Sys) : Op → Sys
  | .enq r =>
    match Client.enqueue r s.client s.sh with
    | some (q', sh') =>
      { s with client := q', sh := sh',
               pending := s.pending ++ [{ start := s.client.back, req := r }],
               accepted := s.accepted ++ [{ start := s.client.back, req := r }] }
    | none => s
  | .deq =>
    match Server.dequeue s.server s.sh with
    | some (out, q', sh') =>
      { s with server := q', sh := sh', pending := s.pending.tail,
               delivered := s.delivered ++ [out] }
    | none => s

def Sys.exec (s : Sys) (ops : List Op) : Sys := ops.foldl Sys.step s

/-- Every record the schedule enqueues is a request record. -/
def Op.Valid : Op → Prop
  | .enq r => Record r
  | .deq => True

instance (op : Op) : Decidable op.Valid := by
  cases op <;> unfold Op.Valid <;> infer_instance

/-! ## Several producers

Each client process runs `open_queue` for itself, so each has its own `struct Queue`
and its own `back`. -/

structure MSys where
  server : Server.Queue
  clients : Nat → Client.Queue
  sh : Shm
  /-- The records in the order in which their `enqueue` calls completed, each with the
  cursor of its producer at the call. -/
  accepted : List Pending
  delivered : List (List Nat)

inductive MOp where
  | enq (producer : Nat) (request : List Nat)
  | deq
deriving DecidableEq, Repr

def MSys.init (n : Nat) : MSys :=
  { server := (Server.create_queue n).1, clients := fun _ => Client.open_queue n,
    sh := (Server.create_queue n).2, accepted := [], delivered := [] }

def MSys.step (s : MSys) : MOp → MSys
  | .enq i r =>
    match Client.enqueue r (s.clients i) s.sh with
    | some (q', sh') =>
      { s with clients := Function.update s.clients i q', sh := sh',
               accepted := s.accepted ++ [{ start := (s.clients i).back, req := r }] }
    | none => s
  | .deq =>
    match Server.dequeue s.server s.sh with
    | some (out, q', sh') =>
      { s with server := q', sh := sh', delivered := s.delivered ++ [out] }
    | none => s

def MSys.exec (s : MSys) (ops : List MOp) : MSys := ops.foldl MSys.step s

/-- Every enqueue of the schedule is made by producer `i`, with a request record. -/
def MOp.By (i : Nat) : MOp → Prop
  | .enq j r => j = i ∧ Record r
  | .deq => True

instance (i : Nat) (op : MOp) : Decidable (op.By i) := by
  cases op <;> unfold MOp.By <;> infer_instance

/-- The schedule seen by the only producer that enqueues. -/
def MOp.forget : MOp → Op
  | .enq _ r => .enq r
  | .deq => .deq

/-! ## The dispatcher

`watch_queue` of `server.c`. The strings the successive `dequeue` calls return and the
outcome of each `fork` call are inputs. Each process is described by the events it
produces. -/

namespace Server

inductive Event where
  /-- The call `dequeue` returned this string. -/
  | dequeued (request : List Nat)
  /-- The call `fork()` made while `request_buffer` held this string; `child` tells
  whether a child process was created. -/
  | forked (request : List Nat) (child : Bool)
  /-- The call `handle_client_request` on this string. -/
  | handled (request : List Nat)
  /-- The message `server: process fork failed`, then `exit(1)`. -/
  | reported
  /-- One call `wait(NULL)`. -/
  | waited
  /-- The call `unlink_queue`. -/
  | unlinked
deriving DecidableEq, Repr

/-- The local variables of `watch_queue`. -/
structure Watch where
  pid : Int
  request_buffer : List Nat
  process_count : Nat
deriving DecidableEq, Repr

/-- The string `exit`. -/
def exitRecord : List Nat := [101, 120, 105, 116]

/-- Lines 518 to 529: what a process does once it has left the loop. -/
def after_loop (w : Watch) : List Event :=
  if w.pid < 0 then [.reported]
  else if w.pid = 0 then
    if w.request_buffer ≠ [] then [.handled w.request_buffer] else []
  else List.replicate w.process_count .waited ++ [.unlinked]

/-- The events of the dispatcher process and of each child process, in the order in
which the children were created. -/
structure Run where
  dispatcher : List Event
  handlers : List (List Event)
deriving DecidableEq, Repr

/-- Lines 512 to 529 in the dispatcher process. `fork k` tells whether the call of
`fork()` made after `k` earlier calls creates a child; the dispatcher then receives the
child's pid, which is positive, and otherwise -1. The child receives 0, so it leaves the
loop at once with the same `request_buffer`. When no string is left the dispatcher
stays blocked in `dequeue`. -/
def watch_loop (fork : Nat → Bool) : List (List Nat) → Watch → Run
  | [], w =>
    if w.pid ≠ 0 ∧ w.request_buffer ≠ exitRecord then { dispatcher := [], handlers := [] }
    else { dispatcher := after_loop w, handlers := [] }
  | r :: rest, w =>
    if w.pid ≠ 0 ∧ w.request_buffer ≠ exitRecord then
      let w' : Watch :=
        { pid := if fork w.process_count then 1 else -1
          request_buffer := r
          process_count := w.process_count + 1 }
      { dispatcher :=
          .dequeued r :: .forked r (fork w.process_count) :: (watch_loop fork rest w').dispatcher
        handlers :=
          (if fork w.process_count then [after_loop { w' with pid := 0 }] else [])
            ++ (watch_loop fork rest w').handlers }
    else { dispatcher := after_loop w, handlers := [] }

/-- The function `watch_queue`, from line 507 on. -/
def watch_queue (fork : Nat → Bool) (recs : List (List Nat)) : Run :=
  watch_loop fork recs { pid := 1, request_buffer := [], process_count := 0 }

/-- The strings the dispatcher dequeued. -/
def Run.dequeues (r : Run) : List (List Nat) :=
  r.dispatcher.filterMap (fun e => match e with | .dequeued x => some x | _ => none)

/-- The strings on which a child called `handle_client_request`. -/
def Run.serviced (r : Run) : List (List Nat) :=
  r.handlers.flatten.filterMap (fun e => match e with | .handled x => some x | _ => none)

/-- The strings for which a child process was created. -/
def Run.spawned (r : Run) : List (List Nat) :=
  r.dispatcher.filterMap (fun e => match e with | .forked x true => some x | _ => none)

/-- The strings up to and including the first `exit`. -/
def uptoExit : List (List Nat) → List (List Nat)
  | [] => []
  | r :: rest => if r = exitRecord then [r] else r :: uptoExit rest

end Server

/-! ## Invariants of the transition system -/

/-- The bytes a record takes in the queue: its length and the NUL. -/
def Pending.len (p : Pending) : Nat := p.req.length + 1

/-- Each undelivered record starts as many bytes before the cursor `b`, around the
region of `sz` bytes, as it and the records after it take. -/
def Linked (sz b : Nat) : List Pending → Prop
  | [] => True
  | p :: ps => (p.start + ((p :: ps).map Pending.len).sum) % sz = b ∧ Linked sz b ps

/-- The record lies in memory from its start on, around the region of `sz` bytes, with
its NUL. -/
def Stored (sz : Nat) (m : Nat → Nat) (p : Pending) : Prop :=
  ∀ j, j < p.len → m ((p.start + j) % sz) = (p.req ++ [0]).getD j 0

/-- The semaphore counters against the number of undelivered records. -/
structure Counted (n : Nat) (s : Sys) : Prop where
  mutex : s.sh.mutex = 1
  slots : s.sh.empty + s.sh.full = n
  full : s.sh.full = s.pending.length
  count : s.delivered.length + s.pending.length = s.accepted.length
  rest : s.accepted.drop s.delivered.length = s.pending

/-- Where the undelivered records lie. -/
structure Placed (n : Nat) (s : Sys) : Prop where
  ssize : s.server.size = n * linesize
  csize : s.client.size = n * linesize
  back_lt : 0 < n → s.client.back < n * linesize
  recs : ∀ p ∈ s.pending, Record p.req
  starts : ∀ p ∈ s.pending, p.start < n * linesize
  spare : s.sh.buffer (n * linesize) = 0
  front_lt : 0 < n → s.server.front < n * linesize
  linked : Linked (n * linesize) s.client.back s.pending

/-- The bytes of the record, its NUL apart, end at or before the end of the region. -/
def Pending.whole (sz : Nat) (p : Pending) : Prop := p.start + p.req.length ≤ sz

instance (sz : Nat) (p : Pending) : Decidable (p.whole sz) := by
  unfold Pending.whole; infer_instance

/-- The string a `dequeue` whose cursor is at the record's start returns for it. -/
def Pending.served (sz : Nat) (p : Pending) : List Nat :=
  if p.split sz then p.req.take (sz - p.start) else p.req

/-- Where the consumer's cursor is when it is in step with the producer. -/
def headStart (back : Nat) : List Pending → Nat
  | [] => back
  | p :: _ => p.start

/-- The consumer is in step with the producer: its cursor is at the oldest undelivered
record, and every undelivered record is in memory. -/
structure Sync (n : Nat) (s : Sys) : Prop where
  front : s.server.front = headStart s.client.back s.pending
  stored : ∀ p ∈ s.pending, Stored (n * linesize) s.sh.buffer p

/-- What has been delivered, as long as every record delivered before was whole. -/
structure Fifo (n : Nat) (s : Sys) : Prop where
  served : (∀ p ∈ s.accepted.take (s.delivered.length - 1), p.whole (n * linesize)) →
    s.delivered = (s.accepted.take s.delivered.length).map (Pending.served (n * linesize))
  sync : (∀ p ∈ s.accepted.take s.delivered.length, p.whole (n * linesize)) → Sync n s

/-! ## The state without the bytes

The cursors of the producer, the overlap word, the semaphores and the bookkeeping do not
depend on what `dequeue` reads, once it is known to return. -/

structure Tally where
  client : Client.Queue
  overlap : Nat
  empty : Nat
  full : Nat
  mutex : Nat
  pending : List Pending
  accepted : List Pending
  served : Nat
deriving DecidableEq, Repr

def Sys.tally (s : Sys) : Tally :=
  { client := s.client, overlap := s.sh.overlap, empty := s.sh.empty, full := s.sh.full,
    mutex := s.sh.mutex, pending := s.pending, accepted := s.accepted,
    served := s.delivered.length }

def Tally.step (t : Tally) : Op → Tally
  | .enq r =>
    if t.empty = 0 ∨ t.mutex = 0 then t
    else
      { t with
        client := { t.client with back := (t.client.back + ushort (r.length + 1)) % t.client.size }
        overlap := if Client.splits r t.client then ushort (t.client.size - t.client.back)
                   else t.overlap
        empty := t.empty - 1
        full := t.full + 1
        pending := t.pending ++ [{ start := t.client.back, req := r }]
        accepted := t.accepted ++ [{ start := t.client.back, req := r }] }
  | .deq =>
    if t.full = 0 ∨ t.mutex = 0 then t
    else
      { t with full := t.full - 1, empty := t.empty + 1, pending := t.pending.tail,
               served := t.served + 1 }

def Tally.exec (t : Tally) (ops : List Op) : Tally := ops.foldl Tally.step t

/-! ## Sample requests -/

/-- A request of 1279 bytes: a directory path of 1270 bytes, a space, a keyword of 8. -/
def recA : List Nat := List.replicate 1270 97 ++ [32] ++ List.replicate 8 98

/-- The request `/tmp foo`. -/
def recB : List Nat := [47, 116, 109, 112, 32, 102, 111, 111]

/-- A request of 1281 bytes, the longest the client's line buffer holds. -/
def recC : List Nat := List.replicate 1272 97 ++ [32] ++ List.replicate 8 98

/-- The request `a b`. -/
def recE : List Nat := [97, 32, 98]

/-- The request `c d`. -/
def recF : List Nat := [99, 32, 100]

/-- Two clients attached to a queue for two requests; only the first sends requests. -/
def oneClient : List MOp := [.enq 0 recE, .enq 0 recF, .deq, .deq]

/-- The queue of a server started for one request, with the producer's cursor two bytes
before the end of the region. -/
def nearEnd : Client.Queue := { back := 1280, size := 1282 }

/-- Two clients attached to a queue for two requests; each sends one request. -/
def twoClients : List MOp := [.enq 0 recE, .enq 1 recF, .deq, .deq]

/-- A server started for one request; the second line of the client's input is split
across the end of the region. -/
def splitSchedule : List Op := [.enq recA, .deq, .enq recB, .deq]

/-- A server started for one request: `recA` is enqueued and dequeued, then `/tmp foo`
is enqueued and split. The consumer's cursor has then reached the split record. -/
def wrapSchedule : List Op := [.enq recA, .deq, .enq recB]

/-- A server started for two requests; a record is enqueued contiguously while a split
record is still undelivered. -/
def lateSchedule : List Op := [.enq recC, .enq recA, .deq, .enq recB, .deq, .enq recE]

/-! ## The layout of the shared mapping -/

/-- Byte counts and offsets from the start of the mapping: the `size` of `struct Queue`,
the offset of the word `overlap` points to, and the number of bytes mapped. -/
structure Region where
  size : Nat
  overlap : Nat
  mapped : Nat
deriving DecidableEq, Repr

namespace Client

/-- The number of bytes `open_shared_memory` maps. -/
def open_shared_memory (size : Nat) : Nat := size + 3

/-- The sizes and the pointer `open_queue` computes. -/
def open_queue_region (size : Nat) : Region :=
  { size := size * linesize
    overlap := size * linesize + 1
    mapped := open_shared_memory (size * linesize) }

end Client

namespace Server

/-- The length `create_shared_memory` gives the object with `ftruncate`, and the number
of bytes it maps. -/
def create_shared_memory (size : Nat) : Nat × Nat := (size + 1 + 2, size + 3)

/-- The sizes and the pointer `create_queue` computes. -/
def create_queue_region (size : Nat) : Region :=
  { size := size * linesize
    overlap := size * linesize + 1
    mapped := (create_shared_memory (size * linesize)).2 }

end Server

namespace Server

/-! ## The handler

`handle_client_request` of `server.c` and the threads it starts. A file is the list of
its bytes. Each thread is described by what it passes on: a worker by the items it puts
into the item buffer, the printer by the strings it writes. -/

def MAXLINESIZE : Nat := 1024
def MAXOUTSIZE : Nat := 2048

/-- The type `struct Item`. `filename` is a pointer, `none` being `NULL`; `line` is the C
string held in the array `line`. -/
structure Item where
  filename : Option (List Nat)
  linenumber : Int
  line : List Nat
deriving DecidableEq, Repr

/-- The start routine of a thread of the roster, with the `filepath` and `filename` its
arguments carry. -/
inductive Task where
  | worker (filepath filename : List Nat)
  | printer
deriving DecidableEq, Repr

/-- The type `struct List`: the nodes from `head` to `tail`, each given by its thread, and
the two counters. -/
structure ThreadList where
  nodes : List Task
  threadcount : Int
  overallthreadcount : Int
deriving DecidableEq, Repr

/-- The function `create_list`. -/
def create_list : ThreadList := { nodes := [], threadcount := 0, overallthreadcount := 0 }

/-- The function `insert_tail`. -/
def insert_tail (node : Task) (list : ThreadList) : ThreadList :=
  if list.nodes = [] then
    { nodes := [node]
      threadcount := list.threadcount + 1
      overallthreadcount := list.overallthreadcount + 1 }
  else
    { nodes := list.nodes ++ [node]
      threadcount := list.threadcount + 1
      overallthreadcount := list.overallthreadcount + 1 }

/-- One entry returned by `readdir`, with the value of `S_ISREG(statbuf.st_mode)` after
`stat` on its path. -/
structure Dirent where
  d_name : List Nat
  isreg : Bool
deriving DecidableEq, Repr

/-- The body of the loop of `search_directory` for one entry. -/
def search_entry (directory : List Nat) (list : ThreadList) (dirent : Dirent) : ThreadList :=
  if dirent.d_name.headD 0 ≠ 46 then
    if dirent.isreg then
      insert_tail (.worker (directory ++ [47] ++ dirent.d_name) dirent.d_name) list
    else list
  else list

/-- The function `search_directory`; `entries` are the entries `readdir` returns, in
order. -/
def search_directory (directory : List Nat) (entries : List Dirent) (list : ThreadList) :
    ThreadList :=
  insert_tail .printer (entries.foldl (search_entry directory) list)

/-! ### The worker -/

/-- The bytes one call of `fgets` stores when it may store `k` of them, and the bytes
left in the stream: it stops after a newline. -/
def fgets_bytes : Nat → List Nat → List Nat × List Nat
  | 0, stream => ([], stream)
  | _ + 1, [] => ([], [])
  | k + 1, b :: stream =>
    if b = 10 then ([b], stream)
    else ((fgets_bytes k stream).1.cons b, (fgets_bytes k stream).2)

/-- The call `fgets(s, n, stream)`: `none` is `NULL`, returned at end of file. -/
def fgets (n : Nat) (stream : List Nat) : Option (List Nat × List Nat) :=
  if stream = [] then none else some (fgets_bytes (n - 1) stream)

/-- The C string in an array that holds these bytes followed by a NUL. -/
def cstring (bytes : List Nat) : List Nat := bytes.takeWhile (fun b => b ≠ 0)

/-- Membership in `delim`, the string of a space, a tab and a newline. -/
def isDelim (b : Nat) : Bool := b = 32 || b = 9 || b = 10

/-- The call `strtok_r` on what is left of the string: the token and what follows the
byte that ended it; `none` is `NULL`. -/
def strtok_r (s : List Nat) : Option (List Nat × List Nat) :=
  match s.dropWhile isDelim with
  | [] => none
  | b :: rest =>
    some ((b :: rest).takeWhile (fun x => !isDelim x),
          ((b :: rest).dropWhile (fun x => !isDelim x)).drop 1)

/-- The inner loop of `retrieve_keyword`, lines 237 to 257: whether a token equal to
`keyword` is met. `fuel` bounds the number of tokens examined. -/
def token_loop (keyword : List Nat) : Nat → Option (List Nat × List Nat) → Bool
  | 0, _ => false
  | _ + 1, none => false
  | fuel + 1, some (token, rest) =>
    if token = keyword then true else token_loop keyword fuel (strtok_r rest)

/-- Lines 236 to 257 on the string in `filebuffer`. A string has fewer tokens than
bytes plus one. -/
def has_token (keyword s : List Nat) : Bool :=
  token_loop keyword (s.length + 1) (strtok_r s)

/-- The loop of line 240: `k` calls `fgets(item.line, MAXLINESIZE, lineptr)`. The array
keeps its content when `fgets` returns `NULL`. -/
def read_line : Nat → List Nat → List Nat → List Nat × List Nat
  | 0, lineptr, line => (line, lineptr)
  | k + 1, lineptr, line =>
    match fgets MAXLINESIZE lineptr with
    | some (l, lineptr') => read_line k lineptr' l
    | none => read_line k lineptr line

/-- The local state of `retrieve_keyword`: what is left to read on each of its two
streams, and the two line counters. `reads` is the number of calls of `fgets` on
`fileptr` that succeed before one fails with a read error; `none` when no call fails. -/
structure Worker where
  fileptr : List Nat
  lineptr : List Nat
  lastsavedline : Nat
  currentline : Nat
  reads : Option Nat
deriving DecidableEq, Repr

/-- The outer loop of `retrieve_keyword`, lines 234 to 258: the items passed to
`buffer_fill`, in order. `fuel` bounds the number of iterations. -/
def scan (filename keyword : List Nat) : Nat → Worker → List Item
  | 0, _ => []
  | fuel + 1, w =>
    if w.reads = some 0 then []
    else
      match fgets MAXLINESIZE w.fileptr with
      | none => []
      | some (filebuffer, rest) =>
        if has_token keyword (cstring filebuffer) then
          let r := read_line (w.currentline + 1 - w.lastsavedline) w.lineptr []
          { filename := some filename
            linenumber := ((w.currentline + 1 : Nat) : Int)
            line := cstring r.1 } ::
            scan filename keyword fuel
              { fileptr := rest
                lineptr := r.2
                lastsavedline := w.currentline + 1
                currentline := w.currentline + 1
                reads := w.reads.map (fun n => n - 1) }
        else
          scan filename keyword fuel
            { w with
              fileptr := rest
              currentline := w.currentline + 1
              reads := w.reads.map (fun n => n - 1) }

/-- The item `dummyItem` of `retrieve_keyword`. The source leaves its `filename` and
`line` unset; the printer reads neither of an item whose `linenumber` is -1. -/
def dummyItem : Item := { filename := none, linenumber := -1, line := [] }

/-- The function `retrieve_keyword` on a file with these bytes: the items passed to
`buffer_fill`, in order. Every iteration of the outer loop reads a byte at least. -/
def retrieve_keyword (filename keyword content : List Nat) (reads : Option Nat) : List Item :=
  scan filename keyword (content.length + 1)
    { fileptr := content, lineptr := content, lastsavedline := 0, currentline := 0,
      reads := reads } ++ [dummyItem]

/-! ### The item buffer -/

/-- The array `buffer` and the globals `buffer_use` and `buffer_filler`. -/
structure ItemBuffer where
  buffer : Nat → Item
  buffer_use : Nat
  buffer_filler : Nat

/-- The function `buffer_fill`. -/
def buffer_fill (item : Item) (threadbuffersize : Nat) (b : ItemBuffer) : ItemBuffer :=
  { buffer := fun i => if i = b.buffer_filler then item else b.buffer i
    buffer_use := b.buffer_use
    buffer_filler :=
      if b.buffer_filler + 1 = threadbuffersize then 0 else b.buffer_filler + 1 }

/-- The function `buffer_get`. -/
def buffer_get (threadbuffersize : Nat) (b : ItemBuffer) : Item × ItemBuffer :=
  (b.buffer b.buffer_use,
   { buffer := b.buffer
     buffer_use := if b.buffer_use + 1 = threadbuffersize then 0 else b.buffer_use + 1
     buffer_filler := b.buffer_filler })

/-- A call of `buffer_fill` or of `buffer_get`. -/
inductive BufferCall where
  | fill (item : Item)
  | get
deriving DecidableEq, Repr

/-- The calls made one after the other: the items the calls of `buffer_get` returned, and
the buffer at the end. -/
def buffer_calls (threadbuffersize : Nat) : List BufferCall → ItemBuffer → List Item × ItemBuffer
  | [], b => ([], b)
  | .fill item :: calls, b => buffer_calls threadbuffersize calls (buffer_fill item threadbuffersize b)
  | .get :: calls, b =>
    ((buffer_get threadbuffersize b).1 ::
        (buffer_calls threadbuffersize calls (buffer_get threadbuffersize b).2).1,
     (buffer_calls threadbuffersize calls (buffer_get threadbuffersize b).2).2)

/-- The items given to `buffer_fill`, in order. -/
def fills : List BufferCall → List Item
  | [] => []
  | .fill item :: calls => item :: fills calls
  | .get :: calls => fills calls

/-- The number of calls of `buffer_get`. -/
def gets : List BufferCall → Nat
  | [] => 0
  | .fill _ :: calls => gets calls
  | .get :: calls => gets calls + 1

/-- With `unread` items in the buffer at the start, the number of items inserted and not
yet read stays between 0 and `c` during the calls. -/
def inBounds (c : Nat) : Nat → List BufferCall → Bool
  | _, [] => true
  | unread, .fill _ :: calls => decide (unread < c) && inBounds c (unread + 1) calls
  | unread, .get :: calls => decide (0 < unread) && inBounds c (unread - 1) calls

/-! ### The printer -/

/-- The decimal digits `sprintf(linenumber, "%d", n)` stores in `char linenumber[5]`;
`none` when the digits and the NUL take more than five bytes, so that the call writes
past the end of the array. -/
def sprintf_d (n : Int) : Option (List Nat) :=
  let digits := (Nat.toDigits 10 n.natAbs).map Char.toNat
  let s := if n < 0 then 45 :: digits else digits
  if s.length + 1 ≤ 5 then some s else none

/-- Lines 299 to 307: the string built in `linebuff`, an array of `MAXOUTSIZE` bytes.
`none` when a call writes past the end of an array; what is written is then not
determined. -/
def format (item : Item) : Option (List Nat) :=
  match item.filename, sprintf_d item.linenumber with
  | some filename, some digits =>
    if (filename ++ [58] ++ digits ++ [58] ++ item.line).length + 1 ≤ MAXOUTSIZE then
      some (filename ++ [58] ++ digits ++ [58] ++ item.line)
    else none
  | _, _ => none

/-- What the printer thread has done when it stops or stays blocked. -/
structure Printer where
  /-- The value of `list->threadcount`. -/
  threadcount : Int
  /-- Whether the thread left its loop and made the decrement of line 321; otherwise it
  stays blocked in `sem_wait(&buffer_full)`. -/
  stopped : Bool
  /-- The number of calls of `buffer_get`. -/
  consumed : Nat
  /-- The strings passed to `write`, in order. -/
  written : List (Option (List Nat))
  /-- The value of `list->threadcount` after each item consumed. -/
  counts : List Int
deriving DecidableEq, Repr

/-- The function `print_buffer`: `items` are the items `buffer_get` returns, in order,
and `threadcount` the value of `list->threadcount` when the thread starts. -/
def print_buffer : List Item → Int → Printer
  | [], threadcount =>
    if threadcount ≠ 1 then
      { threadcount := threadcount, stopped := false, consumed := 0, written := [],
        counts := [] }
    else
      { threadcount := threadcount - 1, stopped := true, consumed := 0, written := [],
        counts := [] }
  | ptr :: items, threadcount =>
    if threadcount ≠ 1 then
      if ptr.linenumber ≠ -1 ∧ ptr.filename ≠ none then
        { print_buffer items threadcount with
          consumed := (print_buffer items threadcount).consumed + 1
          written := format ptr :: (print_buffer items threadcount).written
          counts := threadcount :: (print_buffer items threadcount).counts }
      else
        { print_buffer items (threadcount - 1) with
          consumed := (print_buffer items (threadcount - 1)).consumed + 1
          counts := (threadcount - 1) :: (print_buffer items (threadcount - 1)).counts }
    else
      { threadcount := threadcount - 1, stopped := true, consumed := 0, written := [],
        counts := [] }

/-- The list `stream` interleaves the lists `outs`, keeping the order within each. -/
inductive Merge : List (List Item) → List Item → Prop
  | done (outs : List (List Item)) (h : ∀ o ∈ outs, o = []) : Merge outs []
  | pick (outs : List (List Item)) (i : Nat) (x : Item) (rest stream : List Item)
      (h : outs.get? i = some (x :: rest)) (hm : Merge (outs.set i rest) stream) :
      Merge outs (x :: stream)

/-! ### Lines and tokens of a text

These two notions are not taken from the source: they say what a line of a file and a
token of a line are, so that the items of a worker can be compared with them. -/

/-- The lines of a text, each with the newline that ends it; the last line need not end
with a newline. `acc` holds the bytes of the current line, last byte first. -/
def linesFrom : List Nat → List Nat → List (List Nat)
  | acc, [] => if acc = [] then [] else [acc.reverse]
  | acc, b :: text =>
    if b = 10 then (b :: acc).reverse :: linesFrom [] text else linesFrom (b :: acc) text

/-- The lines of a text, in order; line `n` of the text, counted from 1, is the entry at
index `n - 1`. -/
def textLines (text : List Nat) : List (List Nat) := linesFrom [] text

/-- The tokens of a line: the non-empty pieces between spaces, tabs and newlines. -/
def tokensOf (line : List Nat) : List (List Nat) :=
  (line.splitOnP isDelim).filter (fun t => t ≠ [])

/-- The file name `a.txt`. -/
def aTxt : List Nat := [97, 46, 116, 120, 116]

/-- The keyword `foo`. -/
def foo : List Nat := [102, 111, 111]

/-! ### Predicates and sample inputs of the handler -/

/-- The two tests of `search_directory` on an entry, line 350 and line 351: the name does
not begin with a dot, and the entry is a regular file. -/
def searched (entry : Dirent) : Bool := decide (entry.d_name.headD 0 ≠ 46) && entry.isreg

/-- A line that `fgets` reads in one call whatever follows it. -/
def Complete (p : List Nat) : Prop :=
  ∃ init, p = init ++ [10] ∧ 10 ∉ init ∧ init.length + 1 < MAXLINESIZE

/-- Whether a worker has items left to pass on. -/
def unfinished (o : List Item) : Bool := !o.isEmpty

/-- Whether an item has the line number -1. -/
def sentinel (it : Item) : Bool := decide (it.linenumber = -1)

/-- What a worker leaves to be consumed: nothing, or items with a file name and a line
number other than -1, then one item with line number -1. -/
def Good (o : List Item) : Prop :=
  o = [] ∨ ∃ body s, o = body ++ [s] ∧ s.linenumber = -1 ∧
    ∀ it ∈ body, it.linenumber ≠ -1 ∧ it.filename ≠ none

/-- The directory `/tmp`. -/
def tmpDir : List Nat := [47, 116, 109, 112]

/-- The file name `b.txt`. -/
def bTxt : List Nat := [98, 46, 116, 120, 116]

/-- A listing with `.`, `..`, the regular file `.hidden` and the regular file `a.txt`. -/
def hiddenListing : List Dirent :=
  [⟨[46], false⟩, ⟨[46, 46], false⟩, ⟨[46, 104, 105, 100, 100, 101, 110], true⟩, ⟨aTxt, true⟩]

/-- The text of three lines `foo b`, `b`, `x foo foo`, the last without a newline. -/
def threeLines : List Nat :=
  [102, 111, 111, 32, 98, 10, 98, 10, 120, 32, 102, 111, 111, 32, 102, 111, 111]

/-- One line of 1028 bytes: 1023 times `x`, a space, `foo`, a newline. -/
def longLine : List Nat := List.replicate 1023 120 ++ [32, 102, 111, 111, 10]

/-- A text of 10000 lines: 9999 empty lines, then the line `foo`. -/
def manyLines : List Nat := List.replicate 9999 10 ++ [102, 111, 111, 10]

/-- The items of a worker on `a.txt` holding `foo` without a newline, then those of a
worker on `b.txt` holding the same. -/
def unterminated : List Item :=
  retrieve_keyword aTxt foo foo none ++ retrieve_keyword bTxt foo foo none

end Server

/-! ## The producer's input and the handler's request -/

namespace Client

/-- The call `strtok_r(request, exclude, &context)` of `read_inputfile`, whose delimiter
is the newline: the first token of the string; `none` is `NULL`. -/
def strtok_r_newline (request : List Nat) : Option (List Nat) :=
  match request.dropWhile (fun b => b = 10) with
  | [] => none
  | b :: rest => some ((b :: rest).takeWhile (fun x => x ≠ 10))

/-- What `read_inputfile` has done when it returns or stops. -/
structure Sent where
  /-- The strings passed to `enqueue`, in order. -/
  requests : List (List Nat)
  /-- Whether `enqueue` was called with `NULL`; `strlen(NULL)` then ends the run. -/
  faulted : Bool
deriving DecidableEq, Repr

/-- The loop of `read_inputfile` on the bytes left in the input file. Every iteration
reads a byte at least; `fuel` bounds the number of iterations. -/
def read_loop : Nat → List Nat → Sent
  | 0, _ => { requests := [], faulted := false }
  | fuel + 1, fs =>
    match Server.fgets (MAXDIRPATH + MAXKEYWORD + 2) fs with
    | none => { requests := [], faulted := false }
    | some (request, rest) =>
      match strtok_r_newline (Server.cstring request) with
      | none => { requests := [], faulted := true }
      | some r =>
        { requests := r :: (read_loop fuel rest).requests
          faulted := (read_loop fuel rest).faulted }

/-- The function `read_inputfile` on a file with these bytes. -/
def read_inputfile (content : List Nat) : Sent := read_loop (content.length + 1) content

/-- A line with only the newline that ends it removed. This is not taken from the source:
it says what the record of a line is to be. -/
def chomp (line : List Nat) : List Nat :=
  if line.getLast? = some 10 then line.dropLast else line

/-- The input of three lines `a b`, an empty line, `c d`. -/
def emptyLineInput : List Nat := [97, 32, 98, 10, 10, 99, 32, 100, 10]

end Client

namespace Server

/-- The calls `strtok_r(request, exclude, &context)` and `strtok_r(NULL, exclude,
&context)` of `handle_client_request`, whose delimiter is the space, on what is left of
the string: the token and what follows the byte that ended it; `none` is `NULL`. -/
def strtok_r_exclude (s : List Nat) : Option (List Nat × List Nat) :=
  match s.dropWhile (fun b => b = 32) with
  | [] => none
  | b :: rest =>
    some ((b :: rest).takeWhile (fun x => x ≠ 32),
          ((b :: rest).dropWhile (fun x => x ≠ 32)).drop 1)

/-- Lines 379 and 380 of `handle_client_request`: `directory_path` and `keyword`, `none`
being `NULL`. The request is a C string. -/
def parse_request (request : List Nat) : Option (List Nat) × Option (List Nat) :=
  match strtok_r_exclude request with
  | none => (none, none)
  | some (directory_path, rest) => (some directory_path, (strtok_r_exclude rest).map Prod.fst)

end Server

end ClientServer

/-! ## The directory lister

A shallow embedding of the list routines of `src/dirlist/dirlist.c`; `insert_sorted` and
`insertion_sort_by_level_increasing` of `src/pardirlist/pardirlist.c` have the same text.
The nodes live in a memory indexed by addresses, a pointer is an address or `NULL`
(`none`), and a routine that dereferences `NULL` has no result. The loops take a bound on
their iterations, which a list of that many nodes never reaches. -/

namespace Dirlist

/-- The type `struct node`. -/
structure Node where
  path : List Nat
  level : Int
  next : Option Nat
  prev : Option Nat
deriving DecidableEq, Repr

/-- The nodes in memory, by address, and the `struct list` the routines work on. -/
structure Mem where
  node : Nat → Node
  head : Option Nat
  tail : Option Nat

/-- The sign of `strcmp` on two C strings. -/
def strcmp : List Nat → List Nat → Int
  | [], [] => 0
  | [], _ :: _ => -1
  | _ :: _, [] => 1
  | a :: s, b :: t => if a < b then -1 else if b < a then 1 else strcmp s t

/-- The assignment `a->next = v`. -/
def Mem.setNext (m : Mem) (a : Nat) (v : Option Nat) : Mem :=
  { m with node := fun i => if i = a then { m.node i with next := v } else m.node i }

/-- The assignment `a->prev = v`. -/
def Mem.setPrev (m : Mem) (a : Nat) (v : Option Nat) : Mem :=
  { m with node := fun i => if i = a then { m.node i with prev := v } else m.node i }

/-- The function `create_node` when `malloc` returns the address `a`. -/
def create_node (a : Nat) (path : List Nat) (level : Int) (m : Mem) : Mem :=
  { m with
    node := fun i =>
      if i = a then { path := path, level := level, next := none, prev := none }
      else m.node i }

/-- The loop of lines 69 and 70 of `insert_sorted`, from `ptr` on. -/
def find_place (m : Mem) (node : Nat) : Nat → Nat → Option Nat
  | 0, _ => none
  | fuel + 1, ptr =>
    match (m.node ptr).next with
    | none => some ptr
    | some n =>
      if strcmp (m.node node).path (m.node ptr).path > 0 then find_place m node fuel n
      else some ptr

/-- The function `insert_sorted`. -/
def insert_sorted (fuel : Nat) (node : Nat) (m : Mem) : Option Mem :=
  match m.head with
  | none =>
    match m.tail with
    | none => some { m with head := some node, tail := some node }
    | some _ => none
  | some head =>
    if strcmp (m.node node).path (m.node head).path ≤ 0 then
      some { (m.setPrev head (some node)).setNext node (some head) with head := some node }
    else
      match m.tail with
      | none => none
      | some tail =>
        if strcmp (m.node node).path (m.node tail).path > 0 then
          some { (m.setNext tail (some node)).setPrev node (some tail) with
                 tail := some node }
        else
          match find_place m node fuel head with
          | none => none
          | some ptr =>
            match ((m.setNext node (some ptr)).setPrev node (m.node ptr).prev).node ptr
              |>.prev with
            | none => none
            | some before =>
              some ((((m.setNext node (some ptr)).setPrev node (m.node ptr).prev).setNext
                before (some node)).setPrev ptr (some node))

/-- The loop of lines 150 and 151 of `insertion_sort_by_level_increasing`, from `bi`
on. -/
def scan_back (m : Mem) (key : Int) : Nat → Option Nat → Option Nat
  | 0, _ => none
  | _ + 1, none => none
  | fuel + 1, some bi =>
    if some bi ≠ m.head ∧ (m.node bi).level > key then scan_back m key fuel (m.node bi).prev
    else some bi

/-- Lines 154 and 155: the node after `tmp`, if any, is linked back to the node before
`tmp`. -/
def unlink_next (m : Mem) (tmp : Nat) : Mem :=
  match (m.node tmp).next with
  | some n => m.setPrev n (m.node tmp).prev
  | none => m

/-- Lines 154 to 156: `tmp` is taken out of the list. -/
def unlink (m : Mem) (tmp : Nat) : Option Mem :=
  match ((unlink_next m tmp).node tmp).prev with
  | none => none
  | some before =>
    some ((unlink_next m tmp).setNext before ((unlink_next m tmp).node tmp).next)

/-- Lines 157 and 158: the links of `tmp` are set for its place after `bi`. -/
def relink (m : Mem) (tmp bi : Nat) : Mem :=
  (m.setNext tmp (m.node bi).next).setPrev tmp (some bi)

/-- Lines 157 to 161: `tmp` is placed after `bi`. -/
def link_after (m : Mem) (tmp bi : Nat) : Mem :=
  (match ((relink m tmp bi).node bi).next with
    | some n => (relink m tmp bi).setPrev n (some tmp)
    | none => relink m tmp bi).setNext bi (some tmp)

/-- One iteration of the outer loop of `insertion_sort_by_level_increasing`, lines 146
to 161, for the node `fi`: the memory afterwards and the new value of `fi`. -/
def sort_step (fuel : Nat) (m : Mem) (fi : Nat) : Option (Mem × Option Nat) :=
  match scan_back m (m.node fi).level fuel (m.node fi).prev with
  | none => none
  | some bi =>
    match unlink m fi with
    | none => none
    | some m2 => some (link_after m2 fi bi, (m.node fi).next)

/-- The outer loop of `insertion_sort_by_level_increasing`, from `fi` on. -/
def sort_loop (inner : Nat) : Nat → Mem → Option Nat → Option Mem
  | 0, _, _ => none
  | _ + 1, m, none => some m
  | fuel + 1, m, some fi =>
    match sort_step inner m fi with
    | none => none
    | some r => sort_loop inner fuel r.1 r.2

/-- The function `insertion_sort_by_level_increasing`. -/
def insertion_sort_by_level_increasing (fuel : Nat) (m : Mem) : Option Mem :=
  match m.head with
  | none => none
  | some head => sort_loop fuel fuel m (m.node head).next

/-- The three values `fprintf` prints on one line of the output file. -/
structure Line where
  level : Int
  order : Int
  path : List Nat
deriving DecidableEq, Repr

/-- The loop of `print_list_to_file`, from `curr` on, with the current value of
`order`. -/
def print_loop (m : Mem) : Nat → Option Nat → Int → Option (List Line)
  | 0, _, _ => none
  | _ + 1, none, _ => some []
  | fuel + 1, some curr, order =>
    (print_loop m fuel (m.node curr).next
      (match (m.node curr).prev with
        | none => 1
        | some p => if (m.node curr).level = (m.node p).level then order + 1 else 1)).map
      (fun lines =>
        { level := (m.node curr).level
          order :=
            match (m.node curr).prev with
            | none => 1
            | some p => if (m.node curr).level = (m.node p).level then order + 1 else 1
          path := (m.node curr).path } :: lines)

/-- The function `print_list_to_file`: the lines written. The variable `order` is not
initialised; `order` is the value it happens to hold. -/
def print_list_to_file (fuel : Nat) (order : Int) (m : Mem) : Option (List Line) :=
  print_loop m fuel m.head order

/-! ### Well-formed lists -/

/-- The first address of `l`, or `q` when `l` is empty. -/
def frontOr (l : List Nat) (q : Option Nat) : Option Nat :=
  match l with
  | [] => q
  | b :: _ => some b

/-- The last address of `l`, or `p` when `l` is empty. -/
def backOr (l : List Nat) (p : Option Nat) : Option Nat :=
  match l.getLast? with
  | none => p
  | some b => some b

/-- The nodes at the addresses `l` are linked in this order: each one's `next` is its
successor and each one's `prev` its predecessor, `p` standing before the first and `q`
after the last. -/
def Doubly (node : Nat → Node) : Option Nat → List Nat → Option Nat → Prop
  | _, [], _ => True
  | p, a :: rest, q =>
    (node a).prev = p ∧ (node a).next = frontOr rest q ∧ Doubly node (some a) rest q

instance (node : Nat → Node) : ∀ (p : Option Nat) (l : List Nat) (q : Option Nat),
    Decidable (Doubly node p l q)
  | _, [], _ => isTrue trivial
  | p, a :: rest, q =>
    have := instDecidableDoubly node (some a) rest q
    decidable_of_iff ((node a).prev = p ∧ (node a).next = frontOr rest q ∧
      Doubly node (some a) rest q) Iff.rfl

/-- The list of `m` is doubly linked from `head` on and holds the nodes at the distinct
addresses `l`, in this order. -/
@[mk_iff]
structure Chain (m : Mem) (l : List Nat) : Prop where
  nodup : l.Nodup
  linked : Doubly m.node none l none
  head : m.head = l.head?

instance (m : Mem) (l : List Nat) : Decidable (Chain m l) :=
  decidable_of_iff _ (chain_iff m l).symm

/-- A chain whose `tail` is its last node. -/
@[mk_iff]
structure WellFormed (m : Mem) (l : List Nat) : Prop where
  chain : Chain m l
  tail : m.tail = l.getLast?

instance (m : Mem) (l : List Nat) : Decidable (WellFormed m l) :=
  decidable_of_iff _ (wellFormed_iff m l).symm

/-- The nodes at the addresses `l` are in non-decreasing `strcmp` order of `path`. -/
def PathSorted (m : Mem) (l : List Nat) : Prop :=
  l.Pairwise (fun a b => strcmp (m.node a).path (m.node b).path ≤ 0)

instance (m : Mem) (l : List Nat) : Decidable (PathSorted m l) := by
  unfold PathSorted
  infer_instance

/-- The nodes at the addresses `l` are in non-decreasing order of `level`. -/
def LevelSorted (m : Mem) (l : List Nat) : Prop :=
  l.Pairwise (fun a b => (m.node a).level ≤ (m.node b).level)

instance (m : Mem) (l : List Nat) : Decidable (LevelSorted m l) := by
  unfold LevelSorted
  infer_instance

/-- Every node has the same `path` and the same `level` in both memories. -/
def SameEntries (before after : Mem) : Prop :=
  ∀ a, (after.node a).path = (before.node a).path ∧
    (after.node a).level = (before.node a).level

/-- The list `l` with the node `x` put in just before the first node whose path is not
smaller than that of `x`. -/
def placed_by_path (m : Mem) (x : Nat) (l : List Nat) : List Nat :=
  l.takeWhile (fun a => decide (strcmp (m.node x).path (m.node a).path > 0)) ++
    x :: l.dropWhile (fun a => decide (strcmp (m.node x).path (m.node a).path > 0))

/-- The list `l` with the node `x` put in after its last node whose level is not
greater than that of `x`. -/
def placed_by_level (level : Nat → Int) (x : Nat) (l : List Nat) : List Nat :=
  l.rdropWhile (fun b => decide (level b > level x)) ++
    x :: l.rtakeWhile (fun b => decide (level b > level x))


/-- The lines for the nodes at the addresses `l` in this order, when the node before
them, if any, has the level `before` and `order` holds its number: a node whose level
is that of the node before it gets the next number, any other node the number 1. -/
def numbered (m : Mem) : Option Int → Int → List Nat → List Line
  | _, _, [] => []
  | before, order, a :: l =>
    { level := (m.node a).level
      order :=
        match before with
        | none => 1
        | some v => if (m.node a).level = v then order + 1 else 1
      path := (m.node a).path } ::
      numbered m (some (m.node a).level)
        (match before with
          | none => 1
          | some v => if (m.node a).level = v then order + 1 else 1) l

/-- Two nodes in memory, with the paths `a` and `c`, linked in this order. -/
def twoNodes : Mem :=
  { node := fun i =>
      if i = 0 then { path := [97], level := 1, next := some 1, prev := none }
      else if i = 1 then { path := [99], level := 2, next := none, prev := some 0 }
      else { path := [], level := 0, next := none, prev := none }
    head := some 0
    tail := some 1 }

/-- The list of a directory `r` that holds `a` and `b`, where `a` holds `x`: the nodes for
`r`, `r/a`, `r/a/x` and `r/b`, in the order of their paths, with the levels 1, 2, 3, 2. -/
def treeNodes : Mem :=
  { node := fun i =>
      if i = 0 then { path := [114], level := 1, next := some 1, prev := none }
      else if i = 1 then { path := [114, 47, 97], level := 2, next := some 2, prev := some 0 }
      else if i = 2 then
        { path := [114, 47, 97, 47, 120], level := 3, next := some 3, prev := some 1 }
      else if i = 3 then { path := [114, 47, 98], level := 2, next := none, prev := some 2 }
      else { path := [], level := 0, next := none, prev := none }
    head := some 0
    tail := some 3 }

end Dirlist

namespace ClientServer

/-! ## Stores and string reads -/

theorem store_inside {m : Nat → Nat} {a i : Nat} {bs : List Nat}
    (h1 : a ≤ i) (h2 : i < a + bs.length) : store m a bs i = bs.getD (i - a) 0 := by
  simp [store, h1, h2]

theorem store_outside {m : Nat → Nat} {a i : Nat} {bs : List Nat}
    (h : i < a ∨ a + bs.length ≤ i) : store m a bs i = m i := by
  unfold store
  rw [if_neg]
  omega

theorem ushort_of_lt {n : Nat} (h : n < 65536) : ushort n = n := by
  unfold ushort
  exact Nat.mod_eq_of_lt h

theorem linesize_eq : linesize = 1282 := by decide

theorem getD_append_zero_left {r : List Nat} {i : Nat} (h : i < r.length) :
    (r ++ [0]).getD i 0 = r.getD i 0 := by
  simp [List.getD_eq_getElem?_getD, List.getElem?_append_left h]

theorem getD_append_zero_right (r : List Nat) : (r ++ [0]).getD r.length 0 = 0 := by
  simp [List.getD_eq_getElem?_getD]

theorem getD_take_append_zero {r : List Nat} {k : Nat} (h : k ≤ r.length) :
    (r.take k ++ [0]).getD k 0 = 0 := by
  have e := getD_append_zero_right (r.take k)
  rwa [List.length_take, Nat.min_eq_left h] at e

/-! ## The stores of `enqueue` -/

theorem enqueue_some (r : List Nat) (q : Client.Queue) (sh : Shm)
    (hslot : sh.empty ≠ 0) (hmutex : sh.mutex ≠ 0) :
    Client.enqueue r q sh =
      some ({ q with back := (q.back + ushort (r.length + 1)) % q.size },
            { Client.enqueue_store r q sh with empty := sh.empty - 1, full := sh.full + 1 }) := by
  simp [Client.enqueue, hslot, hmutex]

theorem enqueue_store_contiguous (r : List Nat) (q : Client.Queue) (sh : Shm)
    (h : ¬ Client.splits r q) :
    Client.enqueue_store r q sh = { sh with buffer := sprintf sh.buffer q.back r } := by
  simp [Client.enqueue_store, h]

theorem enqueue_store_split (r : List Nat) (q : Client.Queue) (sh : Shm)
    (h : Client.splits r q) :
    Client.enqueue_store r q sh =
      { sh with
        buffer := sprintf (snprintf sh.buffer q.back (ushort (q.size - q.back) + 1) r) 0
                    (r.drop (ushort (q.size - q.back)))
        overlap := ushort (q.size - q.back) } := by
  simp [Client.enqueue_store, h]

/-- C2: `enqueue` of a record `r` with `L = len(r) + 1` bytes, at a cursor inside the
region: when `back + L <= size` the record and its NUL lie at `buffer[back .. back+L)`;
otherwise the first `size - back` bytes of `r` lie at `buffer[back .. size)`, the overlap
word is `size - back`, and the rest of `r` with its NUL lies from offset 0 on. Either
way `back` becomes `(back + L) mod size`. -/
theorem enqueue_postcondition (r : List Nat) (q : Client.Queue) (sh : Shm)
    (hback : q.back < q.size) (hlen : r.length + 1 < 65536) (hfit : r.length + 1 ≤ q.size)
    (hslot : sh.empty ≠ 0) (hmutex : sh.mutex ≠ 0) :
    ∃ q' sh', Client.enqueue r q sh = some (q', sh') ∧
      q'.back = (q.back + (r.length + 1)) % q.size ∧
      (q.back + (r.length + 1) ≤ q.size →
        ∀ i, i < r.length + 1 → sh'.buffer (q.back + i) = (r ++ [0]).getD i 0) ∧
      (q.size < q.back + (r.length + 1) →
        (∀ i, i < q.size - q.back → sh'.buffer (q.back + i) = r.getD i 0) ∧
        sh'.overlap = q.size - q.back ∧
        ∀ j, j < r.length + 1 - (q.size - q.back) →
          sh'.buffer j = (r ++ [0]).getD (q.size - q.back + j) 0) := by
  refine ⟨_, _, enqueue_some r q sh hslot hmutex, ?_, ?_, ?_⟩
  · simp [ushort_of_lt hlen]
  · intro hc i hi
    have hns : ¬ Client.splits r q := by
      simp [Client.splits, ushort_of_lt hlen]; omega
    simp only [enqueue_store_contiguous r q sh hns, sprintf]
    rw [store_inside (by omega) (by simp; omega)]
    simp
  · intro hc
    have hs : Client.splits r q := by
      simp [Client.splits, ushort_of_lt hlen]; omega
    have hoff : ushort (q.size - q.back) = q.size - q.back := ushort_of_lt (by omega)
    simp only [enqueue_store_split r q sh hs, hoff, sprintf, snprintf]
    refine ⟨?_, trivial, ?_⟩
    · intro i hi
      rw [store_outside (by simp; omega), if_neg (by omega),
        store_inside (by omega) (by simp; omega)]
      simp only [Nat.add_sub_cancel, Nat.add_sub_cancel_left]
      rw [getD_append_zero_left (by simp; omega)]
      simp [List.getD_eq_getElem?_getD, List.getElem?_take, hi]
    · intro j hj
      rw [store_inside (by omega) (by simp; omega)]
      simp only [Nat.sub_zero]
      simp [List.getD_eq_getElem?_getD, List.getElem?_append, List.getElem?_drop]
      by_cases hjr : j < r.length - (q.size - q.back)
      · rw [if_pos hjr, if_pos (by omega)]
      · rw [if_neg hjr, if_neg (by omega)]
        have e1 : j - (r.length - (q.size - q.back)) = 0 := by omega
        have e2 : q.size - q.back + j - r.length = 0 := by omega
        rw [e1, e2]

/-! ## What `enqueue` leaves in memory -/

theorem splits_iff {r : List Nat} {q : Client.Queue} (hr : Record r) :
    Client.splits r q ↔ q.size < q.back + (r.length + 1) := by
  have h := hr.2
  rw [linesize_eq] at h
  simp only [Client.splits, ushort_of_lt (show r.length + 1 < 65536 by omega)]
  omega

theorem enqueue_store_spare {r : List Nat} {q : Client.Queue} (sh : Shm) (hr : Record r)
    (hback : q.back < q.size) (hfit : r.length + 1 ≤ q.size) (h0 : sh.buffer q.size = 0) :
    (Client.enqueue_store r q sh).buffer q.size = 0 := by
  have hL := hr.2
  rw [linesize_eq] at hL
  by_cases hs : Client.splits r q
  · have hc := (splits_iff hr).1 hs
    have hoff : ushort (q.size - q.back) = q.size - q.back := ushort_of_lt (by omega)
    simp only [enqueue_store_split r q sh hs, hoff, sprintf, snprintf]
    rw [store_outside (by simp; omega), if_neg (by omega),
      store_inside (by omega) (by simp; omega)]
    simp only [Nat.add_sub_cancel, Nat.add_sub_cancel_left]
    exact getD_take_append_zero (by omega)
  · have hc : q.back + (r.length + 1) ≤ q.size := by
      have := (splits_iff (q := q) hr).not.1 hs
      omega
    simp only [enqueue_store_contiguous r q sh hs, sprintf]
    rw [store_outside (by simp; omega)]
    exact h0

theorem enqueue_store_stored {r : List Nat} {q : Client.Queue} (sh : Shm) (hr : Record r)
    (hback : q.back < q.size) (hfit : r.length + 1 ≤ q.size) :
    Stored q.size (Client.enqueue_store r q sh).buffer { start := q.back, req := r } := by
  intro j hj
  simp only [Pending.len] at hj
  show (Client.enqueue_store r q sh).buffer ((q.back + j) % q.size) = (r ++ [0]).getD j 0
  have hL := hr.2
  rw [linesize_eq] at hL
  by_cases hs : Client.splits r q
  · have hc := (splits_iff hr).1 hs
    have hoff : ushort (q.size - q.back) = q.size - q.back := ushort_of_lt (by omega)
    simp only [enqueue_store_split r q sh hs, hoff, sprintf, snprintf]
    by_cases hjo : j < q.size - q.back
    · rw [Nat.mod_eq_of_lt (by omega), store_outside (by simp; omega), if_neg (by omega),
        store_inside (by omega) (by simp; omega)]
      simp only [Nat.add_sub_cancel, Nat.add_sub_cancel_left]
      rw [getD_append_zero_left (by simp; omega), getD_append_zero_left (by omega)]
      simp [List.getD_eq_getElem?_getD, List.getElem?_take, hjo]
    · have e : (q.back + j) % q.size = j - (q.size - q.back) := by
        have e1 : q.back + j = (j - (q.size - q.back)) + q.size := by omega
        rw [e1, Nat.add_mod_right, Nat.mod_eq_of_lt (by omega)]
      rw [e, store_inside (by omega) (by simp; omega)]
      simp only [Nat.sub_zero]
      simp only [List.getD_eq_getElem?_getD, List.getElem?_append, List.getElem?_drop,
        List.length_drop]
      by_cases hjr : j < r.length
      · rw [if_pos (by omega), if_pos hjr]
        congr 2
        omega
      · rw [if_neg (by omega), if_neg hjr]
        congr 2
        omega
  · have hc : q.back + (r.length + 1) ≤ q.size := by
      have := (splits_iff (q := q) hr).not.1 hs
      omega
    simp only [enqueue_store_contiguous r q sh hs, sprintf]
    rw [Nat.mod_eq_of_lt (by omega), store_inside (by omega) (by simp; omega)]
    simp

theorem enqueue_store_frame {r : List Nat} {q : Client.Queue} (sh : Shm) (hr : Record r)
    (hback : q.back < q.size) {a : Nat} (ha : a < q.size)
    (hne : ∀ j, j < r.length + 1 → a ≠ (q.back + j) % q.size) :
    (Client.enqueue_store r q sh).buffer a = sh.buffer a := by
  have hL := hr.2
  rw [linesize_eq] at hL
  by_cases hs : Client.splits r q
  · have hc := (splits_iff hr).1 hs
    have hoff : ushort (q.size - q.back) = q.size - q.back := ushort_of_lt (by omega)
    simp only [enqueue_store_split r q sh hs, hoff, sprintf, snprintf]
    have h1 : ¬ a < r.length + 1 - (q.size - q.back) := by
      intro hlt
      apply hne (q.size - q.back + a) (by omega)
      have e1 : q.back + (q.size - q.back + a) = a + q.size := by omega
      rw [e1, Nat.add_mod_right, Nat.mod_eq_of_lt ha]
    have h2 : a < q.back := by
      by_contra hge
      apply hne (a - q.back) (by omega)
      have e1 : q.back + (a - q.back) = a := by omega
      rw [e1, Nat.mod_eq_of_lt ha]
    rw [store_outside (by simp; omega), if_neg (by omega), store_outside (Or.inl h2)]
  · have hc : q.back + (r.length + 1) ≤ q.size := by
      have := (splits_iff (q := q) hr).not.1 hs
      omega
    simp only [enqueue_store_contiguous r q sh hs, sprintf]
    apply store_outside
    by_contra hin
    simp only [List.length_append, List.length_singleton] at hin
    apply hne (a - q.back) (by omega)
    have e1 : q.back + (a - q.back) = a := by omega
    rw [e1, Nat.mod_eq_of_lt ha]

/-- Outside the offsets listed by `enqueue_writes`, `enqueue` leaves memory as it is. -/
theorem enqueue_store_elsewhere (r : List Nat) (q : Client.Queue) (sh : Shm) {a : Nat}
    (h : a ∉ Client.enqueue_writes r q) :
    (Client.enqueue_store r q sh).buffer a = sh.buffer a := by
  unfold Client.enqueue_writes at h
  by_cases hs : Client.splits r q
  · rw [if_pos hs] at h
    simp only [List.mem_append, List.mem_map, List.mem_range, not_or, not_exists, not_and] at h
    obtain ⟨h1, h2⟩ := h
    simp only [enqueue_store_split r q sh hs, sprintf, snprintf]
    rw [store_outside (by
      right
      simp only [List.length_append, List.length_singleton, Nat.zero_add]
      omega), if_neg (by omega)]
    apply store_outside
    by_contra hin
    push_neg at hin
    simp only [List.length_append, List.length_singleton, Nat.add_sub_cancel] at hin
    exact h1 (a - q.back) (by omega) (by omega)
  · rw [if_neg hs] at h
    simp only [List.mem_map, List.mem_range, not_exists, not_and] at h
    simp only [enqueue_store_contiguous r q sh hs, sprintf]
    apply store_outside
    by_contra hin
    push_neg at hin
    simp only [List.length_append, List.length_singleton] at hin
    exact h (a - q.back) (by omega) (by omega)

theorem enqueue_store_fields (r : List Nat) (q : Client.Queue) (sh : Shm) :
    (Client.enqueue_store r q sh).mutex = sh.mutex ∧
    (Client.enqueue_store r q sh).overlap =
      if Client.splits r q then ushort (q.size - q.back) else sh.overlap := by
  unfold Client.enqueue_store
  split <;> exact ⟨rfl, rfl⟩

/-! ## String reads -/

theorem cstr_of_bytes {m : Nat → Nat} (s : List Nat) :
    ∀ (p fuel : Nat), (∀ j, j < s.length → m (p + j) = s.getD j 0) → (∀ b ∈ s, b ≠ 0) →
      m (p + s.length) = 0 → s.length < fuel → cstr m fuel p = some s := by
  induction s with
  | nil =>
    intro p fuel _ _ h0 hf
    obtain ⟨f, rfl⟩ : ∃ f, fuel = f + 1 := ⟨fuel - 1, by simp at hf; omega⟩
    simp only [List.length_nil, Nat.add_zero] at h0
    simp [cstr, h0]
  | cons b s ih =>
    intro p fuel hb hnz h0 hf
    obtain ⟨f, rfl⟩ : ∃ f, fuel = f + 1 := ⟨fuel - 1, by simp at hf; omega⟩
    have hp : m p = b := by simpa using hb 0 (by simp)
    have hbz : b ≠ 0 := hnz b (List.mem_cons_self _ _)
    have hrec := ih (p + 1) f
      (fun j hj => by
        have := hb (j + 1) (by simp; omega)
        simpa [Nat.add_assoc, Nat.add_comm 1 j] using this)
      (fun c hc => hnz c (List.mem_cons_of_mem _ hc))
      (by simpa [Nat.add_assoc, Nat.add_comm 1] using h0)
      (by simp at hf; omega)
    simp [cstr, hp, hbz, hrec]

theorem cstr_isSome {m : Nat → Nat} :
    ∀ (k p fuel : Nat), m (p + k) = 0 → k < fuel → (cstr m fuel p).isSome := by
  intro k
  induction k with
  | zero =>
    intro p fuel h0 hf
    obtain ⟨f, rfl⟩ : ∃ f, fuel = f + 1 := ⟨fuel - 1, by omega⟩
    simp only [Nat.add_zero] at h0
    simp [cstr, h0]
  | succ k ih =>
    intro p fuel h0 hf
    obtain ⟨f, rfl⟩ : ∃ f, fuel = f + 1 := ⟨fuel - 1, by omega⟩
    by_cases hp : m p = 0
    · simp [cstr, hp]
    · have := ih (p + 1) f (by simpa [Nat.add_assoc, Nat.add_comm 1 k] using h0) (by omega)
      simp only [cstr, hp, if_false, Option.isSome_map']
      exact this

/-! ## Steps of the transition system -/

theorem step_enq_enabled (s : Sys) (r : List Nat)
    (hslot : s.sh.empty ≠ 0) (hmutex : s.sh.mutex ≠ 0) :
    Sys.step s (.enq r) =
      { s with
        client := { s.client with back := (s.client.back + ushort (r.length + 1)) % s.client.size }
        sh := { Client.enqueue_store r s.client s.sh with
                empty := s.sh.empty - 1, full := s.sh.full + 1 }
        pending := s.pending ++ [{ start := s.client.back, req := r }]
        accepted := s.accepted ++ [{ start := s.client.back, req := r }] } := by
  simp [Sys.step, enqueue_some r s.client s.sh hslot hmutex]

theorem step_enq_blocked (s : Sys) (r : List Nat)
    (h : s.sh.empty = 0 ∨ s.sh.mutex = 0) : Sys.step s (.enq r) = s := by
  simp [Sys.step, Client.enqueue, h]

theorem dequeue_load_overlap {q : Server.Queue} {sh : Shm} {out : List Nat} {ov : Nat}
    (h : Server.dequeue_load q sh = some (out, ov)) : ov = sh.overlap := by
  unfold Server.dequeue_load at h
  split at h
  · simp only [Option.map_eq_some', Prod.mk.injEq] at h
    obtain ⟨_, _, _, rfl⟩ := h
    rfl
  · rename_i hc
    simp only [Option.map_eq_some', Prod.mk.injEq] at h
    obtain ⟨_, _, _, rfl⟩ := h
    by_contra hne
    exact hc (Or.inl (fun h0 => hne h0.symm))

/-- The branch of `dequeue` that rebuilds a split record (lines 482 to 484) is taken only
when the overlap word is 0 and `front = size`: never while `front` is inside the
region. -/
theorem dequeue_load_contiguous (q : Server.Queue) (sh : Shm) (h : q.front < q.size) :
    Server.dequeue_load q sh =
      (cstr sh.buffer (q.size + 1 - q.front) q.front).map (fun s => (s, sh.overlap)) := by
  unfold Server.dequeue_load
  rw [if_pos]
  by_cases h0 : sh.overlap = 0
  · right
    rw [h0]
    omega
  · exact Or.inl h0

theorem step_deq_cases (s : Sys) :
    Sys.step s .deq = s ∨
    (s.sh.full ≠ 0 ∧ s.sh.mutex ≠ 0 ∧ ∃ out,
      Server.dequeue_load s.server s.sh = some (out, s.sh.overlap) ∧
      Sys.step s .deq =
        { s with
          server := { s.server with
                      front := (s.server.front + ushort (out.length + 1)) % s.server.size }
          sh := { s.sh with full := s.sh.full - 1, empty := s.sh.empty + 1 }
          pending := s.pending.tail
          delivered := s.delivered ++ [out] }) := by
  by_cases hb : s.sh.full = 0 ∨ s.sh.mutex = 0
  · left
    simp [Sys.step, Server.dequeue, hb]
  · cases hl : Server.dequeue_load s.server s.sh with
    | none =>
      left
      simp [Sys.step, Server.dequeue, hb, hl]
    | some p =>
      obtain ⟨out, ov⟩ := p
      have hov := dequeue_load_overlap hl
      subst hov
      right
      push_neg at hb
      refine ⟨hb.1, hb.2, out, rfl, ?_⟩
      simp [Sys.step, Server.dequeue, hb, hl]

theorem exec_append (s : Sys) (ops ops' : List Op) :
    Sys.exec s (ops ++ ops') = Sys.exec (Sys.exec s ops) ops' := by
  simp [Sys.exec, List.foldl_append]

theorem exec_snoc (s : Sys) (ops : List Op) (op : Op) :
    Sys.exec s (ops ++ [op]) = Sys.step (Sys.exec s ops) op := by
  simp [Sys.exec, List.foldl_append]

/-! ## The counters -/

theorem counted_init (n : Nat) : Counted n (Sys.init n) :=
  ⟨rfl, rfl, rfl, rfl, rfl⟩

theorem counted_step {n : Nat} {s : Sys} (h : Counted n s) (op : Op) :
    Counted n (Sys.step s op) := by
  obtain ⟨hm, hs, hf, hcnt, hrest⟩ := h
  cases op with
  | enq r =>
    by_cases hb : s.sh.empty = 0 ∨ s.sh.mutex = 0
    · rw [step_enq_blocked s r hb]
      exact ⟨hm, hs, hf, hcnt, hrest⟩
    · push_neg at hb
      rw [step_enq_enabled s r hb.1 hb.2]
      have h1 : (Client.enqueue_store r s.client s.sh).mutex = s.sh.mutex := by
        unfold Client.enqueue_store; split <;> rfl
      refine ⟨?_, ?_, ?_, ?_, ?_⟩
      · simpa using h1.trans hm
      · have := hb.1
        simp only
        omega
      · simp only [List.length_append, List.length_singleton]
        omega
      · simp only [List.length_append, List.length_singleton]
        omega
      · show (s.accepted ++ [_]).drop s.delivered.length = s.pending ++ [_]
        rw [List.drop_append_of_le_length (by omega), hrest]
  | deq =>
    rcases step_deq_cases s with h0 | ⟨hfull, _, out, _, h1⟩
    · rw [h0]
      exact ⟨hm, hs, hf, hcnt, hrest⟩
    · rw [h1]
      refine ⟨hm, ?_, ?_, ?_, ?_⟩
      · simp only
        omega
      · simp only [List.length_tail]
        omega
      · simp only [List.length_append, List.length_singleton, List.length_tail]
        omega
      · show s.accepted.drop (s.delivered ++ [out]).length = s.pending.tail
        rw [← hrest, List.tail_drop]
        simp

theorem counted_exec (n : Nat) (ops : List Op) : Counted n (Sys.exec (Sys.init n) ops) := by
  induction ops using List.reverseRecOn with
  | nil => exact counted_init n
  | append_singleton ops op ih =>
    rw [exec_snoc]
    exact counted_step ih op

/-- C6: from the queue created for `n` requests (free-slot counter `n`, filled-slot
counter 0), after any schedule of `enqueue` and `dequeue` calls the free-slot counter
plus the number of undelivered records is `n`, so at most `n` records are undelivered;
and an `enqueue` completes only when fewer than `n` are. -/
theorem queue_capacity (n : Nat) (ops : List Op) :
    (Sys.exec (Sys.init n) ops).sh.empty + (Sys.exec (Sys.init n) ops).pending.length = n ∧
    (Sys.exec (Sys.init n) ops).pending.length ≤ n ∧
    ∀ r, (Client.enqueue r (Sys.exec (Sys.init n) ops).client
            (Sys.exec (Sys.init n) ops).sh).isSome →
          (Sys.exec (Sys.init n) ops).pending.length < n := by
  obtain ⟨_, hs, hf, _, _⟩ := counted_exec n ops
  refine ⟨by omega, by omega, ?_⟩
  intro r hr
  by_cases hb : (Sys.exec (Sys.init n) ops).sh.empty = 0 ∨ (Sys.exec (Sys.init n) ops).sh.mutex = 0
  · simp [Client.enqueue, hb] at hr
  · push_neg at hb
    have := hb.1
    omega

/-! ## Where the undelivered records lie -/

theorem linked_append {sz b : Nat} {ps : List Pending} (h : Linked sz b ps) (r : List Nat) :
    Linked sz ((b + (r.length + 1)) % sz) (ps ++ [{ start := b, req := r }]) := by
  induction ps with
  | nil => simp [Linked, Pending.len]
  | cons p ps ih =>
    obtain ⟨h1, h2⟩ := h
    refine ⟨?_, ih h2⟩
    show (p.start + ((p :: (ps ++ [{ start := b, req := r }])).map Pending.len).sum) % sz
      = (b + (r.length + 1)) % sz
    have e : ((p :: (ps ++ [{ start := b, req := r }])).map Pending.len).sum
        = ((p :: ps).map Pending.len).sum + (r.length + 1) := by
      simp [Pending.len]; omega
    rw [e, ← Nat.add_assoc, ← h1, Nat.mod_add_mod]

theorem linked_tail {sz b : Nat} {ps : List Pending} (h : Linked sz b ps) :
    Linked sz b ps.tail := by
  cases ps with
  | nil => exact h
  | cons p ps => exact h.2

theorem placed_init (n : Nat) : Placed n (Sys.init n) := by
  refine ⟨rfl, rfl, ?_, ?_, ?_, rfl, ?_, trivial⟩
  · intro hn
    show 0 < n * linesize
    exact Nat.mul_pos hn (by decide)
  · intro p hp
    cases hp
  · intro p hp
    cases hp
  · intro hn
    show 0 < n * linesize
    exact Nat.mul_pos hn (by decide)

theorem placed_step {n : Nat} {s : Sys} (hc : Counted n s) (h : Placed n s) (op : Op)
    (hv : op.Valid) : Placed n (Sys.step s op) := by
  obtain ⟨hss, hcs, hb, hr, hst, hsp, hfr, hl⟩ := h
  cases op with
  | enq r =>
    by_cases hbl : s.sh.empty = 0 ∨ s.sh.mutex = 0
    · rw [step_enq_blocked s r hbl]
      exact ⟨hss, hcs, hb, hr, hst, hsp, hfr, hl⟩
    · push_neg at hbl
      rw [step_enq_enabled s r hbl.1 hbl.2]
      have hrec : Record r := hv
      have hlen : ushort (r.length + 1) = r.length + 1 :=
        ushort_of_lt (by have := hrec.2; rw [linesize_eq] at this; omega)
      have hn : 0 < n := by have := hc.slots; have := hbl.1; omega
      have hfit : r.length + 1 ≤ s.client.size := by
        rw [hcs]
        exact le_trans hrec.2 (Nat.le_mul_of_pos_left _ hn)
      refine ⟨hss, hcs, ?_, ?_, ?_, ?_, hfr, ?_⟩
      · intro _
        show (s.client.back + ushort (r.length + 1)) % s.client.size < n * linesize
        rw [hcs]
        exact Nat.mod_lt _ (Nat.mul_pos hn (by decide))
      · intro p hp
        rcases List.mem_append.1 hp with hp | hp
        · exact hr p hp
        · rw [List.mem_singleton.1 hp]
          exact hrec
      · intro p hp
        rcases List.mem_append.1 hp with hp | hp
        · exact hst p hp
        · rw [List.mem_singleton.1 hp]
          exact hb hn
      · show (Client.enqueue_store r s.client s.sh).buffer (n * linesize) = 0
        rw [← hcs]
        exact enqueue_store_spare s.sh hrec (by rw [hcs]; exact hb hn) hfit (by rw [hcs]; exact hsp)
      · show Linked (n * linesize) ((s.client.back + ushort (r.length + 1)) % s.client.size)
          (s.pending ++ [{ start := s.client.back, req := r }])
        rw [hlen, hcs]
        exact linked_append hl r
  | deq =>
    rcases step_deq_cases s with h0 | ⟨_, _, out, _, h1⟩
    · rw [h0]
      exact ⟨hss, hcs, hb, hr, hst, hsp, hfr, hl⟩
    · rw [h1]
      refine ⟨hss, hcs, hb, fun p hp => hr p (List.mem_of_mem_tail hp),
        fun p hp => hst p (List.mem_of_mem_tail hp), hsp, ?_, linked_tail hl⟩
      intro hn
      show (s.server.front + ushort (out.length + 1)) % s.server.size < n * linesize
      rw [hss]
      exact Nat.mod_lt _ (Nat.mul_pos hn (by decide))

theorem placed_exec (n : Nat) (ops : List Op) (hv : ∀ op ∈ ops, op.Valid) :
    Placed n (Sys.exec (Sys.init n) ops) := by
  induction ops using List.reverseRecOn with
  | nil => exact placed_init n
  | append_singleton ops op ih =>
    rw [exec_snoc]
    exact placed_step (counted_exec n ops) (ih (fun o ho => hv o (List.mem_append_left _ ho)))
      op (hv op (List.mem_append_right _ (List.mem_singleton.2 rfl)))

theorem sum_len_le {ps : List Pending} (h : ∀ p ∈ ps, Record p.req) :
    (ps.map Pending.len).sum ≤ ps.length * linesize := by
  induction ps with
  | nil => simp
  | cons p ps ih =>
    have h1 := (h p (List.mem_cons_self _ _)).2
    have h2 := ih (fun q hq => h q (List.mem_cons_of_mem _ hq))
    simp only [List.map_cons, List.sum_cons, List.length_cons, Nat.add_mul, Nat.one_mul,
      Pending.len] at *
    omega

/-- Two offsets less than a region apart, counted from the same start, are different
cells of the region. -/
theorem mod_ne_of_lt {sz a x y : Nat} (hxy : x < y) (hy : y < sz) :
    (a + x) % sz ≠ (a + y) % sz := by
  intro h
  have h1 : Nat.ModEq sz (a + x) (a + y) := h
  have h2 : Nat.ModEq sz x y := Nat.ModEq.add_left_cancel' a h1
  have := Nat.ModEq.eq_of_lt_of_lt h2 (by omega) hy
  omega

theorem linked_disjoint {sz b L : Nat} {ps : List Pending} (hl : Linked sz b ps)
    (hrec : ∀ p ∈ ps, Record p.req) (hcap : ps.length * linesize + L ≤ sz)
    {p : Pending} (hp : p ∈ ps) {j j' : Nat} (hj : j < p.len) (hj' : j' < L) :
    (p.start + j) % sz ≠ (b + j') % sz := by
  induction ps with
  | nil => cases hp
  | cons q ps ih =>
    rcases List.mem_cons.1 hp with rfl | hp'
    · have hsum := sum_len_le hrec
      have h1 := hl.1
      simp only [List.map_cons, List.sum_cons, List.length_cons] at hsum h1 hcap
      rw [← h1, Nat.mod_add_mod, Nat.add_assoc]
      apply mod_ne_of_lt <;> omega
    · refine ih hl.2 (fun q hq => hrec q (List.mem_cons_of_mem _ hq)) ?_ hp'
      simp only [List.length_cons, Nat.add_mul] at hcap
      omega

/-- Every cell of a record inside the region lies less than the record's length after
its start, around the region. -/
theorem cells_mod {sz : Nat} {p : Pending} (hrec : Record p.req) (hstart : p.start < sz)
    {a : Nat} (ha : a ∈ p.cells sz) : ∃ j, j < p.len ∧ a = (p.start + j) % sz := by
  have hL := hrec.2
  rw [linesize_eq] at hL
  have hlen : ushort (p.req.length + 1) = p.req.length + 1 := ushort_of_lt (by omega)
  simp only [Pending.cells, List.mem_filter, decide_eq_true_eq] at ha
  obtain ⟨ha, hlt⟩ := ha
  unfold Client.enqueue_writes at ha
  split at ha
  · rename_i hs
    simp only [Client.splits, hlen] at hs
    have hoff : ushort (sz - p.start) = sz - p.start := ushort_of_lt (by omega)
    simp only [hoff, List.mem_append, List.mem_map, List.mem_range, List.length_take,
      List.length_drop] at ha
    rcases ha with ⟨i, hi, rfl⟩ | ha
    · exact ⟨i, by simp only [Pending.len]; omega, (Nat.mod_eq_of_lt hlt).symm⟩
    · refine ⟨sz - p.start + a, by simp only [Pending.len]; omega, ?_⟩
      have e : p.start + (sz - p.start + a) = a + sz := by omega
      rw [e, Nat.add_mod_right, Nat.mod_eq_of_lt hlt]
  · simp only [List.mem_map, List.mem_range] at ha
    obtain ⟨i, hi, rfl⟩ := ha
    exact ⟨i, by simp only [Pending.len]; omega, (Nat.mod_eq_of_lt hlt).symm⟩

/-- C7: one producer, a queue created for `n` requests, records of at most 1282 bytes
with their NUL. After any schedule, the cells of the region that an `enqueue` allowed to
proceed stores to are none of the cells of a record enqueued and not yet dequeued. -/
theorem live_bytes_disjoint (n : Nat) (ops : List Op) (hv : ∀ op ∈ ops, op.Valid)
    (r : List Nat) (hr : Record r)
    (hgo : (Client.enqueue r (Sys.exec (Sys.init n) ops).client
              (Sys.exec (Sys.init n) ops).sh).isSome)
    (p : Pending) (hp : p ∈ (Sys.exec (Sys.init n) ops).pending)
    (a : Nat) (ha : a ∈ p.cells (n * linesize)) :
    a ∉ Pending.cells (n * linesize)
          { start := (Sys.exec (Sys.init n) ops).client.back, req := r } := by
  obtain ⟨_, hslots, hfull, _, _⟩ := counted_exec n ops
  obtain ⟨_, _, hb, hrecs, hst, _, _, hl⟩ := placed_exec n ops hv
  have hne : (Sys.exec (Sys.init n) ops).sh.empty ≠ 0 := by
    intro h0
    simp [Client.enqueue, h0] at hgo
  have hn : 0 < n := by omega
  intro ha'
  obtain ⟨j, hj, e1⟩ := cells_mod (hrecs p hp) (hst p hp) ha
  obtain ⟨j', hj', e2⟩ := cells_mod (p := { start := _, req := r }) hr (hb hn) ha'
  have hcap : (Sys.exec (Sys.init n) ops).pending.length * linesize + (r.length + 1)
      ≤ n * linesize := by
    have h1 : (Sys.exec (Sys.init n) ops).pending.length + 1 ≤ n := by omega
    have h2 := Nat.mul_le_mul_right linesize h1
    have h3 := hr.2
    rw [Nat.add_mul, Nat.one_mul] at h2
    omega
  exact linked_disjoint hl hrecs hcap hp hj hj' (e1.symm.trans e2)

/-! ## `dequeue` returns -/

theorem dequeue_load_isSome {n : Nat} {s : Sys} (h : Placed n s) (hn : 0 < n) :
    (Server.dequeue_load s.server s.sh).isSome := by
  have hf := h.front_lt hn
  have hsp := h.spare
  unfold Server.dequeue_load
  split
  · rw [Option.isSome_map']
    apply cstr_isSome (n * linesize - s.server.front)
    · have e : s.server.front + (n * linesize - s.server.front) = n * linesize := by omega
      rw [e]
      exact hsp
    · rw [h.ssize]
      omega
  · rw [Option.isSome_map']
    apply cstr_isSome (n * linesize)
    · rw [Nat.zero_add]
      exact hsp
    · rw [h.ssize]
      omega

theorem step_deq_enabled {n : Nat} {s : Sys} (hc : Counted n s) (h : Placed n s)
    (hfull : s.sh.full ≠ 0) :
    ∃ out, Server.dequeue_load s.server s.sh = some (out, s.sh.overlap) ∧
      Sys.step s .deq =
        { s with
          server := { s.server with
                      front := (s.server.front + ushort (out.length + 1)) % s.server.size }
          sh := { s.sh with full := s.sh.full - 1, empty := s.sh.empty + 1 }
          pending := s.pending.tail
          delivered := s.delivered ++ [out] } := by
  have hn : 0 < n := by have := hc.slots; omega
  have hm : s.sh.mutex ≠ 0 := by rw [hc.mutex]; decide
  have hsome := dequeue_load_isSome h hn
  cases hl : Server.dequeue_load s.server s.sh with
  | none => rw [hl] at hsome; cases hsome
  | some p =>
    obtain ⟨out, ov⟩ := p
    have hov := dequeue_load_overlap hl
    subst hov
    refine ⟨out, rfl, ?_⟩
    simp [Sys.step, Server.dequeue, hfull, hm, hl]

/-! ## The consumer in step with the producer -/

theorem split_iff (sz : Nat) {p : Pending} (hr : Record p.req) :
    p.split sz ↔ sz < p.start + p.len := by
  unfold Pending.split Pending.len
  exact splits_iff (q := { back := p.start, size := sz }) hr

theorem served_of_whole {sz : Nat} {p : Pending} (hw : p.whole sz) : p.served sz = p.req := by
  unfold Pending.served
  split
  · exact List.take_of_length_le (by unfold Pending.whole at hw; omega)
  · rfl

theorem dequeue_load_sync {n : Nat} {s : Sys} (h : Placed n s) (hs : Sync n s)
    {p : Pending} {ps : List Pending} (hp : s.pending = p :: ps) :
    Server.dequeue_load s.server s.sh = some (p.served (n * linesize), s.sh.overlap) := by
  have hmem : p ∈ s.pending := by rw [hp]; exact List.mem_cons_self _ _
  have hrec := h.recs p hmem
  have hst := h.starts p hmem
  have hsto := hs.stored p hmem
  have hfront : s.server.front = p.start := by rw [hs.front, hp]; rfl
  have hcond : s.sh.overlap ≠ 0 ∨
      (s.server.front : Int) ≠ (s.server.size : Int) - (s.sh.overlap : Int) := by
    by_cases h0 : s.sh.overlap = 0
    · right
      rw [h0, hfront, h.ssize]
      omega
    · exact Or.inl h0
  unfold Server.dequeue_load
  rw [if_pos hcond, hfront, h.ssize]
  have key : cstr s.sh.buffer (n * linesize + 1 - p.start) p.start
      = some (p.served (n * linesize)) := by
    unfold Pending.served
    by_cases hsp : p.split (n * linesize)
    · rw [if_pos hsp]
      have hlt := (split_iff _ hrec).1 hsp
      simp only [Pending.len] at hlt
      apply cstr_of_bytes
      · intro j hj
        simp only [List.length_take] at hj
        have := hsto j (by simp only [Pending.len]; omega)
        rw [Nat.mod_eq_of_lt (by omega), getD_append_zero_left (by omega)] at this
        rw [this]
        simp only [List.getD_eq_getElem?_getD, List.getElem?_take]
        rw [if_pos (by omega)]
      · intro b hb
        exact hrec.1 b (List.mem_of_mem_take hb)
      · simp only [List.length_take]
        have e : p.start + min (n * linesize - p.start) p.req.length = n * linesize := by omega
        rw [e]
        exact h.spare
      · simp only [List.length_take]
        omega
    · rw [if_neg hsp]
      have hle : p.start + p.len ≤ n * linesize := by
        have := (split_iff (n * linesize) hrec).not.1 hsp
        omega
      simp only [Pending.len] at hle
      apply cstr_of_bytes
      · intro j hj
        have := hsto j (by simp only [Pending.len]; omega)
        rw [Nat.mod_eq_of_lt (by omega), getD_append_zero_left hj] at this
        exact this
      · exact hrec.1
      · have := hsto p.req.length (by simp only [Pending.len]; omega)
        rw [Nat.mod_eq_of_lt (by omega), getD_append_zero_right] at this
        exact this
      · omega
  rw [key]
  rfl

theorem linked_next {sz b : Nat} {p : Pending} {ps : List Pending}
    (hl : Linked sz b (p :: ps)) (hst : ∀ q ∈ ps, q.start < sz) :
    headStart b ps = (p.start + p.len) % sz := by
  cases ps with
  | nil =>
    have h1 := hl.1
    simp only [List.map_cons, List.map_nil, List.sum_cons, List.sum_nil, Nat.add_zero] at h1
    exact h1.symm
  | cons q qs =>
    have h1 := hl.1
    have h2 := hl.2.1
    simp only [List.map_cons, List.sum_cons] at h1 h2
    have hq := hst q (List.mem_cons_self _ _)
    have hm : Nat.ModEq sz (p.start + p.len + (q.len + (qs.map Pending.len).sum))
        (q.start + (q.len + (qs.map Pending.len).sum)) := by
      show _ % sz = _ % sz
      rw [Nat.add_assoc, h1, h2]
    have hm2 : Nat.ModEq sz (p.start + p.len) q.start := Nat.ModEq.add_right_cancel' _ hm
    show q.start = (p.start + p.len) % sz
    have : (p.start + p.len) % sz = q.start % sz := hm2
    rw [this, Nat.mod_eq_of_lt hq]

theorem stored_enq {n : Nat} {s : Sys} (hc : Counted n s) (h : Placed n s)
    (hsto : ∀ p ∈ s.pending, Stored (n * linesize) s.sh.buffer p)
    {r : List Nat} (hr : Record r) (hslot : s.sh.empty ≠ 0) (hmutex : s.sh.mutex ≠ 0) :
    ∀ p ∈ (Sys.step s (.enq r)).pending,
      Stored (n * linesize) (Sys.step s (.enq r)).sh.buffer p := by
  rw [step_enq_enabled s r hslot hmutex]
  have hn : 0 < n := by have := hc.slots; omega
  have hcs := h.csize
  have hback : s.client.back < s.client.size := by rw [hcs]; exact h.back_lt hn
  have hfit : r.length + 1 ≤ s.client.size := by
    rw [hcs]
    exact le_trans hr.2 (Nat.le_mul_of_pos_left _ hn)
  intro p hp
  show Stored (n * linesize) (Client.enqueue_store r s.client s.sh).buffer p
  rcases List.mem_append.1 hp with hp | hp
  · intro j hj
    have hcap : s.pending.length * linesize + (r.length + 1) ≤ n * linesize := by
      have h1 : s.pending.length + 1 ≤ n := by
        have := hc.slots; have := hc.full; omega
      have h2 := Nat.mul_le_mul_right linesize h1
      have h3 := hr.2
      rw [Nat.add_mul, Nat.one_mul] at h2
      omega
    have hlt : (p.start + j) % (n * linesize) < s.client.size := by
      rw [hcs]
      exact Nat.mod_lt _ (Nat.mul_pos hn (by decide))
    rw [enqueue_store_frame s.sh hr hback hlt]
    · exact hsto p hp j hj
    · intro j' hj'
      rw [hcs]
      exact linked_disjoint h.linked h.recs hcap hp hj hj'
  · rw [List.mem_singleton.1 hp, ← hcs]
    exact enqueue_store_stored s.sh hr hback hfit

theorem stored_step {n : Nat} {s : Sys} (hc : Counted n s) (h : Placed n s) (op : Op)
    (hv : op.Valid) (hsto : ∀ p ∈ s.pending, Stored (n * linesize) s.sh.buffer p) :
    ∀ p ∈ (Sys.step s op).pending, Stored (n * linesize) (Sys.step s op).sh.buffer p := by
  cases op with
  | enq r =>
    by_cases hbl : s.sh.empty = 0 ∨ s.sh.mutex = 0
    · rw [step_enq_blocked s r hbl]
      exact hsto
    · push_neg at hbl
      exact stored_enq hc h hsto hv hbl.1 hbl.2
  | deq =>
    rcases step_deq_cases s with h0 | ⟨_, _, out, _, h1⟩
    · rw [h0]
      exact hsto
    · rw [h1]
      intro p hp
      exact hsto p (List.mem_of_mem_tail hp)

/-- Every record enqueued and not yet dequeued is in memory as it was stored, whatever
has been enqueued since. -/
theorem undelivered_intact (n : Nat) (ops : List Op) (hv : ∀ op ∈ ops, op.Valid) :
    ∀ p ∈ (Sys.exec (Sys.init n) ops).pending,
      Stored (n * linesize) (Sys.exec (Sys.init n) ops).sh.buffer p := by
  induction ops using List.reverseRecOn with
  | nil =>
    intro p hp
    cases hp
  | append_singleton ops op ih =>
    have hv' : ∀ o ∈ ops, o.Valid := fun o ho => hv o (List.mem_append_left _ ho)
    rw [exec_snoc]
    exact stored_step (counted_exec n ops) (placed_exec n ops hv') op
      (hv op (List.mem_append_right _ (List.mem_singleton.2 rfl))) (ih hv')

theorem sync_enq {n : Nat} {s : Sys} (hc : Counted n s) (h : Placed n s) (hs : Sync n s)
    {r : List Nat} (hr : Record r) (hslot : s.sh.empty ≠ 0) (hmutex : s.sh.mutex ≠ 0) :
    Sync n (Sys.step s (.enq r)) := by
  refine ⟨?_, stored_enq hc h hs.stored hr hslot hmutex⟩
  rw [step_enq_enabled s r hslot hmutex]
  show s.server.front = headStart ((s.client.back + ushort (r.length + 1)) % s.client.size)
    (s.pending ++ [{ start := s.client.back, req := r }])
  rw [hs.front]
  cases s.pending with
  | nil => rfl
  | cons p ps => rfl

theorem take_succ_of_drop {l : List Pending} {k : Nat} {p : Pending} {ps : List Pending}
    (h : l.drop k = p :: ps) : l.take (k + 1) = l.take k ++ [p] := by
  rw [List.take_add, h]
  rfl

theorem fifo_init (n : Nat) : Fifo n (Sys.init n) := by
  constructor
  · intro _
    rfl
  · intro _
    exact ⟨rfl, fun p hp => by cases hp⟩

theorem fifo_step {n : Nat} {s : Sys} (hc : Counted n s) (h : Placed n s) (hf : Fifo n s)
    (op : Op) (hv : op.Valid) : Fifo n (Sys.step s op) := by
  cases op with
  | enq r =>
    by_cases hbl : s.sh.empty = 0 ∨ s.sh.mutex = 0
    · rw [step_enq_blocked s r hbl]
      exact hf
    · push_neg at hbl
      have hk : s.delivered.length ≤ s.accepted.length := by have := hc.count; omega
      have hsync : (∀ p ∈ s.accepted.take s.delivered.length, p.whole (n * linesize)) →
          Sync n (Sys.step s (.enq r)) :=
        fun hw => sync_enq hc h (hf.sync hw) hv hbl.1 hbl.2
      rw [step_enq_enabled s r hbl.1 hbl.2] at hsync ⊢
      constructor
      · intro hw
        show s.delivered = ((s.accepted ++ [_]).take s.delivered.length).map _
        rw [List.take_append_of_le_length hk]
        apply hf.served
        intro p hp
        apply hw p
        show p ∈ (s.accepted ++ [_]).take (s.delivered.length - 1)
        rw [List.take_append_of_le_length (by omega)]
        exact hp
      · intro hw
        apply hsync
        intro p hp
        apply hw p
        show p ∈ (s.accepted ++ [_]).take s.delivered.length
        rw [List.take_append_of_le_length hk]
        exact hp
  | deq =>
    by_cases hfull : s.sh.full = 0
    · have : Sys.step s .deq = s := by simp [Sys.step, Server.dequeue, hfull]
      rw [this]
      exact hf
    · obtain ⟨out, hload, hstep⟩ := step_deq_enabled hc h hfull
      obtain ⟨p, ps, hp⟩ : ∃ p ps, s.pending = p :: ps := by
        cases hpe : s.pending with
        | nil => have := hc.full; rw [hpe] at this; simp at this; exact absurd this hfull
        | cons p ps => exact ⟨p, ps, rfl⟩
      have hdrop : s.accepted.drop s.delivered.length = p :: ps := by rw [hc.rest, hp]
      have htake := take_succ_of_drop hdrop
      have hout : (∀ q ∈ s.accepted.take s.delivered.length, q.whole (n * linesize)) →
          out = p.served (n * linesize) := by
        intro hw
        have := dequeue_load_sync h (hf.sync hw) hp
        rw [hload] at this
        simpa using this
      rw [hstep]
      constructor
      · intro hw
        have hw' : ∀ q ∈ s.accepted.take s.delivered.length, q.whole (n * linesize) := by
          intro q hq
          apply hw q
          show q ∈ s.accepted.take ((s.delivered ++ [out]).length - 1)
          simpa using hq
        show s.delivered ++ [out] = (s.accepted.take (s.delivered ++ [out]).length).map _
        rw [List.length_append, List.length_singleton, htake, List.map_append, hout hw',
          ← hf.served (fun q hq => hw' q
            (List.take_subset_take_left _ (Nat.sub_le _ _) hq))]
        rfl
      · intro hw
        have hw2 : ∀ q ∈ s.accepted.take (s.delivered.length + 1), q.whole (n * linesize) := by
          intro q hq
          apply hw q
          show q ∈ s.accepted.take (s.delivered ++ [out]).length
          simpa using hq
        have hw' : ∀ q ∈ s.accepted.take s.delivered.length, q.whole (n * linesize) :=
          fun q hq => hw2 q (List.take_subset_take_left _ (Nat.le_succ _) hq)
        have hpw : p.whole (n * linesize) := hw2 p (by rw [htake]; simp)
        have hs := hf.sync hw'
        have hrec := h.recs p (by rw [hp]; exact List.mem_cons_self _ _)
        have hL := hrec.2
        rw [linesize_eq] at hL
        constructor
        · show (s.server.front + ushort (out.length + 1)) % s.server.size
            = headStart s.client.back s.pending.tail
          have hl := h.linked
          rw [hp] at hl
          rw [hp, List.tail_cons, linked_next hl
            (fun q hq => h.starts q (by rw [hp]; exact List.mem_cons_of_mem _ hq)),
            hout hw', served_of_whole hpw, ushort_of_lt (by omega), h.ssize, hs.front, hp]
          rfl
        · intro q hq
          exact hs.stored q (List.mem_of_mem_tail hq)

theorem fifo_exec (n : Nat) (ops : List Op) (hv : ∀ op ∈ ops, op.Valid) :
    Fifo n (Sys.exec (Sys.init n) ops) := by
  induction ops using List.reverseRecOn with
  | nil => exact fifo_init n
  | append_singleton ops op ih =>
    have hv' : ∀ o ∈ ops, o.Valid := fun o ho => hv o (List.mem_append_left _ ho)
    rw [exec_snoc]
    exact fifo_step (counted_exec n ops) (placed_exec n ops hv') (ih hv') op
      (hv op (List.mem_append_right _ (List.mem_singleton.2 rfl)))

/-! ## The state without the bytes -/

theorem tally_overlap (s : Sys) : s.tally.overlap = s.sh.overlap := rfl

theorem tally_pending (s : Sys) : s.tally.pending = s.pending := rfl

theorem tally_accepted (s : Sys) : s.tally.accepted = s.accepted := rfl

theorem tally_served (s : Sys) : s.tally.served = s.delivered.length := rfl

theorem tally_full (s : Sys) : s.tally.full = s.sh.full := rfl

theorem tally_client (s : Sys) : s.tally.client = s.client := rfl

theorem tally_step {n : Nat} {s : Sys} (hc : Counted n s) (h : Placed n s) (op : Op) :
    (Sys.step s op).tally = s.tally.step op := by
  cases op with
  | enq r =>
    by_cases hbl : s.sh.empty = 0 ∨ s.sh.mutex = 0
    · rw [step_enq_blocked s r hbl]
      have : s.tally.empty = 0 ∨ s.tally.mutex = 0 := hbl
      simp [Tally.step, this]
    · have hbl' : ¬ (s.tally.empty = 0 ∨ s.tally.mutex = 0) := hbl
      push_neg at hbl
      rw [step_enq_enabled s r hbl.1 hbl.2]
      obtain ⟨h1, h2⟩ := enqueue_store_fields r s.client s.sh
      simp only [Tally.step, if_neg hbl']
      simp only [Sys.tally, h1, h2]
  | deq =>
    by_cases hfull : s.sh.full = 0
    · have e : Sys.step s .deq = s := by simp [Sys.step, Server.dequeue, hfull]
      have : s.tally.full = 0 ∨ s.tally.mutex = 0 := Or.inl hfull
      rw [e]
      simp [Tally.step, this]
    · obtain ⟨out, _, hstep⟩ := step_deq_enabled hc h hfull
      have hbl' : ¬ (s.tally.full = 0 ∨ s.tally.mutex = 0) := by
        have hm : s.tally.mutex = 1 := hc.mutex
        have hf : s.tally.full ≠ 0 := hfull
        rw [hm]
        simp [hf]
      rw [hstep]
      simp only [Tally.step, if_neg hbl']
      simp [Sys.tally]

theorem tally_exec_snoc (t : Tally) (ops : List Op) (op : Op) :
    Tally.exec t (ops ++ [op]) = Tally.step (Tally.exec t ops) op := by
  simp [Tally.exec, List.foldl_append]

theorem tally_exec (n : Nat) (ops : List Op) (hv : ∀ op ∈ ops, op.Valid) :
    (Sys.exec (Sys.init n) ops).tally = Tally.exec (Sys.init n).tally ops := by
  induction ops using List.reverseRecOn with
  | nil => rfl
  | append_singleton ops op ih =>
    have hv' : ∀ o ∈ ops, o.Valid := fun o ho => hv o (List.mem_append_left _ ho)
    rw [exec_snoc, tally_exec_snoc, ← ih hv']
    exact tally_step (counted_exec n ops) (placed_exec n ops hv') op


/-! ## The overlap word -/

theorem linked_mem {sz b : Nat} {ps : List Pending} (hl : Linked sz b ps) {q : Pending}
    (hq : q ∈ ps) :
    ∃ T, q.len ≤ T ∧ T ≤ (ps.map Pending.len).sum ∧ (q.start + T) % sz = b := by
  induction ps with
  | nil => cases hq
  | cons p ps ih =>
    rcases List.mem_cons.1 hq with rfl | hq'
    · refine ⟨_, ?_, le_refl _, hl.1⟩
      simp only [List.map_cons, List.sum_cons]
      omega
    · obtain ⟨T, h1, h2, h3⟩ := ih hl.2 hq'
      refine ⟨T, h1, ?_, h3⟩
      simp only [List.map_cons, List.sum_cons]
      omega

theorem split_pairwise {sz b : Nat} {ps : List Pending} (hl : Linked sz b ps)
    (hrec : ∀ p ∈ ps, Record p.req) (hst : ∀ p ∈ ps, p.start < sz)
    (hcap : ps.length * linesize ≤ sz) :
    ps.Pairwise (fun p q => ¬ (p.split sz ∧ q.split sz)) := by
  induction ps with
  | nil => exact List.Pairwise.nil
  | cons p ps ih =>
    have hcap' : ps.length * linesize ≤ sz := by
      simp only [List.length_cons, Nat.add_mul] at hcap
      omega
    refine List.Pairwise.cons ?_
      (ih hl.2 (fun q hq => hrec q (List.mem_cons_of_mem _ hq))
        (fun q hq => hst q (List.mem_cons_of_mem _ hq)) hcap')
    intro q hq ⟨hp1, hq1⟩
    have hpr := hrec p (List.mem_cons_self _ _)
    have hqr := hrec q (List.mem_cons_of_mem _ hq)
    have hps := hst p (List.mem_cons_self _ _)
    have hqs := hst q (List.mem_cons_of_mem _ hq)
    have hp2 := (split_iff _ hpr).1 hp1
    have hq2 := (split_iff _ hqr).1 hq1
    obtain ⟨T, h1, h2, h3⟩ := linked_mem hl.2 hq
    have h4 := hl.1
    have hsum := sum_len_le hrec
    simp only [List.map_cons, List.sum_cons, List.length_cons] at h4 hsum hcap
    have hm : Nat.ModEq sz (p.start + (p.len + (ps.map Pending.len).sum - T) + T)
        (q.start + T) := by
      show _ % sz = _ % sz
      rw [h3, ← h4]
      congr 1
      omega
    have hm2 := Nat.ModEq.add_right_cancel' _ hm
    have hm3 : (p.start + (p.len + (ps.map Pending.len).sum - T)) % sz = q.start := by
      have : _ % sz = q.start % sz := hm2
      rw [this, Nat.mod_eq_of_lt hqs]
    have e : p.start + (p.len + (ps.map Pending.len).sum - T)
        = (p.start + (p.len + (ps.map Pending.len).sum - T) - sz) + sz := by omega
    rw [e, Nat.add_mod_right, Nat.mod_eq_of_lt (by omega)] at hm3
    omega

theorem filter_length_le_one {l : List Pending} {P : Pending → Prop} [DecidablePred P]
    (h : l.Pairwise (fun p q => ¬ (P p ∧ P q))) :
    (l.filter (fun p => decide (P p))).length ≤ 1 := by
  induction l with
  | nil => simp
  | cons p l ih =>
    obtain ⟨h1, h2⟩ := List.pairwise_cons.1 h
    by_cases hp : P p
    · have hnil : l.filter (fun q => decide (P q)) = [] := by
        rw [List.filter_eq_nil_iff]
        intro q hq
        simpa using fun hq' => h1 q hq ⟨hp, hq'⟩
      simp [List.filter_cons, hp, hnil]
    · simpa [List.filter_cons, hp] using ih h2

theorem wrapped_step {n : Nat} {s : Sys} (hc : Counted n s) (h : Placed n s) (op : Op)
    (hv : op.Valid)
    (hw : ∀ p ∈ s.pending, p.split (n * linesize) → s.sh.overlap = n * linesize - p.start) :
    ∀ p ∈ (Sys.step s op).pending, p.split (n * linesize) →
      (Sys.step s op).sh.overlap = n * linesize - p.start := by
  have hc' := counted_step hc op
  have h' := placed_step hc h op hv
  cases op with
  | enq r =>
    by_cases hbl : s.sh.empty = 0 ∨ s.sh.mutex = 0
    · rw [step_enq_blocked s r hbl]
      exact hw
    · push_neg at hbl
      have hpw := split_pairwise h'.linked h'.recs h'.starts (by
        have h1 : (Sys.step s (.enq r)).pending.length ≤ n := by
          have := hc'.slots; have := hc'.full; omega
        exact Nat.mul_le_mul_right linesize h1)
      rw [step_enq_enabled s r hbl.1 hbl.2] at hpw ⊢
      have hrec : Record r := hv
      have hL := hrec.2
      rw [linesize_eq] at hL
      have hn : 0 < n := by have := hc.slots; have := hbl.1; omega
      have hback := h.back_lt hn
      obtain ⟨_, hov⟩ := enqueue_store_fields r s.client s.sh
      obtain ⟨_, _, hcross⟩ := List.pairwise_append.1 hpw
      intro p hp hsplit
      show (Client.enqueue_store r s.client s.sh).overlap = n * linesize - p.start
      rw [hov]
      have hp' : p ∈ s.pending ++ [{ start := s.client.back, req := r }] := hp
      have hnew : Pending.split (n * linesize) { start := s.client.back, req := r }
          ↔ Client.splits r s.client := by
        unfold Pending.split
        rw [← h.csize]
      rcases List.mem_append.1 hp' with hp' | hp'
      · by_cases hs : Client.splits r s.client
        · exact absurd ⟨hsplit, hnew.2 hs⟩ (hcross p hp' _ (List.mem_singleton.2 rfl))
        · rw [if_neg hs]
          exact hw p hp' hsplit
      · rw [List.mem_singleton.1 hp'] at hsplit ⊢
        have hs := hnew.1 hsplit
        have hlt := (splits_iff hrec).1 hs
        rw [if_pos hs, h.csize] at *
        exact ushort_of_lt (by omega)
  | deq =>
    rcases step_deq_cases s with h0 | ⟨_, _, out, _, h1⟩
    · rw [h0]
      exact hw
    · rw [h1]
      intro p hp hsplit
      exact hw p (List.mem_of_mem_tail hp) hsplit

theorem wrapped_exec (n : Nat) (ops : List Op) (hv : ∀ op ∈ ops, op.Valid) :
    ∀ p ∈ (Sys.exec (Sys.init n) ops).pending, p.split (n * linesize) →
      (Sys.exec (Sys.init n) ops).sh.overlap = n * linesize - p.start := by
  induction ops using List.reverseRecOn with
  | nil =>
    intro p hp
    cases hp
  | append_singleton ops op ih =>
    have hv' : ∀ o ∈ ops, o.Valid := fun o ho => hv o (List.mem_append_left _ ho)
    rw [exec_snoc]
    exact wrapped_step (counted_exec n ops) (placed_exec n ops hv') op
      (hv op (List.mem_append_right _ (List.mem_singleton.2 rfl))) (ih hv')

/-- C8: one producer, a queue created for `n` requests, records of at most 1282 bytes
with their NUL. After any schedule at most one undelivered record is split across the
end of the region, and for every undelivered record that is split the overlap word holds
the number of its bytes stored at the tail. -/
theorem single_wrapped_record (n : Nat) (ops : List Op) (hv : ∀ op ∈ ops, op.Valid) :
    ((Sys.exec (Sys.init n) ops).pending.filter
        (fun p => decide (p.split (n * linesize)))).length ≤ 1 ∧
    ∀ p ∈ (Sys.exec (Sys.init n) ops).pending, p.split (n * linesize) →
      (Sys.exec (Sys.init n) ops).sh.overlap = n * linesize - p.start := by
  obtain ⟨_, hslots, hfull, _, _⟩ := counted_exec n ops
  have h := placed_exec n ops hv
  refine ⟨?_, wrapped_exec n ops hv⟩
  apply filter_length_le_one
  apply split_pairwise h.linked h.recs h.starts
  exact Nat.mul_le_mul_right linesize (by omega)


theorem unsplit_step {n : Nat} {s : Sys} (h : Placed n s) (op : Op)
    (hl : (∀ p ∈ s.accepted, ¬ p.split (n * linesize)) → s.sh.overlap = 0) :
    (∀ p ∈ (Sys.step s op).accepted, ¬ p.split (n * linesize)) →
      (Sys.step s op).sh.overlap = 0 := by
  cases op with
  | enq r =>
    by_cases hbl : s.sh.empty = 0 ∨ s.sh.mutex = 0
    · rw [step_enq_blocked s r hbl]
      exact hl
    · push_neg at hbl
      rw [step_enq_enabled s r hbl.1 hbl.2]
      obtain ⟨_, hov⟩ := enqueue_store_fields r s.client s.sh
      have hnew : Pending.split (n * linesize) { start := s.client.back, req := r }
          ↔ Client.splits r s.client := by
        unfold Pending.split
        rw [← h.csize]
      intro hall
      have hall' : ∀ p ∈ s.accepted ++ [(⟨s.client.back, r⟩ : Pending)],
          ¬ p.split (n * linesize) := hall
      show (Client.enqueue_store r s.client s.sh).overlap = 0
      have hs : ¬ Client.splits r s.client :=
        fun hs => hall' _ (List.mem_append_right _ (List.mem_singleton.2 rfl)) (hnew.2 hs)
      rw [hov, if_neg hs]
      exact hl (fun p hp => hall' p (List.mem_append_left _ hp))
  | deq =>
    rcases step_deq_cases s with h0 | ⟨_, _, out, _, h1⟩
    · rw [h0]
      exact hl
    · rw [h1]
      exact hl

theorem unsplit_exec (n : Nat) (ops : List Op) (hv : ∀ op ∈ ops, op.Valid) :
    (∀ p ∈ (Sys.exec (Sys.init n) ops).accepted, ¬ p.split (n * linesize)) →
      (Sys.exec (Sys.init n) ops).sh.overlap = 0 := by
  induction ops using List.reverseRecOn with
  | nil =>
    intro _
    rfl
  | append_singleton ops op ih =>
    have hv' : ∀ o ∈ ops, o.Valid := fun o ho => hv o (List.mem_append_left _ ho)
    rw [exec_snoc]
    exact unsplit_step (placed_exec n ops hv') op (ih hv')

/-- C4, as amended: after any schedule, if the most recently enqueued record was split
across the end of the region and has not been dequeued yet, the overlap word is nonzero
and equals the number of bytes of that record stored at the tail; and while no record has
been split the overlap word is zero. -/
theorem overlap_of_last_split (n : Nat) (ops : List Op) (hv : ∀ op ∈ ops, op.Valid) :
    (∀ p, (Sys.exec (Sys.init n) ops).accepted.getLast? = some p →
        p ∈ (Sys.exec (Sys.init n) ops).pending → p.split (n * linesize) →
        (Sys.exec (Sys.init n) ops).sh.overlap = n * linesize - p.start ∧
        (Sys.exec (Sys.init n) ops).sh.overlap ≠ 0) ∧
    ((∀ p ∈ (Sys.exec (Sys.init n) ops).accepted, ¬ p.split (n * linesize)) →
        (Sys.exec (Sys.init n) ops).sh.overlap = 0) := by
  refine ⟨?_, unsplit_exec n ops hv⟩
  intro p _ hp hsplit
  have he := wrapped_exec n ops hv p hp hsplit
  have hlt := (placed_exec n ops hv).starts p hp
  rw [he]
  exact ⟨rfl, by omega⟩

/-- C4, as stated, fails: with a queue for two requests, after `lateSchedule` the most
recently enqueued record `a b` lies contiguously at offset 7, while the overlap word is
still 2, the tail length of the undelivered record `/tmp foo` enqueued before it. -/
theorem overlap_nonzero_after_contiguous_enqueue :
    (Sys.exec (Sys.init 2) lateSchedule).sh.overlap = 2 ∧
    (Sys.exec (Sys.init 2) lateSchedule).pending
      = [{ start := 2562, req := recB }, { start := 7, req := recE }] ∧
    (Sys.exec (Sys.init 2) lateSchedule).accepted.getLast? = some { start := 7, req := recE } ∧
    ¬ Pending.split (2 * linesize) { start := 7, req := recE } ∧
    ¬ ((Sys.exec (Sys.init 2) lateSchedule).sh.overlap ≠ 0 ↔
        ∃ p, (Sys.exec (Sys.init 2) lateSchedule).accepted.getLast? = some p ∧
          p.split (2 * linesize)) := by
  have hv : ∀ op ∈ lateSchedule, op.Valid := by decide!
  have ht := tally_exec 2 lateSchedule hv
  have e1 : (Tally.exec (Sys.init 2).tally lateSchedule).overlap = 2 := by decide!
  have e2 : (Tally.exec (Sys.init 2).tally lateSchedule).pending
      = [{ start := 2562, req := recB }, { start := 7, req := recE }] := by decide!
  have e3 : (Tally.exec (Sys.init 2).tally lateSchedule).accepted.getLast?
      = some { start := 7, req := recE } := by decide!
  rw [← ht] at e1 e2 e3
  rw [tally_overlap] at e1
  rw [tally_pending] at e2
  rw [tally_accepted] at e3
  have h1 : (Sys.exec (Sys.init 2) lateSchedule).sh.overlap = 2 := e1
  have h2 : (Sys.exec (Sys.init 2) lateSchedule).pending
      = [{ start := 2562, req := recB }, { start := 7, req := recE }] := e2
  have h3 : (Sys.exec (Sys.init 2) lateSchedule).accepted.getLast?
      = some { start := 7, req := recE } := e3
  have h4 : ¬ Pending.split (2 * linesize) { start := 7, req := recE } := by decide!
  refine ⟨h1, h2, h3, h4, ?_⟩
  rw [h1, h3]
  intro hiff
  obtain ⟨p, hp, hs⟩ := hiff.1 (by decide)
  rw [← Option.some.inj hp] at hs
  exact h4 hs

/-- C1 fails at `splitSchedule` (server started for one request): `recA` is enqueued and
dequeued, then `/tmp foo` is enqueued at offset 1280 and split after 2 bytes; the second
`dequeue` returns `/t`, not `/tmp foo`. -/
theorem round_trip_truncates_split_record :
    (Sys.exec (Sys.init 1) splitSchedule).accepted
      = [{ start := 0, req := recA }, { start := 1280, req := recB }] ∧
    (Sys.exec (Sys.init 1) splitSchedule).delivered = [recA, [47, 116]] ∧
    (Sys.exec (Sys.init 1) splitSchedule).delivered ≠ [recA, recB] := by
  have hv : ∀ op ∈ splitSchedule, op.Valid := by decide!
  have ht := tally_exec 1 splitSchedule hv
  have hf := fifo_exec 1 splitSchedule hv
  have e1 : (Tally.exec (Sys.init 1).tally splitSchedule).accepted
      = [{ start := 0, req := recA }, { start := 1280, req := recB }] := by decide!
  have e2 : (Tally.exec (Sys.init 1).tally splitSchedule).served = 2 := by decide!
  rw [← ht] at e1 e2
  rw [tally_accepted] at e1
  rw [tally_served] at e2
  have hacc : (Sys.exec (Sys.init 1) splitSchedule).accepted
      = [{ start := 0, req := recA }, { start := 1280, req := recB }] := e1
  have hlen : (Sys.exec (Sys.init 1) splitSchedule).delivered.length = 2 := e2
  have hw : ∀ p ∈ ([{ start := 0, req := recA }, { start := 1280, req := recB }]
      : List Pending).take (2 - 1), p.whole (1 * linesize) := by decide!
  have hd := hf.served (by rw [hlen, hacc]; exact hw)
  rw [hlen, hacc] at hd
  have e3 : (([{ start := 0, req := recA }, { start := 1280, req := recB }]
      : List Pending).take 2).map (Pending.served (1 * linesize)) = [recA, [47, 116]] := by
    decide!
  have hd' : (Sys.exec (Sys.init 1) splitSchedule).delivered = [recA, [47, 116]] :=
    hd.trans e3
  have hne : [recA, [47, 116]] ≠ [recA, recB] := by decide!
  refine ⟨hacc, hd', ?_⟩
  rw [hd']
  exact hne


/-! ## Delivery in order -/

theorem accepted_step {s : Sys} (op : Op) (hv : op.Valid)
    (h : ∀ p ∈ s.accepted, Record p.req) : ∀ p ∈ (Sys.step s op).accepted, Record p.req := by
  cases op with
  | enq r =>
    by_cases hbl : s.sh.empty = 0 ∨ s.sh.mutex = 0
    · rw [step_enq_blocked s r hbl]
      exact h
    · push_neg at hbl
      rw [step_enq_enabled s r hbl.1 hbl.2]
      intro p hp
      have hp' : p ∈ s.accepted ++ [(⟨s.client.back, r⟩ : Pending)] := hp
      rcases List.mem_append.1 hp' with hp' | hp'
      · exact h p hp'
      · rw [List.mem_singleton.1 hp']
        exact hv
  | deq =>
    rcases step_deq_cases s with h0 | ⟨_, _, out, _, h1⟩
    · rw [h0]
      exact h
    · rw [h1]
      exact h

theorem accepted_exec (n : Nat) (ops : List Op) (hv : ∀ op ∈ ops, op.Valid) :
    ∀ p ∈ (Sys.exec (Sys.init n) ops).accepted, Record p.req := by
  induction ops using List.reverseRecOn with
  | nil =>
    intro p hp
    cases hp
  | append_singleton ops op ih =>
    rw [exec_snoc]
    exact accepted_step op (hv op (List.mem_append_right _ (List.mem_singleton.2 rfl)))
      (ih (fun o ho => hv o (List.mem_append_left _ ho)))

theorem fifo_unsplit (n : Nat) (ops : List Op) (hv : ∀ op ∈ ops, op.Valid)
    (hns : ∀ p ∈ (Sys.exec (Sys.init n) ops).accepted, ¬ p.split (n * linesize)) :
    (Sys.exec (Sys.init n) ops).delivered =
      ((Sys.exec (Sys.init n) ops).accepted.take
        (Sys.exec (Sys.init n) ops).delivered.length).map Pending.req := by
  have hrec := accepted_exec n ops hv
  have hwhole : ∀ p ∈ (Sys.exec (Sys.init n) ops).accepted, p.whole (n * linesize) := by
    intro p hp
    have := (split_iff (n * linesize) (hrec p hp)).not.1 (hns p hp)
    unfold Pending.whole
    unfold Pending.len at this
    omega
  have hd := (fifo_exec n ops hv).served (fun p hp => hwhole p (List.take_subset _ _ hp))
  refine hd.trans (List.map_congr_left ?_)
  intro p hp
  unfold Pending.served
  rw [if_neg (hns p (List.take_subset _ _ hp))]

/-! ## Several producers -/

theorem mexec_snoc (s : MSys) (ops : List MOp) (op : MOp) :
    MSys.exec s (ops ++ [op]) = MSys.step (MSys.exec s ops) op := by
  simp [MSys.exec, List.foldl_append]

/-- A schedule in which only producer `i` enqueues runs as the one-producer system. -/
theorem mexec_single (n i : Nat) (ops : List MOp) (hby : ∀ op ∈ ops, op.By i) :
    (MSys.exec (MSys.init n) ops).server = (Sys.exec (Sys.init n) (ops.map MOp.forget)).server ∧
    (MSys.exec (MSys.init n) ops).clients i
      = (Sys.exec (Sys.init n) (ops.map MOp.forget)).client ∧
    (MSys.exec (MSys.init n) ops).sh = (Sys.exec (Sys.init n) (ops.map MOp.forget)).sh ∧
    (MSys.exec (MSys.init n) ops).accepted
      = (Sys.exec (Sys.init n) (ops.map MOp.forget)).accepted ∧
    (MSys.exec (MSys.init n) ops).delivered
      = (Sys.exec (Sys.init n) (ops.map MOp.forget)).delivered := by
  induction ops using List.reverseRecOn with
  | nil => exact ⟨rfl, rfl, rfl, rfl, rfl⟩
  | append_singleton ops op ih =>
    obtain ⟨h1, h2, h3, h4, h5⟩ := ih (fun o ho => hby o (List.mem_append_left _ ho))
    have hop := hby op (List.mem_append_right _ (List.mem_singleton.2 rfl))
    rw [mexec_snoc, List.map_append, List.map_singleton, exec_snoc]
    cases op with
    | enq j r =>
      obtain ⟨rfl, _⟩ := hop
      simp only [MSys.step, MOp.forget, Sys.step, h2, h3]
      cases Client.enqueue r (Sys.exec (Sys.init n) (ops.map MOp.forget)).client
          (Sys.exec (Sys.init n) (ops.map MOp.forget)).sh with
      | none => exact ⟨h1, h2, h3, h4, h5⟩
      | some x =>
        obtain ⟨q', sh'⟩ := x
        simp [h1, h4, h5]
    | deq =>
      simp only [MSys.step, MOp.forget, Sys.step, h1, h3]
      cases Server.dequeue (Sys.exec (Sys.init n) (ops.map MOp.forget)).server
          (Sys.exec (Sys.init n) (ops.map MOp.forget)).sh with
      | none => exact ⟨h1, h2, h3, h4, h5⟩
      | some x =>
        obtain ⟨out, q', sh'⟩ := x
        simp [h2, h4, h5]

/-- C5, as amended: each producer attached to the queue has a `back` cursor of its own,
starting at 0. For every schedule of `enqueue` and `dequeue` calls in which all the
enqueues are made by one producer and no record is split across the end of the region,
the strings the dequeues return are the enqueued records, intact and in the order in
which the enqueues completed: one for every filled slot the consumer has taken. -/
theorem single_producer_fifo (n i : Nat) (ops : List MOp) (hby : ∀ op ∈ ops, op.By i)
    (hns : ∀ p ∈ (MSys.exec (MSys.init n) ops).accepted, ¬ p.split (n * linesize)) :
    (MSys.exec (MSys.init n) ops).delivered =
      ((MSys.exec (MSys.init n) ops).accepted.take
        (MSys.exec (MSys.init n) ops).delivered.length).map Pending.req ∧
    (MSys.exec (MSys.init n) ops).delivered.length + (MSys.exec (MSys.init n) ops).sh.full
      = (MSys.exec (MSys.init n) ops).accepted.length := by
  obtain ⟨_, _, h3, h4, h5⟩ := mexec_single n i ops hby
  rw [h4] at hns
  rw [h3, h4, h5]
  have hv : ∀ op ∈ ops.map MOp.forget, op.Valid := by
    intro op hop
    obtain ⟨mop, hm, rfl⟩ := List.mem_map.1 hop
    have := hby mop hm
    cases mop with
    | enq j r => exact this.2
    | deq => trivial
  refine ⟨fifo_unsplit n _ hv hns, ?_⟩
  have hc := counted_exec n (ops.map MOp.forget)
  rw [hc.full]
  exact hc.count

/-- C5, as stated, fails: two clients attached to a queue for two requests each enqueue
one record; both records are stored at offset 0, and the two dequeues return `c d` and
the empty string instead of `a b` and `c d`. -/
theorem two_producers_overwrite :
    (MSys.exec (MSys.init 2) twoClients).accepted
      = [{ start := 0, req := recE }, { start := 0, req := recF }] ∧
    (MSys.exec (MSys.init 2) twoClients).delivered = [recF, []] ∧
    (MSys.exec (MSys.init 2) twoClients).delivered ≠ [recE, recF] := by
  decide


/-! ## The split record at the consumer -/

/-- A state in step whose only undelivered record is `/tmp foo`, split after 2 bytes at
offset 1280 of a region of 1282 bytes. -/
theorem dequeue_at_split (s : Sys) (hpl : Placed 1 s) (hs : Sync 1 s)
    (hmutex : s.sh.mutex = 1) (e3 : s.pending = [{ start := 1280, req := recB }])
    (e4 : s.sh.overlap = 2) (e5 : s.sh.full = 1) :
    s.sh.overlap = 2 ∧
    s.server = { front := 1280, size := 1282 } ∧
    s.sh.buffer 1280 = 47 ∧ s.sh.buffer 1281 = 116 ∧
    cstr s.sh.buffer 1283 0 = some [109, 112, 32, 102, 111, 111] ∧
    (Server.dequeue s.server s.sh).map (fun x => (x.1, x.2.1, x.2.2.overlap))
      = some ([47, 116], { front := 1, size := 1282 }, 2) := by
  have hfront : s.server.front = 1280 := by
    rw [hs.front, e3]
    rfl
  have hsize : s.server.size = 1282 := hpl.ssize
  have hserver : s.server = { front := 1280, size := 1282 } := by
    cases hq : s.server with
    | mk f z =>
      rw [hq] at hfront hsize
      simp only at hfront hsize
      rw [hfront, hsize]
  have hsto : ∀ j, j < 9 → s.sh.buffer ((1280 + j) % 1282) = (recB ++ [0]).getD j 0 := by
    intro j hj
    exact hs.stored { start := 1280, req := recB } (by rw [e3]; exact List.mem_singleton.2 rfl)
      j hj
  have hload := dequeue_load_sync hpl hs e3
  have hserved : Pending.served (1 * linesize) { start := 1280, req := recB } = [47, 116] := by
    decide
  rw [hserved, e4] at hload
  refine ⟨e4, hserver, hsto 0 (by decide), hsto 1 (by decide), ?_, ?_⟩
  · apply cstr_of_bytes
    · intro j hj
      have hj' : j < 6 := hj
      have := hsto (j + 2) (by omega)
      interval_cases j <;> exact this
    · decide
    · exact hsto 8 (by decide)
    · decide
  · simp only [Server.dequeue, e5, hmutex, hload]
    simp only [hserver]
    rfl

/-- C3 fails after `wrapSchedule`: the overlap word is 2 and `front` is `1282 - 2`, the
tail holds `/t` and the bytes from offset 0 to the next NUL are `mp foo`; `dequeue`
returns only `/t`, leaves the overlap word at 2 and moves `front` to 1. -/
theorem dequeue_wrapped_record_truncated :
    (Sys.exec (Sys.init 1) wrapSchedule).sh.overlap = 2 ∧
    (Sys.exec (Sys.init 1) wrapSchedule).server = { front := 1280, size := 1282 } ∧
    (Sys.exec (Sys.init 1) wrapSchedule).sh.buffer 1280 = 47 ∧
    (Sys.exec (Sys.init 1) wrapSchedule).sh.buffer 1281 = 116 ∧
    cstr (Sys.exec (Sys.init 1) wrapSchedule).sh.buffer 1283 0
      = some [109, 112, 32, 102, 111, 111] ∧
    (Server.dequeue (Sys.exec (Sys.init 1) wrapSchedule).server
        (Sys.exec (Sys.init 1) wrapSchedule).sh).map (fun x => (x.1, x.2.1, x.2.2.overlap))
      = some ([47, 116], { front := 1, size := 1282 }, 2) := by
  have hv : ∀ op ∈ wrapSchedule, op.Valid := by decide!
  have ht := tally_exec 1 _ hv
  have hf := (fifo_exec 1 _ hv).sync
  have hpl := placed_exec 1 _ hv
  have hmutex := (counted_exec 1 wrapSchedule).mutex
  have e1 : (Tally.exec (Sys.init 1).tally wrapSchedule).accepted
      = [{ start := 0, req := recA }, { start := 1280, req := recB }] := by decide!
  have e2 : (Tally.exec (Sys.init 1).tally wrapSchedule).served = 1 := by decide!
  have e3 : (Tally.exec (Sys.init 1).tally wrapSchedule).pending
      = [{ start := 1280, req := recB }] := by decide!
  have e4 : (Tally.exec (Sys.init 1).tally wrapSchedule).overlap = 2 := by decide!
  have e5 : (Tally.exec (Sys.init 1).tally wrapSchedule).full = 1 := by decide!
  rw [← ht] at e1 e2 e3 e4 e5
  rw [tally_accepted] at e1
  rw [tally_served] at e2
  rw [tally_pending] at e3
  rw [tally_overlap] at e4
  rw [tally_full] at e5
  have hw : ∀ p ∈ ([{ start := 0, req := recA }, { start := 1280, req := recB }]
      : List Pending).take 1, p.whole (1 * linesize) := by decide!
  have hs := hf (by rw [e2, e1]; exact hw)
  exact dequeue_at_split _ hpl hs hmutex e3 e4 e5


/-! ## The theorems at sample inputs -/

/-- C2 at a sample input: `/tmp foo` enqueued two bytes before the end of a region of
1282 bytes. -/
theorem enqueue_postcondition_witness :
    (nearEnd.back < nearEnd.size ∧ recB.length + 1 < 65536 ∧ recB.length + 1 ≤ nearEnd.size) ∧
    ∃ q' sh', Client.enqueue recB nearEnd (Server.create_queue 1).2 = some (q', sh') ∧
      q'.back = 7 ∧ sh'.overlap = 2 ∧ sh'.buffer 1280 = 47 ∧ sh'.buffer 1281 = 116 ∧
      sh'.buffer 0 = 109 ∧ sh'.buffer 5 = 111 ∧ sh'.buffer 6 = 0 := by
  refine ⟨by decide, ?_⟩
  obtain ⟨q', sh', h, hb, _, hs⟩ := enqueue_postcondition recB nearEnd (Server.create_queue 1).2
    (by decide) (by decide) (by decide) (by decide) (by decide)
  obtain ⟨h1, h2, h3⟩ := hs (by decide)
  exact ⟨q', sh', h, hb, h2, h1 0 (by decide), h1 1 (by decide), h3 0 (by decide),
    h3 5 (by decide), h3 6 (by decide)⟩

/-- C4, as amended, after `wrapSchedule`: the record enqueued last, `/tmp foo` at offset
1280 of a region of 1282 bytes, is split and still undelivered, and the overlap word is 2. -/
theorem overlap_of_last_split_witness :
    (∀ op ∈ wrapSchedule, op.Valid) ∧
    (Sys.exec (Sys.init 1) wrapSchedule).accepted.getLast?
      = some { start := 1280, req := recB } ∧
    ({ start := 1280, req := recB } : Pending) ∈ (Sys.exec (Sys.init 1) wrapSchedule).pending ∧
    Pending.split (1 * linesize) { start := 1280, req := recB } ∧
    (Sys.exec (Sys.init 1) wrapSchedule).sh.overlap = 2 ∧
    (Sys.exec (Sys.init 1) wrapSchedule).sh.overlap ≠ 0 ∧
    ((∀ p ∈ (Sys.exec (Sys.init 1) wrapSchedule).accepted, ¬ p.split (1 * linesize)) →
        (Sys.exec (Sys.init 1) wrapSchedule).sh.overlap = 0) := by
  have hv : ∀ op ∈ wrapSchedule, op.Valid := by decide!
  have ht := tally_exec 1 wrapSchedule hv
  have e1 : (Tally.exec (Sys.init 1).tally wrapSchedule).accepted.getLast?
      = some { start := 1280, req := recB } := by decide!
  have e2 : ({ start := 1280, req := recB } : Pending)
      ∈ (Tally.exec (Sys.init 1).tally wrapSchedule).pending := by decide!
  rw [← ht] at e1 e2
  rw [tally_accepted] at e1
  rw [tally_pending] at e2
  have hs : Pending.split (1 * linesize) { start := 1280, req := recB } := by decide!
  obtain ⟨h1, h2⟩ := overlap_of_last_split 1 wrapSchedule hv
  obtain ⟨h3, h4⟩ := h1 _ e1 e2 hs
  exact ⟨hv, e1, e2, hs, h3, h4, h2⟩

/-- C5, as amended, for `oneClient`. -/
theorem single_producer_fifo_witness :
    (∀ op ∈ oneClient, op.By 0) ∧
    (∀ p ∈ (MSys.exec (MSys.init 2) oneClient).accepted, ¬ p.split (2 * linesize)) ∧
    (MSys.exec (MSys.init 2) oneClient).delivered =
      ((MSys.exec (MSys.init 2) oneClient).accepted.take
        (MSys.exec (MSys.init 2) oneClient).delivered.length).map Pending.req ∧
    (MSys.exec (MSys.init 2) oneClient).delivered.length
        + (MSys.exec (MSys.init 2) oneClient).sh.full
      = (MSys.exec (MSys.init 2) oneClient).accepted.length :=
  ⟨by decide, by decide, single_producer_fifo 2 0 oneClient (by decide) (by decide)⟩

/-- C7 at a sample input: `/tmp foo` enqueued while `a b` is undelivered. -/
theorem live_bytes_disjoint_witness :
    (∀ op ∈ [Op.enq recE], op.Valid) ∧ Record recB ∧
    (Client.enqueue recB (Sys.exec (Sys.init 2) [Op.enq recE]).client
      (Sys.exec (Sys.init 2) [Op.enq recE]).sh).isSome ∧
    ({ start := 0, req := recE } : Pending) ∈ (Sys.exec (Sys.init 2) [Op.enq recE]).pending ∧
    1 ∈ Pending.cells (2 * linesize) { start := 0, req := recE } ∧
    1 ∉ Pending.cells (2 * linesize)
          { start := (Sys.exec (Sys.init 2) [Op.enq recE]).client.back, req := recB } :=
  ⟨by decide, by decide, by decide, by decide, by decide,
    live_bytes_disjoint 2 [Op.enq recE] (by decide) recB (by decide) (by decide)
      { start := 0, req := recE } (by decide) 1 (by decide)⟩

/-- C8 after `wrapSchedule`, where the only undelivered record is split. -/
theorem single_wrapped_record_witness :
    (∀ op ∈ wrapSchedule, op.Valid) ∧
    ((Sys.exec (Sys.init 1) wrapSchedule).pending.filter
        (fun p => decide (p.split (1 * linesize)))).length ≤ 1 ∧
    ∀ p ∈ (Sys.exec (Sys.init 1) wrapSchedule).pending, p.split (1 * linesize) →
      (Sys.exec (Sys.init 1) wrapSchedule).sh.overlap = 1 * linesize - p.start :=
  ⟨by decide!, single_wrapped_record 1 wrapSchedule (by decide!)⟩

/-! ## The dispatcher -/

namespace Server

theorem watch_loop_stop (fork : Nat → Bool) (recs : List (List Nat)) (w : Watch)
    (h : ¬ (w.pid ≠ 0 ∧ w.request_buffer ≠ exitRecord)) :
    watch_loop fork recs w = { dispatcher := after_loop w, handlers := [] } := by
  cases recs <;> simp only [watch_loop, if_neg h]

theorem watch_loop_nil (fork : Nat → Bool) (w : Watch)
    (h : w.pid ≠ 0 ∧ w.request_buffer ≠ exitRecord) :
    watch_loop fork [] w = { dispatcher := [], handlers := [] } := by
  simp only [watch_loop, if_pos h]

theorem watch_loop_cons (fork : Nat → Bool) (r : List Nat) (rest : List (List Nat)) (w : Watch)
    (h : w.pid ≠ 0 ∧ w.request_buffer ≠ exitRecord) :
    watch_loop fork (r :: rest) w =
      { dispatcher :=
          .dequeued r :: .forked r (fork w.process_count) ::
            (watch_loop fork rest ⟨if fork w.process_count then 1 else -1, r,
              w.process_count + 1⟩).dispatcher
        handlers :=
          (if fork w.process_count then [after_loop ⟨0, r, w.process_count + 1⟩] else [])
            ++ (watch_loop fork rest ⟨if fork w.process_count then 1 else -1, r,
              w.process_count + 1⟩).handlers } := by
  simp only [watch_loop, if_pos h]

theorem fork_pid_ne_zero (b : Bool) : (if b then (1 : Int) else -1) ≠ 0 := by
  cases b <;> decide

theorem after_loop_dequeues (w : Watch) :
    (after_loop w).filterMap (fun e => match e with | .dequeued x => some x | _ => none) = [] := by
  unfold after_loop
  split
  · rfl
  · split
    · split <;> rfl
    · simp [List.filterMap_append, List.filterMap_replicate]

theorem watch_loop_dequeues (fork : Nat → Bool) (recs : List (List Nat)) :
    ∀ w : Watch, w.pid ≠ 0 → w.request_buffer ≠ exitRecord →
      (watch_loop fork recs w).dequeues = uptoExit recs := by
  induction recs with
  | nil =>
    intro w h1 h2
    rw [watch_loop_nil fork w ⟨h1, h2⟩]
    rfl
  | cons r rest ih =>
    intro w h1 h2
    rw [watch_loop_cons fork r rest w ⟨h1, h2⟩]
    by_cases hr : r = exitRecord
    · rw [watch_loop_stop fork rest _ (by simp [hr])]
      simp only [Run.dequeues, uptoExit, hr, if_true, List.filterMap_cons, after_loop_dequeues]
    · have := ih ⟨if fork w.process_count then 1 else -1, r, w.process_count + 1⟩
        (fork_pid_ne_zero _) hr
      simp only [Run.dequeues] at this
      simp only [Run.dequeues, uptoExit, hr, if_false, List.filterMap_cons, this]

theorem after_loop_child (r : List Nat) (k : Nat) :
    (after_loop ⟨0, r, k⟩).filterMap (fun e => match e with | .handled x => some x | _ => none)
      = if r ≠ [] then [r] else [] := by
  by_cases hr : r = [] <;> simp [after_loop, hr]

theorem after_loop_parent (w : Watch) (h : w.pid ≠ 0) :
    (after_loop w).filterMap (fun e => match e with | .handled x => some x | _ => none) = [] := by
  by_cases hneg : w.pid < 0
  · simp [after_loop, hneg]
  · simp [after_loop, hneg, h, List.filterMap_append, List.filterMap_replicate]

theorem watch_loop_serviced (fork : Nat → Bool) (recs : List (List Nat)) :
    ∀ w : Watch, w.pid ≠ 0 → w.request_buffer ≠ exitRecord →
      (watch_loop fork recs w).serviced =
        (((uptoExit recs).enumFrom w.process_count).filter
          (fun p => fork p.1 && decide (p.2 ≠ []))).map Prod.snd := by
  induction recs with
  | nil =>
    intro w h1 h2
    rw [watch_loop_nil fork w ⟨h1, h2⟩]
    rfl
  | cons r rest ih =>
    intro w h1 h2
    rw [watch_loop_cons fork r rest w ⟨h1, h2⟩]
    have hrest : (watch_loop fork rest ⟨if fork w.process_count then 1 else -1, r,
        w.process_count + 1⟩).serviced =
        if r = exitRecord then []
        else (((uptoExit rest).enumFrom (w.process_count + 1)).filter
          (fun p => fork p.1 && decide (p.2 ≠ []))).map Prod.snd := by
      by_cases hr : r = exitRecord
      · rw [watch_loop_stop fork rest _ (by simp [hr]), if_pos hr]
        simp only [Run.serviced, List.flatten_nil, List.filterMap_nil]
      · rw [if_neg hr]
        exact ih ⟨if fork w.process_count then 1 else -1, r, w.process_count + 1⟩
          (fork_pid_ne_zero _) hr
    simp only [Run.serviced] at hrest
    simp only [Run.serviced, List.flatten_append, List.filterMap_append, hrest]
    have hne : exitRecord ≠ [] := by decide
    by_cases hf : fork w.process_count <;> by_cases hr : r = exitRecord <;>
      by_cases he : r = [] <;>
      simp [hf, hr, he, hne, uptoExit, List.enumFrom, after_loop_child, List.filter_cons]

theorem after_loop_spawned (w : Watch) :
    (after_loop w).filterMap (fun e => match e with | .forked x true => some x | _ => none)
      = [] := by
  unfold after_loop
  split
  · rfl
  · split
    · split <;> rfl
    · simp [List.filterMap_append, List.filterMap_replicate]

theorem watch_loop_spawned (fork : Nat → Bool) (recs : List (List Nat)) :
    ∀ w : Watch, w.pid ≠ 0 → w.request_buffer ≠ exitRecord →
      (watch_loop fork recs w).spawned =
        (((uptoExit recs).enumFrom w.process_count).filter (fun p => fork p.1)).map Prod.snd := by
  induction recs with
  | nil =>
    intro w h1 h2
    rw [watch_loop_nil fork w ⟨h1, h2⟩]
    rfl
  | cons r rest ih =>
    intro w h1 h2
    rw [watch_loop_cons fork r rest w ⟨h1, h2⟩]
    have hrest : (watch_loop fork rest ⟨if fork w.process_count then 1 else -1, r,
        w.process_count + 1⟩).spawned =
        if r = exitRecord then []
        else (((uptoExit rest).enumFrom (w.process_count + 1)).filter
          (fun p => fork p.1)).map Prod.snd := by
      by_cases hr : r = exitRecord
      · rw [watch_loop_stop fork rest _ (by simp [hr]), if_pos hr]
        exact after_loop_spawned _
      · rw [if_neg hr]
        exact ih ⟨if fork w.process_count then 1 else -1, r, w.process_count + 1⟩
          (fork_pid_ne_zero _) hr
    simp only [Run.spawned] at hrest
    simp only [Run.spawned, List.filterMap_cons, hrest]
    by_cases hf : fork w.process_count <;> by_cases hr : r = exitRecord <;>
      simp [hf, hr, uptoExit, List.enumFrom, List.filter_cons]

/-- C9, as amended: the dispatcher forks for every string it dequeues, the first `exit`
included, and dequeues nothing after the first `exit`; each child that is created calls
`handle_client_request` on its string unless the string is empty. So the strings
serviced are the non-empty strings dequeued up to and including the first `exit` whose
`fork` created a child. -/
theorem serviced_through_first_exit (fork : Nat → Bool) (recs : List (List Nat)) :
    (watch_queue fork recs).dequeues = uptoExit recs ∧
    (watch_queue fork recs).spawned =
      (((uptoExit recs).enum.filter (fun p => fork p.1)).map Prod.snd) ∧
    (watch_queue fork recs).serviced =
      (((uptoExit recs).enum.filter (fun p => fork p.1 && decide (p.2 ≠ []))).map Prod.snd) :=
  ⟨watch_loop_dequeues fork recs _ (by decide) (by decide),
   watch_loop_spawned fork recs _ (by decide) (by decide),
   watch_loop_serviced fork recs _ (by decide) (by decide)⟩

/-- C9, as stated, fails: the dispatcher receives `a b` and then `exit`, and every fork
succeeds; a child is created for `exit` and calls `handle_client_request` on it. -/
theorem exit_record_handled :
    (watch_queue (fun _ => true) [recE, exitRecord]).spawned = [recE, exitRecord] ∧
    (watch_queue (fun _ => true) [recE, exitRecord]).serviced = [recE, exitRecord] ∧
    (watch_queue (fun _ => true) [recE, exitRecord]).serviced ≠ [recE] := by
  decide

/-- C10 fails when the first fork fails: the dispatcher receives `a b`, `c d` and
`exit`; after the failed fork it dequeues `c d` and `exit` and forks for each, then
waits three times and unlinks the queue, and never reports the failure. -/
theorem fork_failure_not_fatal :
    (watch_queue (fun k => decide (k ≠ 0)) [recE, recF, exitRecord]).dispatcher =
      [.dequeued recE, .forked recE false, .dequeued recF, .forked recF true,
       .dequeued exitRecord, .forked exitRecord true, .waited, .waited, .waited, .unlinked] ∧
    Event.reported ∉ (watch_queue (fun k => decide (k ≠ 0)) [recE, recF, exitRecord]).dispatcher := by
  decide

theorem after_loop_exit (b : Bool) (k : Nat) :
    after_loop ⟨if b then 1 else -1, exitRecord, k⟩ =
      if b then List.replicate k .waited ++ [.unlinked] else [.reported] := by
  cases b <;> simp [after_loop]

theorem watch_loop_trace (fork : Nat → Bool) (recs : List (List Nat)) :
    ∀ w : Watch, w.pid ≠ 0 → w.request_buffer ≠ exitRecord →
      (watch_loop fork recs w).dispatcher =
        (((uptoExit recs).enumFrom w.process_count).map
          (fun p => [Event.dequeued p.2, Event.forked p.2 (fork p.1)])).flatten ++
        (if exitRecord ∈ recs then
          if fork (w.process_count + (uptoExit recs).length - 1) then
            List.replicate (w.process_count + (uptoExit recs).length) .waited ++ [.unlinked]
          else [.reported]
        else []) := by
  induction recs with
  | nil =>
    intro w h1 h2
    rw [watch_loop_nil fork w ⟨h1, h2⟩]
    simp [uptoExit]
  | cons r rest ih =>
    intro w h1 h2
    rw [watch_loop_cons fork r rest w ⟨h1, h2⟩]
    by_cases hr : r = exitRecord
    · rw [watch_loop_stop fork rest _ (by simp [hr])]
      subst hr
      simp only [after_loop_exit, uptoExit, if_true, List.enumFrom_cons, List.enumFrom_nil,
        List.map_cons, List.map_nil, List.flatten_cons, List.flatten_nil, List.mem_cons,
        true_or, List.length_singleton, Nat.add_sub_cancel, List.append_nil,
        List.cons_append, List.nil_append]
    · have := ih ⟨if fork w.process_count then 1 else -1, r, w.process_count + 1⟩
        (fork_pid_ne_zero _) hr
      simp only at this
      rw [this]
      have hne : ¬ exitRecord = r := fun h => hr h.symm
      have hlen : w.process_count + 1 + (uptoExit rest).length
          = w.process_count + (uptoExit rest).length + 1 := by omega
      simp only [uptoExit, if_neg hr, List.enumFrom_cons, List.map_cons, List.flatten_cons,
        List.mem_cons, hne, false_or, List.length_cons, List.cons_append, List.nil_append,
        hlen, ← Nat.add_assoc]

theorem serviced_subset (fork : Nat → Bool) (recs : List (List Nat)) :
    ∀ r ∈ (watch_queue fork recs).serviced, r ∈ uptoExit recs := by
  intro r hr
  unfold watch_queue at hr
  rw [watch_loop_serviced fork recs _ (by decide) (by decide)] at hr
  obtain ⟨p, hp, rfl⟩ := List.mem_map.mp hr
  have h1 := (List.mem_filter.mp hp).1
  obtain ⟨a, b⟩ := p
  have h2 := (List.mem_enumFrom h1).2.2
  show b ∈ uptoExit recs
  rw [h2]
  exact List.getElem_mem _

theorem drain_count_of_successful_forks (fork : Nat → Bool) (recs : List (List Nat))
    (hf : ∀ k, fork k = true) (he : exitRecord ∈ recs) :
    (watch_queue fork recs).dispatcher.count .waited = (watch_queue fork recs).spawned.length := by
  unfold watch_queue
  rw [watch_loop_trace fork recs _ (by decide) (by decide),
    watch_loop_spawned fork recs _ (by decide) (by decide), if_pos he, hf, if_pos rfl]
  have h0 : ((((uptoExit recs).enumFrom 0).map
      (fun p => [Event.dequeued p.2, Event.forked p.2 (fork p.1)])).flatten).count .waited
      = 0 := by
    rw [List.count_eq_zero]
    intro hm
    obtain ⟨l, hl, hw⟩ := List.mem_flatten.mp hm
    obtain ⟨p, _, rfl⟩ := List.mem_map.mp hl
    simp at hw
  have hfilter : ((uptoExit recs).enumFrom 0).filter (fun p => fork p.1)
      = (uptoExit recs).enumFrom 0 := by
    rw [List.filter_eq_self]
    intro p _
    exact hf p.1
  simp only [List.count_append, h0, hfilter, List.length_map, List.enumFrom_length,
    List.count_replicate_self, Nat.zero_add]
  simp


/-- C11, as amended: the dispatcher dequeues the strings up to and including the first
`exit` and none after it, forking after each dequeue, and only these strings can be
serviced. Once it has dequeued `exit`: if the fork made for `exit` creates a child, it
calls `wait` once for every string it dequeued and then `unlink_queue`, and does nothing
more; if that fork fails, it reports the failure and exits, without a call of `wait` or
of `unlink_queue`. Without an `exit` it stays blocked in `dequeue`. -/
theorem shutdown_after_first_exit (fork : Nat → Bool) (recs : List (List Nat)) :
    (watch_queue fork recs).dequeues = uptoExit recs ∧
    (∀ r ∈ (watch_queue fork recs).serviced, r ∈ uptoExit recs) ∧
    (watch_queue fork recs).dispatcher =
      ((uptoExit recs).enum.map
        (fun p => [Event.dequeued p.2, Event.forked p.2 (fork p.1)])).flatten ++
      (if exitRecord ∈ recs then
        if fork ((uptoExit recs).length - 1) then
          List.replicate (uptoExit recs).length .waited ++ [.unlinked]
        else [.reported]
      else []) := by
  refine ⟨watch_loop_dequeues fork recs _ (by decide) (by decide),
    serviced_subset fork recs, ?_⟩
  have := watch_loop_trace fork recs ⟨1, [], 0⟩ (by decide) (by decide)
  simpa [List.enum] using this

/-- C11, as stated, fails when the fork made for `exit` fails: the dispatcher receives
`a b` and `exit`; a child handles `a b`, the second fork fails, and the dispatcher
reports the failure and exits without a call of `wait` or of `unlink_queue`. -/
theorem exit_fork_failure_skips_unlink :
    (watch_queue (fun k => decide (k ≠ 1)) [recE, exitRecord]).dispatcher =
      [.dequeued recE, .forked recE true, .dequeued exitRecord, .forked exitRecord false,
       .reported] ∧
    (watch_queue (fun k => decide (k ≠ 1)) [recE, exitRecord]).handlers = [[.handled recE]] ∧
    Event.waited ∉ (watch_queue (fun k => decide (k ≠ 1)) [recE, exitRecord]).dispatcher ∧
    Event.unlinked ∉ (watch_queue (fun k => decide (k ≠ 1)) [recE, exitRecord]).dispatcher := by
  decide

/-- C12 fails when a fork fails before `exit` is dequeued: the dispatcher receives
`a b`, `c d` and `exit` and the first fork fails. It goes on, creates two children, and
calls `wait` three times before `unlink_queue`. -/
theorem waits_exceed_children :
    (watch_queue (fun k => decide (k ≠ 0)) [recE, recF, exitRecord]).dispatcher.count .waited
      = 3 ∧
    (watch_queue (fun k => decide (k ≠ 0)) [recE, recF, exitRecord]).handlers.length = 2 ∧
    (watch_queue (fun k => decide (k ≠ 0)) [recE, recF, exitRecord]).spawned
      = [recF, exitRecord] ∧
    (watch_queue (fun k => decide (k ≠ 0)) [recE, recF, exitRecord]).dispatcher.getLast?
      = some .unlinked := by
  decide

end Server

/-! ## The handler -/

namespace Server

/-! ## Tokens -/

theorem tokensOf_nil : tokensOf [] = [] := by
  simp [tokensOf]

theorem tokensOf_delim (b : Nat) (s : List Nat) (h : isDelim b = true) :
    tokensOf (b :: s) = tokensOf s := by
  simp [tokensOf, List.splitOnP_cons, h, List.filter_cons]

theorem tokensOf_dropWhile (s : List Nat) : tokensOf (s.dropWhile isDelim) = tokensOf s := by
  induction s with
  | nil => rfl
  | cons b s ih =>
    by_cases h : isDelim b = true
    · rw [List.dropWhile_cons_of_pos h, ih, tokensOf_delim b s h]
    · rw [List.dropWhile_cons_of_neg h]

theorem tokensOf_token (s : List Nat) (h : s.takeWhile (fun x => !isDelim x) ≠ []) :
    tokensOf s = s.takeWhile (fun x => !isDelim x) ::
      tokensOf ((s.dropWhile (fun x => !isDelim x)).drop 1) := by
  have hs : s.takeWhile (fun x => !isDelim x) ++ s.dropWhile (fun x => !isDelim x) = s :=
    List.takeWhile_append_dropWhile _ _
  have htok : ∀ x ∈ s.takeWhile (fun x => !isDelim x), ¬ (isDelim x = true) := by
    intro x hx
    have := List.mem_takeWhile_imp hx
    simpa using this
  cases hr : s.dropWhile (fun x => !isDelim x) with
  | nil =>
    rw [hr, List.append_nil] at hs
    rw [hs] at htok ⊢
    simp only [List.drop_nil, tokensOf_nil]
    rw [hs] at h
    simp [tokensOf, List.splitOnP_eq_single _ _ htok, List.filter_cons, h]
  | cons c r =>
    have hc : isDelim c = true := by
      have := List.head_dropWhile_not (fun x => !isDelim x) s (by rw [hr]; simp)
      simpa [hr] using this
    rw [hr] at hs
    conv_lhs => rw [← hs]
    simp only [tokensOf, List.drop_succ_cons, List.drop_zero]
    rw [List.splitOnP_first _ _ htok c hc r, List.filter_cons]
    simp [h]

theorem strtok_r_none (s : List Nat) (h : strtok_r s = none) : tokensOf s = [] := by
  unfold strtok_r at h
  split at h
  · rename_i hd
    rw [← tokensOf_dropWhile, hd, tokensOf_nil]
  · cases h

theorem strtok_r_some (s token rest : List Nat) (h : strtok_r s = some (token, rest)) :
    tokensOf s = token :: tokensOf rest ∧ rest.length < s.length := by
  unfold strtok_r at h
  split at h
  · cases h
  · rename_i b r hd
    simp only [Option.some.injEq, Prod.mk.injEq] at h
    obtain ⟨h1, h2⟩ := h
    have hb : isDelim b = false := by
      have := List.head_dropWhile_not isDelim s (by rw [hd]; simp)
      simpa [hd] using this
    have hne : (b :: r).takeWhile (fun x => !isDelim x) ≠ [] := by
      simp [List.takeWhile_cons, hb]
    constructor
    · rw [← tokensOf_dropWhile, hd, tokensOf_token _ hne, h1, h2]
    · rw [← h2]
      have h3 : ((b :: r).dropWhile (fun x => !isDelim x)).length ≤ r.length := by
        rw [List.dropWhile_cons_of_pos (by simp [hb])]
        exact (List.dropWhile_sublist _).length_le
      have h4 : (b :: r).length ≤ s.length := by
        rw [← hd]; exact (List.dropWhile_sublist _).length_le
      simp only [List.length_drop, List.length_cons] at *
      omega

theorem token_loop_spec (keyword : List Nat) :
    ∀ (fuel : Nat) (s : List Nat), s.length < fuel →
      token_loop keyword fuel (strtok_r s) = decide (keyword ∈ tokensOf s) := by
  intro fuel
  induction fuel with
  | zero => intro s h; omega
  | succ fuel ih =>
    intro s h
    cases hs : strtok_r s with
    | none =>
      rw [strtok_r_none s hs]
      simp [token_loop]
    | some p =>
      obtain ⟨token, rest⟩ := p
      obtain ⟨h1, h2⟩ := strtok_r_some s token rest hs
      rw [h1]
      simp only [token_loop]
      by_cases ht : token = keyword
      · simp [ht]
      · rw [if_neg ht, ih rest (by omega)]
        have : ¬ keyword = token := fun h => ht h.symm
        simp [this]

theorem has_token_spec (keyword s : List Nat) :
    has_token keyword s = decide (keyword ∈ tokensOf s) :=
  token_loop_spec keyword (s.length + 1) s (Nat.lt_succ_self _)

/-! ## Lines -/

theorem fgets_bytes_line (x : List Nat) :
    ∀ (init : List Nat) (k : Nat), 10 ∉ init → init.length < k →
      fgets_bytes k (init ++ 10 :: x) = (init ++ [10], x) := by
  intro init
  induction init with
  | nil =>
    intro k _ hk
    obtain ⟨k, rfl⟩ : ∃ j, k = j + 1 := ⟨k - 1, by simp at hk; omega⟩
    simp [fgets_bytes]
  | cons b init ih =>
    intro k hb hk
    obtain ⟨k, rfl⟩ : ∃ j, k = j + 1 := ⟨k - 1, by simp at hk; omega⟩
    have hb1 : b ≠ 10 := fun h => hb (by simp [h])
    have hb2 : 10 ∉ init := fun h => hb (by simp [h])
    have h1 := ih k hb2 (by simp at hk; omega)
    rw [List.cons_append, fgets_bytes, if_neg hb1, h1]
    rfl

theorem fgets_bytes_last :
    ∀ (l : List Nat) (k : Nat), 10 ∉ l → l.length ≤ k → fgets_bytes k l = (l, []) := by
  intro l
  induction l with
  | nil => intro k _ _; cases k <;> rfl
  | cons b l ih =>
    intro k hb hk
    obtain ⟨k, rfl⟩ : ∃ j, k = j + 1 := ⟨k - 1, by simp at hk; omega⟩
    have hb1 : b ≠ 10 := fun h => hb (by simp [h])
    have hb2 : 10 ∉ l := fun h => hb (by simp [h])
    have h1 := ih k hb2 (by simp at hk; omega)
    rw [fgets_bytes, if_neg hb1, h1]

theorem linesFrom_line (x : List Nat) :
    ∀ (init acc : List Nat), 10 ∉ init →
      linesFrom acc (init ++ 10 :: x) = (acc.reverse ++ init ++ [10]) :: linesFrom [] x := by
  intro init
  induction init with
  | nil => intro acc _; simp [linesFrom]
  | cons b init ih =>
    intro acc hb
    have hb1 : b ≠ 10 := fun h => hb (by simp [h])
    have hb2 : 10 ∉ init := fun h => hb (by simp [h])
    rw [List.cons_append, linesFrom, if_neg hb1, ih (b :: acc) hb2]
    simp

theorem linesFrom_last :
    ∀ (l acc : List Nat), 10 ∉ l → acc.reverse ++ l ≠ [] →
      linesFrom acc l = [acc.reverse ++ l] := by
  intro l
  induction l with
  | nil =>
    intro acc _ hne
    have : acc ≠ [] := by simpa using hne
    simp [linesFrom, this]
  | cons b l ih =>
    intro acc hb _
    have hb1 : b ≠ 10 := fun h => hb (by simp [h])
    have hb2 : 10 ∉ l := fun h => hb (by simp [h])
    rw [linesFrom, if_neg hb1, ih (b :: acc) hb2 (by simp)]
    simp

theorem text_cases (text : List Nat) :
    10 ∉ text ∨ ∃ init x, text = init ++ 10 :: x ∧ 10 ∉ init := by
  induction text with
  | nil => left; simp
  | cons b text ih =>
    by_cases hb : b = 10
    · right; exact ⟨[], text, by simp [hb], by simp⟩
    · rcases ih with h | ⟨init, x, h1, h2⟩
      · left
        intro hm
        rcases List.mem_cons.mp hm with h3 | h3
        · exact hb h3.symm
        · exact h h3
      · right
        refine ⟨b :: init, x, by simp [h1], ?_⟩
        intro hm
        rcases List.mem_cons.mp hm with h3 | h3
        · exact hb h3.symm
        · exact h2 h3

theorem fgets_complete (p x : List Nat) (h : Complete p) :
    fgets MAXLINESIZE (p ++ x) = some (p, x) := by
  obtain ⟨init, rfl, h1, h2⟩ := h
  have hne : init ++ [10] ++ x ≠ [] := by simp
  unfold fgets
  rw [if_neg hne]
  have : init ++ [10] ++ x = init ++ 10 :: x := by simp
  rw [this, fgets_bytes_line x init _ h1 (by unfold MAXLINESIZE at *; omega)]

theorem read_line_pending (l x rest : List Nat) (h : fgets MAXLINESIZE rest = some (l, x)) :
    ∀ (pending : List (List Nat)) (line : List Nat), (∀ p ∈ pending, Complete p) →
      read_line (pending.length + 1) (pending.flatten ++ rest) line = (l, x) := by
  intro pending
  induction pending with
  | nil =>
    intro line _
    simp [read_line, h]
  | cons p pending ih =>
    intro line hp
    have h1 := fgets_complete p (pending.flatten ++ rest) (hp p (by simp))
    simp only [List.flatten_cons, List.append_assoc, List.length_cons]
    rw [read_line, h1]
    exact ih p (fun q hq => hp q (by simp [hq]))

theorem cstring_of_text (l : List Nat) (h : ∀ b ∈ l, b ≠ 0) : cstring l = l := by
  unfold cstring
  rw [List.takeWhile_eq_self_iff]
  intro b hb
  simpa using h b hb

theorem scan_eof (filename keyword : List Nat) (fuel : Nat) (lineptr : List Nat)
    (ls cl : Nat) (reads : Option Nat) :
    scan filename keyword fuel ⟨[], lineptr, ls, cl, reads⟩ = [] := by
  cases fuel with
  | zero => rfl
  | succ fuel =>
    simp only [scan, fgets]
    split <;> rfl

theorem scan_step (filename keyword : List Nat) (fuel : Nat) (fp lineptr l x : List Nat)
    (ls cl : Nat) (h : fgets MAXLINESIZE fp = some (l, x)) :
    scan filename keyword (fuel + 1) ⟨fp, lineptr, ls, cl, none⟩ =
      if has_token keyword (cstring l) then
        { filename := some filename
          linenumber := ((cl + 1 : Nat) : Int)
          line := cstring (read_line (cl + 1 - ls) lineptr []).1 } ::
          scan filename keyword fuel
            ⟨x, (read_line (cl + 1 - ls) lineptr []).2, cl + 1, cl + 1, none⟩
      else scan filename keyword fuel ⟨x, lineptr, ls, cl + 1, none⟩ := by
  simp only [scan, h]
  simp

theorem scan_spec (filename keyword : List Nat) :
    ∀ (fuel : Nat) (fp : List Nat) (pending : List (List Nat)) (ls cl : Nat),
      fp.length < fuel → (∀ b ∈ fp, b ≠ 0) →
      (∀ l ∈ textLines fp, l.length < MAXLINESIZE) →
      (∀ p ∈ pending, Complete p) → ls + pending.length = cl →
      scan filename keyword fuel ⟨fp, pending.flatten ++ fp, ls, cl, none⟩ =
        (((textLines fp).enumFrom cl).filter (fun p => decide (keyword ∈ tokensOf p.2))).map
          (fun p => ({ filename := some filename, linenumber := ((p.1 + 1 : Nat) : Int),
                       line := p.2 } : Item)) := by
  intro fuel
  induction fuel with
  | zero => intro fp _ _ _ h; omega
  | succ fuel ih =>
    intro fp pending ls cl hfuel hnul hlen hpend hcnt
    by_cases hfp : fp = []
    · subst hfp
      rw [scan_eof]
      rfl
    have hk : cl + 1 - ls = pending.length + 1 := by omega
    rcases text_cases fp with h10 | ⟨init, x, rfl, h10⟩
    · -- the last line, without a newline
      have hl : textLines fp = [fp] := by
        have := linesFrom_last fp [] h10 (by simpa using hfp)
        simpa [textLines] using this
      have hlen1 : fp.length < MAXLINESIZE := hlen fp (by rw [hl]; simp)
      have hg : fgets MAXLINESIZE fp = some (fp, []) := by
        unfold fgets
        rw [if_neg hfp, fgets_bytes_last fp _ h10 (by omega)]
      rw [scan_step filename keyword fuel fp _ fp [] ls cl hg, hk,
        read_line_pending fp [] fp hg pending [] hpend, cstring_of_text fp hnul,
        has_token_spec, hl, scan_eof, scan_eof]
      by_cases hm : keyword ∈ tokensOf fp <;> simp [List.enumFrom, hm]
    · -- a line that ends with a newline
      have hl : textLines (init ++ 10 :: x) = (init ++ [10]) :: textLines x := by
        have := linesFrom_line x init [] h10
        simpa [textLines] using this
      have hlen1 : (init ++ [10]).length < MAXLINESIZE := hlen _ (by rw [hl]; simp)
      have hc : Complete (init ++ [10]) := ⟨init, rfl, h10, by simpa using hlen1⟩
      have hg : fgets MAXLINESIZE (init ++ 10 :: x) = some (init ++ [10], x) := by
        have := fgets_complete (init ++ [10]) x hc
        simpa using this
      have hnul1 : ∀ b ∈ init ++ [10], b ≠ 0 := by
        intro b hb
        apply hnul
        simp only [List.mem_append, List.mem_singleton, List.mem_cons] at hb ⊢
        tauto
      have hnul2 : ∀ b ∈ x, b ≠ 0 := by
        intro b hb
        apply hnul
        simp [hb]
      have hlen2 : ∀ l ∈ textLines x, l.length < MAXLINESIZE := by
        intro l hl2
        apply hlen
        rw [hl]
        simp [hl2]
      have hx : x.length < fuel := by
        simp only [List.length_append, List.length_cons] at hfuel
        omega
      rw [scan_step filename keyword fuel _ _ (init ++ [10]) x ls cl hg, hk,
        read_line_pending _ x _ hg pending [] hpend, cstring_of_text _ hnul1,
        has_token_spec, hl]
      have ih1 := ih x [] (cl + 1) (cl + 1) hx hnul2 hlen2 (by simp) (by simp)
      have ih2 := ih x (pending ++ [init ++ [10]]) ls (cl + 1) hx hnul2 hlen2
        (by
          intro p hp
          rcases List.mem_append.mp hp with h | h
          · exact hpend p h
          · rw [List.mem_singleton.mp h]; exact hc)
        (by simp; omega)
      simp only [List.flatten_nil, List.nil_append] at ih1
      have hflat : (pending ++ [init ++ [10]]).flatten ++ x
          = pending.flatten ++ (init ++ 10 :: x) := by simp
      rw [hflat] at ih2
      rw [ih1, ih2]
      by_cases hm : keyword ∈ tokensOf (init ++ [10]) <;> simp [List.enumFrom, hm]

theorem scan_linenumber (filename keyword : List Nat) :
    ∀ (fuel : Nat) (w : Worker), ∀ it ∈ scan filename keyword fuel w,
      (w.currentline : Int) < it.linenumber ∧ it.filename = some filename := by
  intro fuel
  induction fuel with
  | zero => intro w it h; simp [scan] at h
  | succ fuel ih =>
    intro w it h
    simp only [scan] at h
    split at h
    · simp at h
    · split at h
      · simp at h
      · split at h
        · rcases List.mem_cons.mp h with h1 | h1
          · subst h1
            simp
          · have := ih _ it h1
            simp only at this
            constructor
            · have h2 := this.1
              push_cast at h2
              omega
            · exact this.2
        · have := ih _ it h
          simp only at this
          constructor
          · have h2 := this.1
            push_cast at h2
            omega
          · exact this.2

/-! ## The roster -/

theorem insert_tail_eq (node : Task) (list : ThreadList) :
    insert_tail node list =
      { nodes := list.nodes ++ [node]
        threadcount := list.threadcount + 1
        overallthreadcount := list.overallthreadcount + 1 } := by
  unfold insert_tail
  split
  · rename_i h
    rw [h]
    rfl
  · rfl

theorem search_entry_eq (directory : List Nat) (list : ThreadList) (e : Dirent) :
    search_entry directory list e =
      if searched e = true then
        insert_tail (.worker (directory ++ [47] ++ e.d_name) e.d_name) list
      else list := by
  unfold search_entry searched
  simp only [List.headD_eq_head?_getD]
  by_cases h1 : e.d_name.head?.getD 0 = 46
  · rw [if_neg (by simpa using h1), if_neg (by simp [h1])]
  · by_cases h2 : e.isreg = true
    · rw [if_pos h1, if_pos h2, if_pos (by simp [h1, h2])]
    · rw [if_pos h1, if_neg h2, if_neg (by simp [h2])]

theorem search_entries (directory : List Nat) (entries : List Dirent) :
    ∀ list : ThreadList,
      entries.foldl (search_entry directory) list =
        { nodes := list.nodes ++ (entries.filter searched).map
            (fun e => Task.worker (directory ++ [47] ++ e.d_name) e.d_name)
          threadcount := list.threadcount + ((entries.filter searched).length : Int)
          overallthreadcount :=
            list.overallthreadcount + ((entries.filter searched).length : Int) } := by
  induction entries with
  | nil => intro list; simp
  | cons e entries ih =>
    intro list
    rw [List.foldl_cons, ih, search_entry_eq]
    by_cases hs : searched e = true
    · rw [if_pos hs, insert_tail_eq, List.filter_cons_of_pos hs]
      simp only [List.map_cons, List.length_cons, List.append_assoc, List.singleton_append]
      congr 1 <;> push_cast <;> omega
    · rw [if_neg hs, List.filter_cons_of_neg hs]

/-! ## The item buffer -/

theorem index_step (c n : Nat) (hc : 0 < c) :
    (if n % c + 1 = c then 0 else n % c + 1) = (n + 1) % c := by
  have h1 : n % c < c := Nat.mod_lt n hc
  have h2 : (n + 1) % c = (n % c + 1) % c := (Nat.mod_add_mod n c 1).symm
  rw [h2]
  by_cases h : n % c + 1 = c
  · rw [if_pos h, h, Nat.mod_self]
  · rw [if_neg h, Nat.mod_eq_of_lt (Nat.lt_of_le_of_ne (Nat.succ_le_of_lt h1) h)]

theorem buffer_calls_spec (c : Nat) (hc : 0 < c) (calls : List BufferCall) :
    ∀ (b : ItemBuffer) (given : List Item) (g : Nat),
      g ≤ given.length → b.buffer_filler = given.length % c → b.buffer_use = g % c →
      (∀ j, g ≤ j → j < given.length → given[j]? = some (b.buffer (j % c))) →
      inBounds c (given.length - g) calls = true →
      (buffer_calls c calls b).1 = ((given ++ fills calls).drop g).take (gets calls) ∧
      (buffer_calls c calls b).2.buffer_filler = (given.length + (fills calls).length) % c ∧
      (buffer_calls c calls b).2.buffer_use = (g + gets calls) % c := by
  induction calls with
  | nil =>
    intro b given g _ hf hu _ _
    simp [buffer_calls, fills, gets, hf, hu]
  | cons call calls ih =>
    intro b given g hg hf hu hbuf hin
    cases call with
    | fill item =>
      simp only [inBounds, Bool.and_eq_true, decide_eq_true_eq] at hin
      obtain ⟨hlt, hin⟩ := hin
      have hstep := ih (buffer_fill item c b) (given ++ [item]) g
        (by simp; omega)
        (by simp only [buffer_fill, List.length_append, List.length_singleton, hf];
            exact index_step c given.length hc)
        (by simpa [buffer_fill] using hu)
        (by
          intro j hj1 hj2
          simp only [List.length_append, List.length_singleton] at hj2
          by_cases hj : j = given.length
          · subst hj
            simp [buffer_fill, hf]
          · have hj3 : j < given.length := by omega
            have hne : j % c ≠ given.length % c := by
              have := @mod_ne_of_lt c j 0 (given.length - j) (by omega) (by omega)
              rwa [Nat.add_zero, Nat.add_sub_cancel' (by omega)] at this
            rw [List.getElem?_append_left hj3, hbuf j hj1 hj3]
            simp [buffer_fill, hf, hne])
        (by
          have : (given ++ [item]).length - g = given.length - g + 1 := by
            simp only [List.length_append, List.length_singleton]; omega
          rw [this]; exact hin)
      simp only [buffer_calls, fills, gets]
      refine ⟨?_, ?_, ?_⟩
      · rw [hstep.1]; simp
      · rw [hstep.2.1]; simp [Nat.add_assoc, Nat.add_comm 1]
      · exact hstep.2.2
    | get =>
      simp only [inBounds, Bool.and_eq_true, decide_eq_true_eq] at hin
      obtain ⟨hpos, hin⟩ := hin
      have hlt : g < given.length := by omega
      have hstep := ih (buffer_get c b).2 given (g + 1) (by omega)
        (by simpa [buffer_get] using hf)
        (by simp only [buffer_get, hu]; exact index_step c g hc)
        (by
          intro j hj1 hj2
          simpa [buffer_get] using hbuf j (by omega) hj2)
        (by
          have : given.length - (g + 1) = given.length - g - 1 := by omega
          rw [this]; exact hin)
      have hget : (given ++ fills calls)[g]? = some (b.buffer (g % c)) := by
        rw [List.getElem?_append_left hlt]; exact hbuf g (Nat.le_refl g) hlt
      simp only [buffer_calls, fills, gets]
      refine ⟨?_, ?_, ?_⟩
      · rw [hstep.1]
        have hdrop : (given ++ fills calls).drop g
            = b.buffer (g % c) :: (given ++ fills calls).drop (g + 1) := by
          rw [List.drop_eq_getElem_cons (by simp; omega)]
          congr 1
          have := hget
          rw [List.getElem?_eq_getElem (by simp; omega)] at this
          exact Option.some.inj this
        rw [hdrop, List.take_succ_cons]
        simp [buffer_get, hu]
      · exact hstep.2.1
      · rw [hstep.2.2]; simp [Nat.add_assoc, Nat.add_comm 1]

theorem inBounds_take (c : Nat) (calls : List BufferCall) :
    ∀ (unread n : Nat), inBounds c unread calls = true →
      inBounds c unread (calls.take n) = true := by
  induction calls with
  | nil => intro unread n h; simp [inBounds]
  | cons call calls ih =>
    intro unread n h
    cases n with
    | zero => simp [inBounds]
    | succ n =>
      cases call with
      | fill item =>
        simp only [inBounds, Bool.and_eq_true, decide_eq_true_eq, List.take_succ_cons] at h ⊢
        exact ⟨h.1, ih _ _ h.2⟩
      | get =>
        simp only [inBounds, Bool.and_eq_true, decide_eq_true_eq, List.take_succ_cons] at h ⊢
        exact ⟨h.1, ih _ _ h.2⟩

/-! ## The printer -/

theorem good_cons (x : Item) (rest : List Item) (h : Good (x :: rest)) :
    (x.linenumber = -1 ∧ rest = []) ∨
    (x.linenumber ≠ -1 ∧ x.filename ≠ none ∧ rest ≠ [] ∧ Good rest) := by
  rcases h with h | ⟨body, s, h1, h2, h3⟩
  · cases h
  · cases body with
    | nil =>
      simp only [List.nil_append, List.cons.injEq] at h1
      left
      exact ⟨h1.1 ▸ h2, h1.2⟩
    | cons b body =>
      simp only [List.cons_append, List.cons.injEq] at h1
      right
      obtain ⟨rfl, rfl⟩ := h1
      refine ⟨(h3 x (by simp)).1, (h3 x (by simp)).2, by simp, Or.inr ⟨body, s, rfl, h2, ?_⟩⟩
      intro it hit
      exact h3 it (by simp [hit])

theorem retrieve_keyword_good (filename keyword content : List Nat) (reads : Option Nat) :
    Good (retrieve_keyword filename keyword content reads) := by
  right
  refine ⟨_, dummyItem, rfl, rfl, ?_⟩
  intro it hit
  have := scan_linenumber filename keyword _ _ it hit
  constructor
  · intro h
    have h1 := this.1
    rw [h] at h1
    have : (0 : Int) ≤ ((0 : Nat) : Int) := by simp
    simp only at h1
    omega
  · rw [this.2]; simp

theorem print_buffer_record (ptr : Item) (items : List Item) (threadcount : Int)
    (h1 : threadcount ≠ 1) (h2 : ptr.linenumber ≠ -1) (h3 : ptr.filename ≠ none) :
    print_buffer (ptr :: items) threadcount =
      { print_buffer items threadcount with
        consumed := (print_buffer items threadcount).consumed + 1
        written := format ptr :: (print_buffer items threadcount).written
        counts := threadcount :: (print_buffer items threadcount).counts } := by
  rw [print_buffer, if_pos h1, if_pos ⟨h2, h3⟩]

theorem print_buffer_sentinel (ptr : Item) (items : List Item) (threadcount : Int)
    (h1 : threadcount ≠ 1) (h2 : ptr.linenumber = -1) :
    print_buffer (ptr :: items) threadcount =
      { print_buffer items (threadcount - 1) with
        consumed := (print_buffer items (threadcount - 1)).consumed + 1
        counts := (threadcount - 1) :: (print_buffer items (threadcount - 1)).counts } := by
  rw [print_buffer, if_pos h1, if_neg (fun h => h.1 h2)]

theorem merge_print (outs : List (List Item)) (stream : List Item) (hm : Merge outs stream) :
    (∀ o ∈ outs, Good o) →
      (print_buffer stream (outs.countP unfinished + 1)).stopped = true ∧
      (print_buffer stream (outs.countP unfinished + 1)).threadcount = 0 ∧
      (print_buffer stream (outs.countP unfinished + 1)).consumed = stream.length ∧
      (∀ c ∈ (print_buffer stream (outs.countP unfinished + 1)).counts, 1 ≤ c) ∧
      stream.countP sentinel = outs.countP unfinished ∧
      (print_buffer stream (outs.countP unfinished + 1)).written
        = (stream.filter (fun it => !sentinel it)).map format := by
  induction hm with
  | done outs h =>
    intro _
    have h0 : outs.countP unfinished = 0 := by
      rw [List.countP_eq_zero]
      intro o ho
      rw [h o ho]
      decide
    rw [h0]
    simp [print_buffer]
  | pick outs i x rest stream h hm ih =>
    intro hg
    have hi : i < outs.length := by
      by_contra hn
      rw [List.get?_eq_none.mpr (by omega)] at h
      cases h
    have hx : outs[i] = x :: rest := by
      rw [List.get?_eq_getElem?, List.getElem?_eq_getElem hi] at h
      exact Option.some.inj h
    have hmem : x :: rest ∈ outs := hx ▸ List.getElem_mem hi
    have hpos : 0 < outs.countP unfinished :=
      List.countP_pos_iff.mpr ⟨x :: rest, hmem, rfl⟩
    have hset := List.countP_set unfinished outs i rest hi
    rw [hx] at hset
    have hu : unfinished (x :: rest) = true := rfl
    rw [hu, if_pos rfl] at hset
    rcases good_cons x rest (hg _ hmem) with ⟨hs, hr⟩ | ⟨hn, hf, hr, hgr⟩
    · -- the last item of a worker
      subst hr
      have hgood : ∀ o ∈ outs.set i [], Good o := by
        intro o ho
        rcases List.mem_or_eq_of_mem_set ho with h1 | h1
        · exact hg o h1
        · left; exact h1
      have hcount : (outs.set i []).countP unfinished = outs.countP unfinished - 1 := by
        rw [hset]
        have : unfinished [] = false := rfl
        rw [this]
        simp
      have ih1 := ih hgood
      rw [hcount] at ih1
      have hcast : ((outs.countP unfinished - 1 : Nat) : Int) + 1
          = (outs.countP unfinished : Int) + 1 - 1 := by omega
      rw [hcast] at ih1
      rw [print_buffer_sentinel x stream _ (by omega) hs]
      obtain ⟨a1, a2, a3, a4, a5, a6⟩ := ih1
      have hsx : sentinel x = true := by simpa [sentinel] using hs
      refine ⟨a1, a2, ?_, ?_, ?_, ?_⟩
      · show (print_buffer stream _).consumed + 1 = stream.length + 1
        rw [a3]
      · intro c hc
        rcases List.mem_cons.mp hc with h1 | h1
        · rw [h1]; omega
        · exact a4 c h1
      · rw [List.countP_cons_of_pos _ _ hsx, a5]; omega
      · rw [List.filter_cons_of_neg (by simp [hsx])]
        exact a6
    · -- an item to be written
      have hgood : ∀ o ∈ outs.set i rest, Good o := by
        intro o ho
        rcases List.mem_or_eq_of_mem_set ho with h1 | h1
        · exact hg o h1
        · rw [h1]; exact hgr
      have hcount : (outs.set i rest).countP unfinished = outs.countP unfinished := by
        rw [hset]
        have : unfinished rest = true := by
          cases rest with
          | nil => exact absurd rfl hr
          | cons _ _ => rfl
        rw [this, if_pos rfl]
        omega
      have ih1 := ih hgood
      rw [hcount] at ih1
      rw [print_buffer_record x stream _ (by omega) hn hf]
      obtain ⟨a1, a2, a3, a4, a5, a6⟩ := ih1
      have hsx : sentinel x = false := by simpa [sentinel] using hn
      refine ⟨a1, a2, ?_, ?_, ?_, ?_⟩
      · show (print_buffer stream _).consumed + 1 = stream.length + 1
        rw [a3]
      · intro c hc
        rcases List.mem_cons.mp hc with h1 | h1
        · rw [h1]; omega
        · exact a4 c h1
      · rw [List.countP_cons_of_neg _ _ (by simp [hsx]), a5]
      · rw [List.filter_cons_of_pos (by simp [hsx]), List.map_cons]
        show format x :: (print_buffer stream _).written = _
        rw [a6]

/-! ## The bound on the iterations of the worker is never reached -/

theorem fgets_bytes_rest (k : Nat) :
    ∀ s : List Nat, (fgets_bytes k s).2.length ≤ s.length := by
  induction k with
  | zero => intro s; simp [fgets_bytes]
  | succ k ih =>
    intro s
    cases s with
    | nil => simp [fgets_bytes]
    | cons b t =>
      rw [fgets_bytes]
      split
      · simp
      · have := ih t
        simp only [List.length_cons]
        omega

theorem fgets_rest_length (s l rest : List Nat) (h : fgets MAXLINESIZE s = some (l, rest)) :
    rest.length < s.length := by
  unfold fgets at h
  split at h
  · cases h
  · cases s with
    | nil => contradiction
    | cons b t =>
      have h1 : MAXLINESIZE - 1 = 1022 + 1 := by decide
      rw [h1, fgets_bytes] at h
      split at h
      · simp only [Option.some.injEq, Prod.mk.injEq] at h
        rw [← h.2]
        simp
      · simp only [Option.some.injEq, Prod.mk.injEq] at h
        rw [← h.2]
        have := fgets_bytes_rest 1022 t
        simp only [List.length_cons]
        omega

theorem scan_fuel (filename keyword : List Nat) :
    ∀ (fuel fuel2 : Nat) (w : Worker), w.fileptr.length < fuel → w.fileptr.length < fuel2 →
      scan filename keyword fuel w = scan filename keyword fuel2 w := by
  intro fuel
  induction fuel with
  | zero => intro _ w h; omega
  | succ fuel ih =>
    intro fuel2 w h1 h2
    obtain ⟨fuel2, rfl⟩ : ∃ j, fuel2 = j + 1 := ⟨fuel2 - 1, by omega⟩
    simp only [scan]
    split
    · rfl
    · cases hg : fgets MAXLINESIZE w.fileptr with
      | none => rfl
      | some p =>
        obtain ⟨l, rest⟩ := p
        have hlt := fgets_rest_length _ _ _ hg
        simp only
        split
        · rw [ih fuel2 _ (by simp only; omega) (by simp only; omega)]
        · rw [ih fuel2 _ (by simp only; omega) (by simp only; omega)]

/-! ## The line number in the printer's array -/

theorem sprintf_d_of_lt (n : Nat) (h : n < 10000) :
    sprintf_d (n : Int) = some ((Nat.toDigits 10 n).map Char.toNat) := by
  have hlen : (Nat.toDigits 10 n).length ≤ 4 :=
    Nat.toDigitsCore_length 10 (by decide) (n + 1) n 4 (by simpa using h) (by decide)
  unfold sprintf_d
  have hneg : ¬ ((n : Int) < 0) := by omega
  simp only [Int.natAbs_ofNat, if_neg hneg, List.length_map]
  rw [if_pos (by omega)]

theorem format_of_lt (filename line : List Nat) (n : Nat) (h : n < 10000)
    (hfit : filename.length + line.length + 7 ≤ MAXOUTSIZE) :
    format { filename := some filename, linenumber := (n : Int), line := line } =
      some (filename ++ [58] ++ (Nat.toDigits 10 n).map Char.toNat ++ [58] ++ line) := by
  have hlen : (Nat.toDigits 10 n).length ≤ 4 :=
    Nat.toDigitsCore_length 10 (by decide) (n + 1) n 4 (by simpa using h) (by decide)
  unfold format
  simp only [sprintf_d_of_lt n h]
  rw [if_pos]
  simp only [List.length_append, List.length_map, List.length_singleton]
  omega

/-! ## The handler at sample inputs and in general -/

/-- C13, as amended: `search_directory` starts one worker for each entry that is a
regular file and whose name does not begin with a dot, in the order of the listing, and
then the printer; the roster holds these threads in this order, and `threadcount` and
`overallthreadcount` both equal the number of such entries plus one. -/
theorem roster_of_listing (directory : List Nat) (entries : List Dirent) :
    (search_directory directory entries create_list).nodes =
      (entries.filter searched).map
        (fun e => Task.worker (directory ++ [47] ++ e.d_name) e.d_name) ++ [Task.printer] ∧
    (search_directory directory entries create_list).nodes.length =
      (entries.filter searched).length + 1 ∧
    (search_directory directory entries create_list).threadcount =
      ((entries.filter searched).length : Int) + 1 ∧
    (search_directory directory entries create_list).overallthreadcount =
      ((entries.filter searched).length : Int) + 1 := by
  unfold search_directory
  rw [search_entries, insert_tail_eq]
  simp [create_list]

/-- C13, as stated, fails: in a listing with the regular files `.hidden` and `a.txt` no
worker is started for `.hidden`; the roster holds one worker and the printer, and
`threadcount` is 2 with two regular files listed. -/
theorem hidden_file_has_no_worker :
    (search_directory tmpDir hiddenListing create_list).nodes =
      [Task.worker (tmpDir ++ [47] ++ aTxt) aTxt, Task.printer] ∧
    (search_directory tmpDir hiddenListing create_list).threadcount = 2 ∧
    (hiddenListing.filter (fun e => e.isreg)).length = 2 := by
  decide

/-- C14, as amended: on a file without NUL bytes in which every line, its newline
included, has fewer than `MAXLINESIZE` bytes, the items of a worker whose line number
is not -1 are, in the order of the lines, one item for each line that has the keyword
among its tokens (the non-empty pieces between spaces, tabs and newlines); the item
carries the file name, the number of the line counted from 1 and the whole line with
its newline. -/
theorem worker_items_of_text (filename keyword content : List Nat)
    (hnul : ∀ b ∈ content, b ≠ 0)
    (hlen : ∀ l ∈ textLines content, l.length < MAXLINESIZE) :
    (retrieve_keyword filename keyword content none).filter (fun it => !sentinel it) =
      (((textLines content).enum.filter (fun p => decide (keyword ∈ tokensOf p.2))).map
        (fun p => ({ filename := some filename, linenumber := ((p.1 + 1 : Nat) : Int),
                     line := p.2 } : Item))) := by
  unfold retrieve_keyword
  have h := scan_spec filename keyword (content.length + 1) content [] 0 0
    (Nat.lt_succ_self _) hnul hlen (by simp) rfl
  simp only [List.flatten_nil, List.nil_append] at h
  rw [h, List.filter_append, List.enum]
  have h1 : List.filter (fun it => !sentinel it) [dummyItem] = [] := by decide
  rw [h1, List.append_nil, List.filter_eq_self]
  intro it hit
  obtain ⟨p, _, rfl⟩ := List.mem_map.mp hit
  simp only [sentinel, Bool.not_eq_true', decide_eq_false_iff_not]
  omega

theorem worker_items_of_text_witness :
    (retrieve_keyword aTxt foo threeLines none).filter (fun it => !sentinel it) =
      (((textLines threeLines).enum.filter (fun p => decide (foo ∈ tokensOf p.2))).map
        (fun p => ({ filename := some aTxt, linenumber := ((p.1 + 1 : Nat) : Int),
                     line := p.2 } : Item))) :=
  worker_items_of_text aTxt foo threeLines (by decide) (by decide)

/-- C14, as stated, fails on a line longer than the line buffer: the file holds one
line of 1028 bytes that ends with the token `foo`; `fgets` delivers it in two pieces,
and the worker's item carries the line number 2 and the second piece only. -/
theorem long_line_is_split :
    textLines longLine = [longLine] ∧ foo ∈ tokensOf longLine ∧
    retrieve_keyword aTxt foo longLine none =
      [{ filename := some aTxt, linenumber := 2, line := [32, 102, 111, 111, 10] },
       dummyItem] := by
  decide!

/-- C15: whatever the file holds and whether or not a read fails, the items a worker
passes to `buffer_fill` are items whose line number is not -1, followed by exactly one
item whose line number is -1. -/
theorem worker_ends_with_sentinel (filename keyword content : List Nat)
    (reads : Option Nat) :
    ∃ body last, retrieve_keyword filename keyword content reads = body ++ [last] ∧
      last.linenumber = -1 ∧ ∀ it ∈ body, it.linenumber ≠ -1 := by
  refine ⟨_, dummyItem, rfl, rfl, ?_⟩
  intro it hit h
  have h1 := (scan_linenumber filename keyword _ _ it hit).1
  rw [h] at h1
  simp only at h1
  omega

/-- C16: the items of `k` workers reach the printer in some interleaving, and the
printer starts with `threadcount = k + 1`. It consumes the whole stream, which holds
exactly `k` items with line number -1, makes its last decrement and stops with
`threadcount = 0`; after each item consumed `threadcount` is 1 at least. It writes one
string for each item whose line number is not -1; with no worker it consumes and writes
nothing. -/
theorem printer_stops_after_all_sentinels (outs : List (List Item)) (stream : List Item)
    (hw : ∀ o ∈ outs, ∃ filename keyword content reads,
      o = retrieve_keyword filename keyword content reads)
    (hm : Merge outs stream) :
    (print_buffer stream (outs.length + 1)).stopped = true ∧
    (print_buffer stream (outs.length + 1)).threadcount = 0 ∧
    (print_buffer stream (outs.length + 1)).consumed = stream.length ∧
    stream.countP sentinel = outs.length ∧
    (∀ c ∈ (print_buffer stream (outs.length + 1)).counts, 1 ≤ c) ∧
    (print_buffer stream (outs.length + 1)).written.length =
      (stream.filter (fun it => !sentinel it)).length ∧
    (outs = [] → (print_buffer stream (outs.length + 1)).consumed = 0 ∧
      (print_buffer stream (outs.length + 1)).written = []) := by
  have hgood : ∀ o ∈ outs, Good o := by
    intro o ho
    obtain ⟨f, k, c, r, rfl⟩ := hw o ho
    exact retrieve_keyword_good f k c r
  have hcount : outs.countP unfinished = outs.length := by
    rw [List.countP_eq_length]
    intro o ho
    obtain ⟨f, k, c, r, rfl⟩ := hw o ho
    simp [unfinished, retrieve_keyword]
  have h := merge_print outs stream hm hgood
  rw [hcount] at h
  obtain ⟨a1, a2, a3, a4, a5, a6⟩ := h
  refine ⟨a1, a2, a3, a5, a4, by rw [a6, List.length_map], ?_⟩
  intro he
  subst he
  cases hm with
  | done _ _ => decide
  | pick _ i x rest stream h _ => simp at h

theorem printer_stops_after_all_sentinels_witness :
    (print_buffer
        [{ filename := some aTxt, linenumber := 1, line := [102, 111, 111, 10] },
          dummyItem, dummyItem] (2 + 1)).stopped = true ∧
    (print_buffer
        [{ filename := some aTxt, linenumber := 1, line := [102, 111, 111, 10] },
          dummyItem, dummyItem] (2 + 1)).threadcount = 0 :=
  have h := printer_stops_after_all_sentinels
    [retrieve_keyword aTxt foo [102, 111, 111, 10] none,
     retrieve_keyword bTxt foo [98, 10] none]
    [{ filename := some aTxt, linenumber := 1, line := [102, 111, 111, 10] },
     dummyItem, dummyItem]
    (by
      intro o ho
      simp only [List.mem_cons, List.mem_singleton, List.not_mem_nil, or_false] at ho
      rcases ho with rfl | rfl
      · exact ⟨_, _, _, _, rfl⟩
      · exact ⟨_, _, _, _, rfl⟩)
    (Merge.pick _ 0 _ [dummyItem] _ (by decide)
      (Merge.pick _ 1 _ [] _ (by decide)
        (Merge.pick _ 0 _ [] _ (by decide) (Merge.done _ (by decide)))))
  ⟨h.1, h.2.1⟩

/-- C17 fails at the line number 10000: the file holds 9999 empty lines and then the
line `foo`, so the worker's item carries the line number 10000; its five digits and the
NUL do not fit `char linenumber[5]`, `sprintf` writes past the end of the array, and the
string the printer writes is not determined. -/
theorem line_number_overflows_buffer :
    retrieve_keyword aTxt foo manyLines none =
      [{ filename := some aTxt, linenumber := 10000, line := [102, 111, 111, 10] },
       dummyItem] ∧
    sprintf_d 10000 = none ∧
    (print_buffer (retrieve_keyword aTxt foo manyLines none) 2).written = [none] := by
  decide!

/-- C18 fails on a last line without a newline: `a.txt` and `b.txt` both hold `foo`
with no newline after it. Each worker reports one match, and the printer writes
`a.txt:1:foo` and `b.txt:1:foo`, neither ended by a newline: the two matches leave no
complete line. -/
theorem last_line_without_newline :
    (print_buffer unterminated 3).written =
      [some [97, 46, 116, 120, 116, 58, 49, 58, 102, 111, 111],
       some [98, 46, 116, 120, 116, 58, 49, 58, 102, 111, 111]] ∧
    ((print_buffer unterminated 3).written.filterMap id).flatten.count 10 = 0 ∧
    (unterminated.filter (fun it => !sentinel it)).length = 2 := by
  decide

/-- C19: a buffer of `c` slots, `c` at least 1, starts with both indices 0. Through any
calls of `buffer_fill` and `buffer_get` that keep the number of items inserted and not
read between 0 and `c`, after every number `n` of calls the items returned by
`buffer_get` are, in order, the first items given to `buffer_fill`, as many as there
were calls of `buffer_get`; `buffer_filler` is the number of fills modulo `c` and
`buffer_use` the number of gets modulo `c`. -/
theorem item_buffer_fifo (c : Nat) (hc : 1 ≤ c) (buffer : Nat → Item)
    (calls : List BufferCall) (h : inBounds c 0 calls = true) (n : Nat) :
    (buffer_calls c (calls.take n) ⟨buffer, 0, 0⟩).1 =
      (fills (calls.take n)).take (gets (calls.take n)) ∧
    (buffer_calls c (calls.take n) ⟨buffer, 0, 0⟩).2.buffer_filler =
      (fills (calls.take n)).length % c ∧
    (buffer_calls c (calls.take n) ⟨buffer, 0, 0⟩).2.buffer_use =
      gets (calls.take n) % c := by
  have h1 := buffer_calls_spec c hc (calls.take n) ⟨buffer, 0, 0⟩ [] 0 (Nat.le_refl _)
    (by simp) (by simp) (by intro j _ hj; simp at hj)
    (inBounds_take c calls 0 n h)
  simpa using h1

theorem item_buffer_fifo_witness :
    (buffer_calls 2
        ([.fill dummyItem, .fill ⟨some aTxt, 1, foo⟩, .get, .fill ⟨some bTxt, 2, foo⟩,
          .get, .get].take 5) ⟨fun _ => dummyItem, 0, 0⟩).1 =
      (fills ([.fill dummyItem, .fill ⟨some aTxt, 1, foo⟩, .get, .fill ⟨some bTxt, 2, foo⟩,
          .get, .get].take 5)).take
        (gets ([.fill dummyItem, .fill ⟨some aTxt, 1, foo⟩, .get,
          .fill ⟨some bTxt, 2, foo⟩, .get, .get].take 5)) :=
  (item_buffer_fifo 2 (by decide) (fun _ => dummyItem)
    [.fill dummyItem, .fill ⟨some aTxt, 1, foo⟩, .get, .fill ⟨some bTxt, 2, foo⟩,
      .get, .get] (by decide) 5).1


end Server

/-! ## The layout of the shared mapping -/

/-- C20, as amended: for a queue created for `n` requests the data region has
`n * 1282` bytes; one spare byte follows it, and the two-byte overlap word starts at
byte offset `n * 1282 + 1` and ends with the mapping. `open_queue` and `create_queue`
compute the same sizes and the same offset for the same `n`. -/
theorem overlap_word_after_spare_byte (n : Nat) :
    (Server.create_queue_region n).size = n * 1282 ∧
    (Server.create_queue_region n).overlap = n * 1282 + 1 ∧
    (Server.create_queue_region n).overlap + 2 = (Server.create_queue_region n).mapped ∧
    (Server.create_shared_memory (n * 1282)).1 = (Server.create_queue_region n).mapped ∧
    Client.open_queue_region n = Server.create_queue_region n := by
  simp [Server.create_queue_region, Server.create_shared_memory, Client.open_queue_region,
    Client.open_shared_memory, linesize_eq]

/-- C20, as stated, fails: for a queue created for one request the data region has 1282
bytes and the overlap word starts at byte offset 1283, not 1282. -/
theorem overlap_word_not_at_capacity :
    (Server.create_queue_region 1).size = 1282 ∧
    (Server.create_queue_region 1).overlap = 1283 ∧
    (Server.create_queue_region 1).overlap ≠ (Server.create_queue_region 1).size := by
  decide

/-! ## The producer's input -/

theorem takeWhile_append_stop {p : Nat → Bool} (l : List Nat) (x : Nat) (r : List Nat)
    (h : ∀ a ∈ l, p a = true) (hx : p x = false) : (l ++ x :: r).takeWhile p = l := by
  induction l with
  | nil => simp [List.takeWhile_cons, hx]
  | cons a l ih =>
    rw [List.cons_append, List.takeWhile_cons, h a (by simp), if_pos rfl,
      ih (fun b hb => h b (by simp [hb]))]

theorem dropWhile_append_stop {p : Nat → Bool} (l : List Nat) (x : Nat) (r : List Nat)
    (h : ∀ a ∈ l, p a = true) (hx : p x = false) : (l ++ x :: r).dropWhile p = x :: r := by
  induction l with
  | nil => simp [List.dropWhile_cons, hx]
  | cons a l ih =>
    rw [List.cons_append, List.dropWhile_cons, h a (by simp), if_pos rfl,
      ih (fun b hb => h b (by simp [hb]))]

namespace Client

theorem strtok_r_newline_line (init : List Nat) (h10 : 10 ∉ init) (hne : init ≠ []) :
    strtok_r_newline (init ++ [10]) = some init := by
  obtain ⟨b, rest, rfl⟩ : ∃ b rest, init = b :: rest := by
    cases init with
    | nil => exact absurd rfl hne
    | cons b rest => exact ⟨b, rest, rfl⟩
  have hb : b ≠ 10 := fun h => h10 (by simp [h])
  have hd : ((b :: rest) ++ [10]).dropWhile (fun b => decide (b = 10)) = (b :: rest) ++ [10] := by
    rw [List.cons_append, List.dropWhile_cons_of_neg (by simpa using hb)]
  unfold strtok_r_newline
  rw [hd]
  have := takeWhile_append_stop (p := fun x => decide (x ≠ 10)) (b :: rest) 10 []
    (by intro a ha; have : a ≠ 10 := fun h => h10 (h ▸ ha); simpa using this) (by simp)
  simpa using this

theorem strtok_r_newline_last (l : List Nat) (h10 : 10 ∉ l) (hne : l ≠ []) :
    strtok_r_newline l = some l := by
  obtain ⟨b, rest, rfl⟩ : ∃ b rest, l = b :: rest := by
    cases l with
    | nil => exact absurd rfl hne
    | cons b rest => exact ⟨b, rest, rfl⟩
  have hb : b ≠ 10 := fun h => h10 (by simp [h])
  unfold strtok_r_newline
  rw [List.dropWhile_cons_of_neg (by simpa using hb)]
  have : (b :: rest).takeWhile (fun x => decide (x ≠ 10)) = b :: rest := by
    rw [List.takeWhile_eq_self_iff]
    intro a ha
    have : a ≠ 10 := fun h => h10 (h ▸ ha)
    simpa using this
  simp only [this]

theorem chomp_line (init : List Nat) : chomp (init ++ [10]) = init := by
  simp [chomp]

theorem chomp_last (l : List Nat) (h10 : 10 ∉ l) : chomp l = l := by
  unfold chomp
  rw [if_neg]
  intro h
  exact h10 (List.mem_of_getLast?_eq_some h)

theorem read_loop_eof (fuel : Nat) : read_loop fuel [] = { requests := [], faulted := false } := by
  cases fuel <;> rfl

theorem read_loop_spec :
    ∀ (fuel : Nat) (fs : List Nat), fs.length < fuel → (∀ b ∈ fs, b ≠ 0) →
      (∀ l ∈ Server.textLines fs, l.length < MAXDIRPATH + MAXKEYWORD + 2 ∧ l ≠ [10]) →
      read_loop fuel fs =
        { requests := (Server.textLines fs).map chomp, faulted := false } := by
  intro fuel
  induction fuel with
  | zero => intro fs h; omega
  | succ fuel ih =>
    intro fs hfuel hnul hlen
    by_cases hfs : fs = []
    · subst hfs
      rfl
    rcases Server.text_cases fs with h10 | ⟨init, x, rfl, h10⟩
    · have hl : Server.textLines fs = [fs] := by
        have := Server.linesFrom_last fs [] h10 (by simpa using hfs)
        simpa [Server.textLines] using this
      have hlen1 := (hlen fs (by rw [hl]; simp)).1
      have hg : Server.fgets (MAXDIRPATH + MAXKEYWORD + 2) fs = some (fs, []) := by
        unfold Server.fgets
        rw [if_neg hfs, Server.fgets_bytes_last fs _ h10 (by omega)]
      simp only [read_loop, hg, Server.cstring_of_text fs hnul, strtok_r_newline_last fs h10 hfs,
        read_loop_eof, hl, List.map_cons, List.map_nil, chomp_last fs h10]
    · have hl : Server.textLines (init ++ 10 :: x) = (init ++ [10]) :: Server.textLines x := by
        have := Server.linesFrom_line x init [] h10
        simpa [Server.textLines] using this
      have hline := hlen (init ++ [10]) (by rw [hl]; simp)
      have hne : init ≠ [] := by
        intro h
        exact hline.2 (by rw [h]; rfl)
      have hg : Server.fgets (MAXDIRPATH + MAXKEYWORD + 2) (init ++ 10 :: x)
          = some (init ++ [10], x) := by
        unfold Server.fgets
        rw [if_neg (by simp), Server.fgets_bytes_line x init _ h10
          (by have := hline.1; simp only [List.length_append, List.length_singleton] at this;
              omega)]
      have hnul1 : ∀ b ∈ init ++ [10], b ≠ 0 := by
        intro b hb
        apply hnul
        simp only [List.mem_append, List.mem_singleton, List.mem_cons] at hb ⊢
        tauto
      have ih1 := ih x (by simp only [List.length_append, List.length_cons] at hfuel; omega)
        (fun b hb => hnul b (by simp [hb]))
        (fun l hl2 => hlen l (by rw [hl]; simp [hl2]))
      simp only [read_loop, hg, Server.cstring_of_text _ hnul1, strtok_r_newline_line init h10 hne,
        ih1, hl, List.map_cons, chomp_line]

theorem read_rest_length (s l rest : List Nat)
    (h : Server.fgets (MAXDIRPATH + MAXKEYWORD + 2) s = some (l, rest)) :
    rest.length < s.length := by
  unfold Server.fgets at h
  split at h
  · cases h
  · cases s with
    | nil => contradiction
    | cons b t =>
      have h1 : MAXDIRPATH + MAXKEYWORD + 2 - 1 = 1280 + 1 := by decide
      rw [h1, Server.fgets_bytes] at h
      split at h
      · simp only [Option.some.injEq, Prod.mk.injEq] at h
        rw [← h.2]
        simp
      · simp only [Option.some.injEq, Prod.mk.injEq] at h
        rw [← h.2]
        have := Server.fgets_bytes_rest 1280 t
        simp only [List.length_cons]
        omega

theorem read_loop_fuel :
    ∀ (fuel fuel2 : Nat) (fs : List Nat), fs.length < fuel → fs.length < fuel2 →
      read_loop fuel fs = read_loop fuel2 fs := by
  intro fuel
  induction fuel with
  | zero => intro _ fs h; omega
  | succ fuel ih =>
    intro fuel2 fs h1 h2
    obtain ⟨fuel2, rfl⟩ : ∃ j, fuel2 = j + 1 := ⟨fuel2 - 1, by omega⟩
    simp only [read_loop]
    cases hg : Server.fgets (MAXDIRPATH + MAXKEYWORD + 2) fs with
    | none => rfl
    | some p =>
      obtain ⟨l, rest⟩ := p
      have hlt := read_rest_length _ _ _ hg
      simp only
      split
      · rfl
      · rw [ih fuel2 rest (by omega) (by omega)]

theorem read_inputfile_of_lines (content : List Nat) (hnul : ∀ b ∈ content, b ≠ 0)
    (hlen : ∀ l ∈ Server.textLines content,
      l.length < MAXDIRPATH + MAXKEYWORD + 2 ∧ l ≠ [10]) :
    read_inputfile content =
      { requests := (Server.textLines content).map chomp, faulted := false } :=
  read_loop_spec _ content (Nat.lt_succ_self _) hnul hlen

/-- C21 fails on an empty line, and on a line of 1281 bytes, the longest request of a
directory path of 1024 bytes, a space and a keyword of 256 bytes. For the input `a b`,
empty line, `c d`, the producer enqueues `a b`; then `strtok_r` finds no token in the
empty line and returns `NULL`, which is passed to `enqueue`, and `c d` is never
enqueued. For a line of 1281 bytes `fgets` leaves the newline for the next call, which
reads it alone, with the same end. -/
theorem empty_line_stops_producer :
    read_inputfile emptyLineInput = { requests := [[97, 32, 98]], faulted := true } ∧
    (Server.textLines emptyLineInput).map chomp = [[97, 32, 98], [], [99, 32, 100]] ∧
    read_inputfile (recC ++ [10]) = { requests := [recC], faulted := true } := by
  decide!

end Client

/-! ## The handler's request -/

namespace Server

theorem strtok_r_exclude_token (d rest : List Nat) (hd : d ≠ []) (h32 : 32 ∉ d) :
    strtok_r_exclude (d ++ 32 :: rest) = some (d, rest) := by
  obtain ⟨b, t, rfl⟩ : ∃ b t, d = b :: t := by
    cases d with
    | nil => exact absurd rfl hd
    | cons b t => exact ⟨b, t, rfl⟩
  have hb : b ≠ 32 := fun h => h32 (by simp [h])
  have hall : ∀ a ∈ b :: t, (fun x => decide (x ≠ 32)) a = true := by
    intro a ha
    have : a ≠ 32 := fun h => h32 (h ▸ ha)
    simpa using this
  unfold strtok_r_exclude
  rw [List.cons_append, List.dropWhile_cons_of_neg (by simpa using hb)]
  simp only
  rw [← List.cons_append, takeWhile_append_stop (b :: t) 32 rest hall (by simp),
    dropWhile_append_stop (b :: t) 32 rest hall (by simp)]
  rfl

theorem strtok_r_exclude_last (k : List Nat) (hk : k ≠ []) (h32 : 32 ∉ k) :
    (strtok_r_exclude k).map Prod.fst = some k := by
  obtain ⟨b, t, rfl⟩ : ∃ b t, k = b :: t := by
    cases k with
    | nil => exact absurd rfl hk
    | cons b t => exact ⟨b, t, rfl⟩
  have hb : b ≠ 32 := fun h => h32 (by simp [h])
  unfold strtok_r_exclude
  rw [List.dropWhile_cons_of_neg (by simpa using hb)]
  have : (b :: t).takeWhile (fun x => decide (x ≠ 32)) = b :: t := by
    rw [List.takeWhile_eq_self_iff]
    intro a ha
    have : a ≠ 32 := fun h => h32 (h ▸ ha)
    simpa using this
  simp only [this, Option.map_some']

/-- C22: for a request made of a directory path `d`, one space and a keyword `k`, where
`d` and `k` are not empty and hold no space, `handle_client_request` takes `d` as
`directory_path` and `k` as `keyword`. -/
theorem request_parsed (d k : List Nat) (hd : d ≠ []) (hk : k ≠ [])
    (hds : 32 ∉ d) (hks : 32 ∉ k) :
    parse_request (d ++ [32] ++ k) = (some d, some k) := by
  unfold parse_request
  have : d ++ [32] ++ k = d ++ 32 :: k := by simp
  rw [this, strtok_r_exclude_token d k hd hds]
  simp only [strtok_r_exclude_last k hk hks]

theorem request_parsed_witness :
    parse_request ([47, 116, 109, 112] ++ [32] ++ [102, 111, 111])
      = (some [47, 116, 109, 112], some [102, 111, 111]) :=
  request_parsed [47, 116, 109, 112] [102, 111, 111] (by decide) (by decide) (by decide)
    (by decide)

end Server

end ClientServer

/-! # The directory lister -/

namespace Dirlist

/-! ## Doubly nodes -/

theorem frontOr_append (l r : List Nat) (q : Option Nat) :
    frontOr (l ++ r) q = frontOr l (frontOr r q) := by
  cases l <;> rfl

theorem backOr_cons (a : Nat) (l : List Nat) (p : Option Nat) :
    backOr (a :: l) p = backOr l (some a) := by
  cases l with
  | nil => rfl
  | cons b l =>
    unfold backOr
    rw [List.getLast?_cons_cons]
    cases h : (b :: l).getLast? with
    | none => simp at h
    | some c => rfl

theorem backOr_concat (l : List Nat) (a : Nat) (p : Option Nat) :
    backOr (l ++ [a]) p = some a := by
  simp [backOr]

theorem backOr_append (l r : List Nat) (p : Option Nat) :
    backOr (l ++ r) p = backOr r (backOr l p) := by
  induction l generalizing p with
  | nil => rfl
  | cons a l ih => rw [List.cons_append, backOr_cons, backOr_cons, ih]

theorem backOr_of_getLast? {l : List Nat} {u : Nat} (h : l.getLast? = some u)
    (p : Option Nat) : backOr l p = some u := by
  simp [backOr, h]

theorem backOr_mem {l : List Nat} {u : Nat} (h : backOr l none = some u) : u ∈ l := by
  unfold backOr at h
  split at h
  · cases h
  · rename_i b hb
    cases h
    exact List.mem_of_getLast?_eq_some hb

theorem frontOr_mem {l : List Nat} {v : Nat} (h : frontOr l none = some v) : v ∈ l := by
  cases l with
  | nil => cases h
  | cons b l =>
    cases h
    simp

theorem frontOr_eq_head? (l : List Nat) : frontOr l none = l.head? := by
  cases l <;> rfl

theorem backOr_eq_getLast? (l : List Nat) : backOr l none = l.getLast? := by
  unfold backOr
  cases l.getLast? <;> rfl

theorem doubly_nil (node : Nat → Node) (p q : Option Nat) : Doubly node p [] q ↔ True :=
  Iff.rfl

theorem doubly_cons (node : Nat → Node) (p q : Option Nat) (a : Nat) (l : List Nat) :
    Doubly node p (a :: l) q ↔
      (node a).prev = p ∧ (node a).next = frontOr l q ∧ Doubly node (some a) l q :=
  Iff.rfl

theorem doubly_append (node : Nat → Node) (l r : List Nat) (q : Option Nat) :
    ∀ p : Option Nat, Doubly node p (l ++ r) q ↔
      Doubly node p l (frontOr r q) ∧ Doubly node (backOr l p) r q := by
  induction l with
  | nil =>
    intro p
    rw [List.nil_append, doubly_nil, true_and]
    rfl
  | cons a l ih =>
    intro p
    rw [List.cons_append, doubly_cons, doubly_cons, ih (some a), frontOr_append, backOr_cons]
    tauto

theorem doubly_congr {node node' : Nat → Node} {l : List Nat} {q : Option Nat}
    (h : ∀ a ∈ l, (node' a).prev = (node a).prev ∧ (node' a).next = (node a).next) :
    ∀ p : Option Nat, Doubly node p l q → Doubly node' p l q := by
  induction l with
  | nil => intro p _; trivial
  | cons a l ih =>
    intro p hl
    obtain ⟨h1, h2, h3⟩ := hl
    have ha := h a (by simp)
    exact ⟨ha.1.trans h1, ha.2.trans h2, ih (fun b hb => h b (by simp [hb])) _ h3⟩

/-- The last node of a linked stretch is given a new `next`. -/
theorem doubly_retarget_end {node node' : Nat → Node} {l : List Nat} {q q' : Option Nat}
    (hnd : l.Nodup)
    (hprev : ∀ a ∈ l, (node' a).prev = (node a).prev)
    (hnext : ∀ a ∈ l, l.getLast? ≠ some a → (node' a).next = (node a).next)
    (hlast : ∀ u, l.getLast? = some u → (node' u).next = q') :
    ∀ p : Option Nat, Doubly node p l q → Doubly node' p l q' := by
  induction l with
  | nil => intro p _; trivial
  | cons a l ih =>
    intro p hl
    obtain ⟨h1, h2, h3⟩ := hl
    have hal : a ∉ l := (List.nodup_cons.mp hnd).1
    refine ⟨(hprev a (by simp)).trans h1, ?_, ?_⟩
    · cases l with
      | nil => exact hlast a rfl
      | cons b l =>
        have hne : (a :: b :: l).getLast? ≠ some a := by
          intro h
          rw [List.getLast?_cons_cons] at h
          exact hal (List.mem_of_getLast?_eq_some h)
        rw [hnext a (by simp) hne, h2]
        rfl
    · cases l with
      | nil => trivial
      | cons b l =>
        refine ih (List.nodup_cons.mp hnd).2 (fun c hc => hprev c (by simp [hc])) ?_ ?_ _ h3
        · intro c hc hne
          exact hnext c (by simp [hc]) (by rwa [List.getLast?_cons_cons])
        · intro u hu
          exact hlast u (by rwa [List.getLast?_cons_cons])

/-- The first node of a linked stretch is given a new `prev`. -/
theorem doubly_retarget_front {node node' : Nat → Node} {l : List Nat}
    {p p' q : Option Nat} (hnd : l.Nodup)
    (hnext : ∀ a ∈ l, (node' a).next = (node a).next)
    (hprev : ∀ a ∈ l, l.head? ≠ some a → (node' a).prev = (node a).prev)
    (hfirst : ∀ v, l.head? = some v → (node' v).prev = p')
    (hl : Doubly node p l q) : Doubly node' p' l q := by
  cases l with
  | nil => trivial
  | cons a l =>
    obtain ⟨_, h2, h3⟩ := hl
    have hal : a ∉ l := (List.nodup_cons.mp hnd).1
    refine ⟨hfirst a rfl, (hnext a (by simp)).trans h2, doubly_congr ?_ _ h3⟩
    intro b hb
    have hne : b ≠ a := fun h => hal (h ▸ hb)
    exact ⟨hprev b (by simp [hb]) (by simpa using fun h => hne h.symm), hnext b (by simp [hb])⟩

theorem doubly_last_next {node : Nat → Node} {l r : List Nat} {p q : Option Nat} {u : Nat}
    (hl : Doubly node p (l ++ r) q) (hu : l.getLast? = some u) :
    (node u).next = frontOr r q := by
  obtain ⟨l', rfl⟩ := List.getLast?_eq_some_iff.mp hu
  rw [List.append_assoc, doubly_append] at hl
  exact hl.2.2.1

theorem doubly_first_prev {node : Nat → Node} {l r : List Nat} {p q : Option Nat} {v : Nat}
    (hl : Doubly node p (l ++ v :: r) q) : (node v).prev = backOr l p := by
  rw [doubly_append] at hl
  exact hl.2.1

theorem doubly_first_next {node : Nat → Node} {l r : List Nat} {p q : Option Nat} {v : Nat}
    (hl : Doubly node p (l ++ v :: r) q) : (node v).next = frontOr r q := by
  rw [doubly_append] at hl
  exact hl.2.2.1

/-- A node is put into a linked list between the stretches `l` and `r`. -/
theorem doubly_splice {node node' : Nat → Node} {l r : List Nat} {x : Nat}
    (hl : Doubly node none (l ++ r) none) (hnd : (l ++ r).Nodup)
    (hnext : ∀ a ∈ l ++ r, backOr l none ≠ some a → (node' a).next = (node a).next)
    (hprev : ∀ a ∈ l ++ r, frontOr r none ≠ some a → (node' a).prev = (node a).prev)
    (hu : ∀ u, backOr l none = some u → (node' u).next = some x)
    (hv : ∀ v, frontOr r none = some v → (node' v).prev = some x)
    (hxp : (node' x).prev = backOr l none) (hxn : (node' x).next = frontOr r none) :
    Doubly node' none (l ++ x :: r) none := by
  rw [doubly_append] at hl ⊢
  obtain ⟨hll, hlr⟩ := hl
  have hdis := List.disjoint_of_nodup_append hnd
  refine ⟨?_, hxp, hxn, ?_⟩
  · refine doubly_retarget_end (List.Nodup.of_append_left hnd) ?_ ?_ ?_ _ hll
    · intro a ha
      refine hprev a (by simp [ha]) ?_
      intro h
      exact hdis ha (frontOr_mem h)
    · intro a ha hne
      exact hnext a (by simp [ha]) (by rwa [backOr_eq_getLast?])
    · intro u hu'
      exact hu u (by rwa [backOr_eq_getLast?])
  · refine doubly_retarget_front (List.Nodup.of_append_right hnd) ?_ ?_ ?_ hlr
    · intro a ha
      refine hnext a (by simp [ha]) ?_
      intro h
      exact hdis (backOr_mem h) ha
    · intro a ha hne
      exact hprev a (by simp [ha]) (by rwa [frontOr_eq_head?])
    · intro v hv'
      exact hv v (by rwa [frontOr_eq_head?])

/-- A node is taken out of a linked list. -/
theorem doubly_unsplice {node node' : Nat → Node} {l r : List Nat} {x : Nat}
    (hl : Doubly node none (l ++ x :: r) none) (hnd : (l ++ x :: r).Nodup)
    (hnext : ∀ a ∈ l ++ r, backOr l none ≠ some a → (node' a).next = (node a).next)
    (hprev : ∀ a ∈ l ++ r, frontOr r none ≠ some a → (node' a).prev = (node a).prev)
    (hu : ∀ u, backOr l none = some u → (node' u).next = frontOr r none)
    (hv : ∀ v, frontOr r none = some v → (node' v).prev = backOr l none) :
    Doubly node' none (l ++ r) none := by
  rw [doubly_append] at hl ⊢
  obtain ⟨hll, _, _, hlr⟩ := hl
  have hnd2 : (l ++ r).Nodup := by
    have := hnd
    rw [List.nodup_append] at this ⊢
    refine ⟨this.1, (List.nodup_cons.mp this.2.1).2, ?_⟩
    intro a ha hb
    exact this.2.2 ha (by simp [hb])
  have hdis := List.disjoint_of_nodup_append hnd2
  constructor
  · refine doubly_retarget_end (List.Nodup.of_append_left hnd2) ?_ ?_ ?_ _ hll
    · intro a ha
      refine hprev a (by simp [ha]) ?_
      intro h
      exact hdis ha (frontOr_mem h)
    · intro a ha hne
      exact hnext a (by simp [ha]) (by rwa [backOr_eq_getLast?])
    · intro u hu'
      exact hu u (by rwa [backOr_eq_getLast?])
  · refine doubly_retarget_front (List.Nodup.of_append_right hnd2) ?_ ?_ ?_ hlr
    · intro a ha
      refine hnext a (by simp [ha]) ?_
      intro h
      exact hdis (backOr_mem h) ha
    · intro a ha hne
      exact hprev a (by simp [ha]) (by rwa [frontOr_eq_head?])
    · intro v hv'
      exact hv v (by rwa [frontOr_eq_head?])

/-! ## The order of paths -/

theorem strcmp_self (s : List Nat) : strcmp s s = 0 := by
  induction s with
  | nil => rfl
  | cons a s ih => simp [strcmp, ih]

theorem strcmp_swap : ∀ s t : List Nat, strcmp t s = -strcmp s t
  | [], [] => rfl
  | [], _ :: _ => rfl
  | _ :: _, [] => rfl
  | a :: s, b :: t => by
    have ih := strcmp_swap s t
    simp only [strcmp]
    by_cases h1 : a < b
    · have h2 : ¬ b < a := by omega
      simp [h1, h2]
    · by_cases h2 : b < a
      · simp [h1, h2]
      · simp [h1, h2, ih]

theorem strcmp_trans : ∀ s t u : List Nat, strcmp s t ≤ 0 → strcmp t u ≤ 0 → strcmp s u ≤ 0
  | [], _, [] => fun _ _ => by simp [strcmp]
  | [], _, _ :: _ => fun _ _ => by simp [strcmp]
  | _ :: _, [], _ => fun h _ => by simp [strcmp] at h
  | _ :: _, _ :: _, [] => fun _ h => by simp [strcmp] at h
  | a :: s, b :: t, c :: u => by
    intro h1 h2
    have ih := strcmp_trans s t u
    simp only [strcmp] at h1 h2 ⊢
    by_cases hab : a < b
    · by_cases hbc : b < c
      · have : a < c := by omega
        simp [this]
      · by_cases hcb : c < b
        · simp [hbc, hcb] at h2
        · have : a < c := by omega
          simp [this]
    · by_cases hba : b < a
      · simp [hab, hba] at h1
      · have hab' : a = b := by omega
        subst hab'
        simp only [hab, hba, if_false] at h1
        by_cases hbc : a < c
        · simp [hbc]
        · by_cases hcb : c < a
          · simp [hbc, hcb] at h2
          · simp only [hbc, hcb, if_false] at h2 ⊢
            exact ih h1 h2

theorem strcmp_le_of_gt {s t : List Nat} (h : strcmp s t > 0) : strcmp t s ≤ 0 := by
  rw [strcmp_swap]
  omega

/-! ## Assignments to links -/

theorem setNext_path (m : Mem) (a : Nat) (v : Option Nat) (i : Nat) :
    ((m.setNext a v).node i).path = (m.node i).path := by
  unfold Mem.setNext
  by_cases h : i = a <;> simp [h]

theorem setNext_level (m : Mem) (a : Nat) (v : Option Nat) (i : Nat) :
    ((m.setNext a v).node i).level = (m.node i).level := by
  unfold Mem.setNext
  by_cases h : i = a <;> simp [h]

theorem setNext_prev (m : Mem) (a : Nat) (v : Option Nat) (i : Nat) :
    ((m.setNext a v).node i).prev = (m.node i).prev := by
  unfold Mem.setNext
  by_cases h : i = a <;> simp [h]

theorem setNext_next_self (m : Mem) (a : Nat) (v : Option Nat) :
    ((m.setNext a v).node a).next = v := by
  simp [Mem.setNext]

theorem setNext_next_ne (m : Mem) {a i : Nat} (v : Option Nat) (h : i ≠ a) :
    ((m.setNext a v).node i).next = (m.node i).next := by
  simp [Mem.setNext, h]

theorem setPrev_path (m : Mem) (a : Nat) (v : Option Nat) (i : Nat) :
    ((m.setPrev a v).node i).path = (m.node i).path := by
  unfold Mem.setPrev
  by_cases h : i = a <;> simp [h]

theorem setPrev_level (m : Mem) (a : Nat) (v : Option Nat) (i : Nat) :
    ((m.setPrev a v).node i).level = (m.node i).level := by
  unfold Mem.setPrev
  by_cases h : i = a <;> simp [h]

theorem setPrev_next (m : Mem) (a : Nat) (v : Option Nat) (i : Nat) :
    ((m.setPrev a v).node i).next = (m.node i).next := by
  unfold Mem.setPrev
  by_cases h : i = a <;> simp [h]

theorem setPrev_prev_self (m : Mem) (a : Nat) (v : Option Nat) :
    ((m.setPrev a v).node a).prev = v := by
  simp [Mem.setPrev]

theorem setPrev_prev_ne (m : Mem) {a i : Nat} (v : Option Nat) (h : i ≠ a) :
    ((m.setPrev a v).node i).prev = (m.node i).prev := by
  simp [Mem.setPrev, h]

theorem setNext_head (m : Mem) (a : Nat) (v : Option Nat) : (m.setNext a v).head = m.head :=
  rfl

theorem setPrev_head (m : Mem) (a : Nat) (v : Option Nat) : (m.setPrev a v).head = m.head :=
  rfl

theorem setNext_tail (m : Mem) (a : Nat) (v : Option Nat) : (m.setNext a v).tail = m.tail :=
  rfl

theorem setPrev_tail (m : Mem) (a : Nat) (v : Option Nat) : (m.setPrev a v).tail = m.tail :=
  rfl

theorem sameEntries_refl (m : Mem) : SameEntries m m := fun _ => ⟨rfl, rfl⟩

theorem sameEntries_trans {m1 m2 m3 : Mem} (h1 : SameEntries m1 m2) (h2 : SameEntries m2 m3) :
    SameEntries m1 m3 :=
  fun a => ⟨(h2 a).1.trans (h1 a).1, (h2 a).2.trans (h1 a).2⟩

theorem sameEntries_setNext (m : Mem) (a : Nat) (v : Option Nat) :
    SameEntries m (m.setNext a v) :=
  fun i => ⟨setNext_path m a v i, setNext_level m a v i⟩

theorem sameEntries_setPrev (m : Mem) (a : Nat) (v : Option Nat) :
    SameEntries m (m.setPrev a v) :=
  fun i => ⟨setPrev_path m a v i, setPrev_level m a v i⟩

theorem pathSorted_of_sameEntries {m m' : Mem} (h : SameEntries m m') {l : List Nat}
    (hs : PathSorted m l) : PathSorted m' l := by
  unfold PathSorted at hs ⊢
  refine hs.imp ?_
  intro a b hab
  rw [(h a).1, (h b).1]
  exact hab

theorem levelSorted_of_sameEntries {m m' : Mem} (h : SameEntries m m') {l : List Nat}
    (hs : LevelSorted m l) : LevelSorted m' l := by
  unfold LevelSorted at hs ⊢
  refine hs.imp ?_
  intro a b hab
  rw [(h a).2, (h b).2]
  exact hab

/-! ## `insert_sorted` -/

theorem placed_by_path_sorted (m : Mem) (x : Nat) (l : List Nat) (hs : PathSorted m l) :
    PathSorted m (placed_by_path m x l) := by
  unfold PathSorted placed_by_path at *
  have hsplit := List.takeWhile_append_dropWhile
    (fun a => decide (strcmp (m.node x).path (m.node a).path > 0)) l
  rw [← hsplit] at hs
  rw [List.pairwise_append] at hs ⊢
  obtain ⟨h1, h2, h3⟩ := hs
  refine ⟨h1, ?_, ?_⟩
  · rw [List.pairwise_cons]
    refine ⟨?_, h2⟩
    intro b hb
    cases hd : l.dropWhile (fun a => decide (strcmp (m.node x).path (m.node a).path > 0)) with
    | nil => rw [hd] at hb; cases hb
    | cons c r =>
      have hc : ¬ strcmp (m.node x).path (m.node c).path > 0 := by
        have := List.head_dropWhile_not
          (fun a => decide (strcmp (m.node x).path (m.node a).path > 0)) l (by rw [hd]; simp)
        simpa [hd] using this
      rw [hd] at hb h2
      rcases List.mem_cons.mp hb with rfl | hb'
      · omega
      · exact strcmp_trans _ _ _ (by omega) ((List.pairwise_cons.mp h2).1 b hb')
  · intro a ha b hb
    rcases List.mem_cons.mp hb with rfl | hb'
    · have := List.mem_takeWhile_imp ha
      exact strcmp_le_of_gt (by simpa using this)
    · exact h3 a ha b hb'

theorem find_place_spec (m : Mem) (x ptr : Nat) (r : List Nat) (q : Option Nat)
    (hptr : ¬ strcmp (m.node x).path (m.node ptr).path > 0) :
    ∀ (l : List Nat) (p : Option Nat) (fuel : Nat),
      (∀ a ∈ l, strcmp (m.node x).path (m.node a).path > 0) →
      Doubly m.node p (l ++ ptr :: r) q → l.length < fuel →
      ∀ start, frontOr (l ++ ptr :: r) q = some start →
        find_place m x fuel start = some ptr := by
  intro l
  induction l with
  | nil =>
    intro p fuel _ _ hf start hstart
    obtain ⟨fuel, rfl⟩ : ∃ j, fuel = j + 1 := ⟨fuel - 1, by omega⟩
    have : start = ptr := by
      simp only [List.nil_append, frontOr, Option.some.injEq] at hstart
      exact hstart.symm
    subst this
    unfold find_place
    split
    · rfl
    · rw [if_neg hptr]
  | cons a l ih =>
    intro p fuel hl hlink hf start hstart
    obtain ⟨fuel, rfl⟩ : ∃ j, fuel = j + 1 := ⟨fuel - 1, by omega⟩
    have : start = a := by
      simp only [List.cons_append, frontOr, Option.some.injEq] at hstart
      exact hstart.symm
    subst this
    rw [List.cons_append, doubly_cons] at hlink
    obtain ⟨_, h2, h3⟩ := hlink
    have hnext : ∃ n, frontOr (l ++ ptr :: r) q = some n := by
      cases l <;> exact ⟨_, rfl⟩
    obtain ⟨n, hn⟩ := hnext
    unfold find_place
    rw [h2, hn]
    simp only
    rw [if_pos (hl start (by simp))]
    exact ih (some start) fuel (fun b hb => hl b (by simp [hb])) h3
      (by simp only [List.length_cons] at hf; omega) n hn

theorem le_last_of_sorted {m : Mem} {l : List Nat} {tl : Nat} (hs : PathSorted m l)
    (ht : l.getLast? = some tl) :
    ∀ a ∈ l, strcmp (m.node a).path (m.node tl).path ≤ 0 := by
  obtain ⟨l', rfl⟩ := List.getLast?_eq_some_iff.mp ht
  unfold PathSorted at hs
  rw [List.pairwise_append] at hs
  intro a ha
  rcases List.mem_append.mp ha with h | h
  · exact hs.2.2 a h tl (by simp)
  · rw [List.mem_singleton.mp h, strcmp_self]

theorem gt_of_gt_last {m : Mem} {x a tl : Nat}
    (h1 : strcmp (m.node a).path (m.node tl).path ≤ 0)
    (h2 : strcmp (m.node x).path (m.node tl).path > 0) :
    strcmp (m.node x).path (m.node a).path > 0 := by
  by_contra h
  have := strcmp_trans _ _ _ (by omega : strcmp (m.node x).path (m.node a).path ≤ 0) h1
  omega

theorem insert_sorted_empty (m : Mem) (x fuel : Nat) (hw : WellFormed m [])
    (hxn : (m.node x).next = none) (hxp : (m.node x).prev = none) :
    ∃ m', insert_sorted fuel x m = some m' ∧ WellFormed m' (placed_by_path m x []) ∧
      SameEntries m m' := by
  have hh : m.head = none := hw.chain.head
  have ht : m.tail = none := hw.tail
  refine ⟨{ m with head := some x, tail := some x }, ?_, ?_, sameEntries_refl m⟩
  · unfold insert_sorted
    rw [hh]
    simp only [ht]
  · exact ⟨⟨List.nodup_singleton x, ⟨hxp, hxn, trivial⟩, rfl⟩, rfl⟩

theorem insert_sorted_front (m : Mem) (x fuel h : Nat) (t : List Nat)
    (hw : WellFormed m (h :: t)) (hx : x ∉ h :: t)
    (hxp : (m.node x).prev = none)
    (hc : strcmp (m.node x).path (m.node h).path ≤ 0) :
    ∃ m', insert_sorted fuel x m = some m' ∧ WellFormed m' (placed_by_path m x (h :: t)) ∧
      SameEntries m m' := by
  have hh : m.head = some h := hw.chain.head
  have hpl : placed_by_path m x (h :: t) = [] ++ x :: (h :: t) := by
    unfold placed_by_path
    have : decide (strcmp (m.node x).path (m.node h).path > 0) = false := by
      simp only [decide_eq_false_iff_not]; omega
    rw [List.takeWhile_cons, List.dropWhile_cons, this]
    rfl
  have hxh : x ≠ h := fun e => hx (by simp [e])
  refine ⟨{ (m.setPrev h (some x)).setNext x (some h) with head := some x }, ?_, ?_, ?_⟩
  · unfold insert_sorted
    rw [hh]
    simp only [if_pos hc]
  · rw [hpl]
    refine ⟨⟨?_, ?_, rfl⟩, ?_⟩
    · exact List.nodup_cons.mpr ⟨hx, hw.chain.nodup⟩
    · refine @doubly_splice m.node _ [] (h :: t) x hw.chain.linked
        hw.chain.nodup ?_ ?_ ?_ ?_ ?_ ?_
      · intro a ha _
        have hax : a ≠ x := fun e => hx (e ▸ ha)
        show (((m.setPrev h (some x)).setNext x (some h)).node a).next = _
        rw [setNext_next_ne _ _ hax, setPrev_next]
      · intro a ha hne
        have hah : a ≠ h := fun e => hne (by rw [e]; rfl)
        show (((m.setPrev h (some x)).setNext x (some h)).node a).prev = _
        rw [setNext_prev, setPrev_prev_ne _ _ hah]
      · intro u hu
        cases hu
      · intro v hv
        have : v = h := by
          simp only [frontOr, Option.some.injEq] at hv
          exact hv.symm
        subst this
        show (((m.setPrev v (some x)).setNext x (some v)).node v).prev = _
        rw [setNext_prev, setPrev_prev_self]
      · show (((m.setPrev h (some x)).setNext x (some h)).node x).prev = _
        rw [setNext_prev, setPrev_prev_ne _ _ hxh, hxp]
        rfl
      · show (((m.setPrev h (some x)).setNext x (some h)).node x).next = _
        rw [setNext_next_self]
        rfl
    · show m.tail = _
      rw [hw.tail]
      simp [List.getLast?_cons_cons]
  · exact sameEntries_trans (sameEntries_setPrev m h (some x))
      (sameEntries_setNext (m.setPrev h (some x)) x (some h))

theorem insert_sorted_back (m : Mem) (x fuel h tl : Nat) (t : List Nat)
    (hw : WellFormed m (h :: t)) (hs : PathSorted m (h :: t)) (hx : x ∉ h :: t)
    (hxn : (m.node x).next = none)
    (htl : (h :: t).getLast? = some tl)
    (hc1 : ¬ strcmp (m.node x).path (m.node h).path ≤ 0)
    (hc2 : strcmp (m.node x).path (m.node tl).path > 0) :
    ∃ m', insert_sorted fuel x m = some m' ∧ WellFormed m' (placed_by_path m x (h :: t)) ∧
      SameEntries m m' := by
  have hh : m.head = some h := hw.chain.head
  have ht : m.tail = some tl := hw.tail.trans htl
  have hall : ∀ a ∈ h :: t,
      (fun a => decide (strcmp (m.node x).path (m.node a).path > 0)) a = true := by
    intro a ha
    simpa using gt_of_gt_last (le_last_of_sorted hs htl a ha) hc2
  have hpl : placed_by_path m x (h :: t) = (h :: t) ++ x :: [] := by
    unfold placed_by_path
    rw [List.takeWhile_eq_self_iff.mpr hall, List.dropWhile_eq_nil_iff.mpr hall]
  have hxt : x ≠ tl := fun e => hx (e ▸ List.mem_of_getLast?_eq_some htl)
  refine ⟨{ (m.setNext tl (some x)).setPrev x (some tl) with tail := some x }, ?_, ?_, ?_⟩
  · unfold insert_sorted
    rw [hh]
    simp only [if_neg hc1, ht, if_pos hc2]
  · rw [hpl]
    refine ⟨⟨?_, ?_, ?_⟩, ?_⟩
    · rw [List.nodup_append]
      refine ⟨hw.chain.nodup, List.nodup_singleton x, ?_⟩
      intro a ha hb
      exact hx (List.mem_singleton.mp hb ▸ ha)
    · refine @doubly_splice m.node _ (h :: t) [] x
        (by simpa using hw.chain.linked) (by simpa using hw.chain.nodup) ?_ ?_ ?_ ?_ ?_ ?_
      · intro a ha hne
        rw [List.append_nil] at ha
        have hat : a ≠ tl := fun e => hne (by rw [e]; exact backOr_of_getLast? htl none)
        show (((m.setNext tl (some x)).setPrev x (some tl)).node a).next = _
        rw [setPrev_next, setNext_next_ne _ _ hat]
      · intro a ha _
        rw [List.append_nil] at ha
        have hax : a ≠ x := fun e => hx (e ▸ ha)
        show (((m.setNext tl (some x)).setPrev x (some tl)).node a).prev = _
        rw [setPrev_prev_ne _ _ hax, setNext_prev]
      · intro u hu
        have : u = tl := by
          rw [backOr_of_getLast? htl none] at hu
          exact (Option.some.inj hu).symm
        subst this
        show (((m.setNext u (some x)).setPrev x (some u)).node u).next = _
        rw [setPrev_next, setNext_next_self]
      · intro v hv
        cases hv
      · show (((m.setNext tl (some x)).setPrev x (some tl)).node x).prev = _
        rw [setPrev_prev_self, backOr_of_getLast? htl none]
      · show (((m.setNext tl (some x)).setPrev x (some tl)).node x).next = _
        rw [setPrev_next, setNext_next_ne _ _ hxt, hxn]
        rfl
    · show m.head = _
      rw [hh]
      rfl
    · show some x = ((h :: t) ++ [x]).getLast?
      rw [List.getLast?_concat]
  · exact sameEntries_trans (sameEntries_setNext m tl (some x))
      (sameEntries_setPrev (m.setNext tl (some x)) x (some tl))

theorem insert_sorted_middle (m : Mem) (x fuel h tl : Nat) (t : List Nat)
    (hw : WellFormed m (h :: t)) (hx : x ∉ h :: t)
    (htl : (h :: t).getLast? = some tl)
    (hc1 : ¬ strcmp (m.node x).path (m.node h).path ≤ 0)
    (hc2 : ¬ strcmp (m.node x).path (m.node tl).path > 0)
    (hf : (h :: t).length ≤ fuel) :
    ∃ m', insert_sorted fuel x m = some m' ∧ WellFormed m' (placed_by_path m x (h :: t)) ∧
      SameEntries m m' := by
  have hh : m.head = some h := hw.chain.head
  have ht : m.tail = some tl := hw.tail.trans htl
  have hsplit := List.takeWhile_append_dropWhile
    (fun a => decide (strcmp (m.node x).path (m.node a).path > 0)) (h :: t)
  -- the nodes after the place of `x`
  obtain ⟨ptr, r, hr⟩ : ∃ ptr r, (h :: t).dropWhile
      (fun a => decide (strcmp (m.node x).path (m.node a).path > 0)) = ptr :: r := by
    cases hd : (h :: t).dropWhile
        (fun a => decide (strcmp (m.node x).path (m.node a).path > 0)) with
    | nil =>
      have := List.dropWhile_eq_nil_iff.mp hd tl (List.mem_of_getLast?_eq_some htl)
      exact absurd (by simpa using this) hc2
    | cons ptr r => exact ⟨ptr, r, rfl⟩
  have hptr : ¬ strcmp (m.node x).path (m.node ptr).path > 0 := by
    have := List.head_dropWhile_not
      (fun a => decide (strcmp (m.node x).path (m.node a).path > 0)) (h :: t)
      (by rw [hr]; simp)
    simpa [hr] using this
  -- the nodes before the place of `x`
  obtain ⟨l, before, hl⟩ : ∃ l before, (h :: t).takeWhile
      (fun a => decide (strcmp (m.node x).path (m.node a).path > 0)) = l ++ [before] := by
    have hne : (h :: t).takeWhile
        (fun a => decide (strcmp (m.node x).path (m.node a).path > 0)) ≠ [] := by
      rw [List.takeWhile_cons, if_pos (by simp only [decide_eq_true_eq]; omega)]
      simp
    rcases List.eq_nil_or_concat _ |>.resolve_left hne with ⟨l, before, h1⟩
    exact ⟨l, before, by rw [h1, List.concat_eq_append]⟩
  have hall : ∀ a ∈ l ++ [before], strcmp (m.node x).path (m.node a).path > 0 := by
    intro a ha
    rw [← hl] at ha
    simpa using List.mem_takeWhile_imp ha
  rw [hl, hr] at hsplit
  have hpl : placed_by_path m x (h :: t) = (l ++ [before]) ++ x :: (ptr :: r) := by
    unfold placed_by_path
    rw [hl, hr]
  have hlink : Doubly m.node none ((l ++ [before]) ++ ptr :: r) none := by
    rw [hsplit]; exact hw.chain.linked
  have hnd : ((l ++ [before]) ++ ptr :: r).Nodup := by
    rw [hsplit]; exact hw.chain.nodup
  have hx' : x ∉ (l ++ [before]) ++ ptr :: r := by
    rw [hsplit]; exact hx
  have hstart : frontOr ((l ++ [before]) ++ ptr :: r) none = some h := by
    rw [hsplit]; rfl
  have hfind : find_place m x fuel h = some ptr := by
    refine find_place_spec m x ptr r none hptr (l ++ [before]) none fuel hall hlink ?_ h hstart
    have : ((l ++ [before]) ++ ptr :: r).length = (h :: t).length := by rw [hsplit]
    simp only [List.length_append, List.length_cons, List.length_singleton,
      List.length_nil] at this hf ⊢
    omega
  have hprev : (m.node ptr).prev = some before := by
    rw [doubly_first_prev hlink, backOr_concat]
  have hxptr : x ≠ ptr := fun e => hx' (by simp [e])
  have hxb : x ≠ before := fun e => hx' (by simp [e])
  have hbptr : before ≠ ptr := by
    intro e
    have := List.disjoint_of_nodup_append hnd (a := before) (by simp) (by simp [e])
    exact this
  have hback : backOr (l ++ [before]) none = some before := backOr_concat l before none
  have hread : (((m.setNext x (some ptr)).setPrev x (m.node ptr).prev).node ptr).prev
      = some before := by
    rw [setPrev_prev_ne _ _ hxptr.symm, setNext_prev, hprev]
  refine ⟨(((m.setNext x (some ptr)).setPrev x (m.node ptr).prev).setNext
      before (some x)).setPrev ptr (some x), ?_, ?_, ?_⟩
  · unfold insert_sorted
    rw [hh]
    simp only [if_neg hc1, ht, if_neg hc2, hfind, hread]
  · rw [hpl]
    refine ⟨⟨?_, ?_, ?_⟩, ?_⟩
    · have := hnd
      rw [List.nodup_append] at this ⊢
      refine ⟨this.1, List.nodup_cons.mpr ⟨fun hm => hx' (by simp [hm]), this.2.1⟩, ?_⟩
      intro a ha hb
      rcases List.mem_cons.mp hb with e | hb'
      · exact hx' (e ▸ List.mem_append_left _ ha)
      · exact this.2.2 ha hb'
    · refine @doubly_splice m.node _ _ _ x hlink hnd ?_ ?_ ?_ ?_ ?_ ?_
      · intro a ha hne
        have hax : a ≠ x := fun e => hx' (e ▸ ha)
        have hab : a ≠ before := fun e => hne (by rw [e, hback])
        rw [setPrev_next, setNext_next_ne _ _ hab, setPrev_next, setNext_next_ne _ _ hax]
      · intro a ha hne
        have hax : a ≠ x := fun e => hx' (e ▸ ha)
        have hap : a ≠ ptr := fun e => hne (by rw [e]; rfl)
        rw [setPrev_prev_ne _ _ hap, setNext_prev, setPrev_prev_ne _ _ hax, setNext_prev]
      · intro u hu
        have : u = before := by
          rw [hback] at hu
          exact (Option.some.inj hu).symm
        subst this
        rw [setPrev_next, setNext_next_self]
      · intro v hv
        have : v = ptr := by
          simp only [frontOr, Option.some.injEq] at hv
          exact hv.symm
        subst this
        rw [setPrev_prev_self]
      · rw [setPrev_prev_ne _ _ hxptr, setNext_prev, setPrev_prev_self, hprev, hback]
      · rw [setPrev_next, setNext_next_ne _ _ hxb, setPrev_next, setNext_next_self]
        rfl
    · show m.head = _
      rw [hh]
      have : (h :: t).head? = ((l ++ [before]) ++ x :: ptr :: r).head? := by
        rw [← hsplit]
        cases l <;> rfl
      exact this
    · show m.tail = _
      rw [hw.tail, ← hsplit]
      rw [List.getLast?_append_of_ne_nil _ (by simp), List.getLast?_append_of_ne_nil _ (by simp)]
      simp [List.getLast?_cons_cons]
  · exact sameEntries_trans
      (sameEntries_trans
        (sameEntries_trans (sameEntries_setNext m x (some ptr))
          (sameEntries_setPrev _ x (m.node ptr).prev))
        (sameEntries_setNext _ before (some x)))
      (sameEntries_setPrev _ ptr (some x))

theorem insert_sorted_spec (m : Mem) (l : List Nat) (x fuel : Nat) (hw : WellFormed m l)
    (hs : PathSorted m l) (hx : x ∉ l)
    (hxn : (m.node x).next = none) (hxp : (m.node x).prev = none) (hf : l.length ≤ fuel) :
    ∃ m', insert_sorted fuel x m = some m' ∧ WellFormed m' (placed_by_path m x l) ∧
      SameEntries m m' := by
  cases l with
  | nil => exact insert_sorted_empty m x fuel hw hxn hxp
  | cons h t =>
    by_cases hc1 : strcmp (m.node x).path (m.node h).path ≤ 0
    · exact insert_sorted_front m x fuel h t hw hx hxp hc1
    · obtain ⟨tl, htl⟩ : ∃ tl, (h :: t).getLast? = some tl := by
        cases hg : (h :: t).getLast? with
        | none => simp at hg
        | some tl => exact ⟨tl, rfl⟩
      by_cases hc2 : strcmp (m.node x).path (m.node tl).path > 0
      · exact insert_sorted_back m x fuel h tl t hw hs hx hxn htl hc1 hc2
      · exact insert_sorted_middle m x fuel h tl t hw hx htl hc1 hc2 hf

theorem placed_by_path_perm (m : Mem) (x : Nat) (l : List Nat) :
    (placed_by_path m x l).Perm (x :: l) := by
  unfold placed_by_path
  have h := @List.perm_middle _ x
    (l.takeWhile (fun a => decide (strcmp (m.node x).path (m.node a).path > 0)))
    (l.dropWhile (fun a => decide (strcmp (m.node x).path (m.node a).path > 0)))
  rw [List.takeWhile_append_dropWhile] at h
  exact h

theorem wellFormed_create_node (m : Mem) (l : List Nat) (a : Nat) (path : List Nat)
    (level : Int) (hw : WellFormed m l) (ha : a ∉ l) :
    WellFormed (create_node a path level m) l := by
  refine ⟨⟨hw.chain.nodup, doubly_congr ?_ _ hw.chain.linked, hw.chain.head⟩, hw.tail⟩
  intro b hb
  have : b ≠ a := fun e => ha (e ▸ hb)
  simp [create_node, this]

/-! ## One step of the level sort -/

theorem scan_back_spec (m : Mem) (key : Int) (l : List Nat) (u : Nat)
    (hu : l.getLast? = some u)
    (hstop : ¬ (some u ≠ m.head ∧ (m.node u).level > key)) :
    ∀ (b s : List Nat) (fuel : Nat), Doubly m.node none (l ++ b ++ s) none →
      (∀ a ∈ b, some a ≠ m.head ∧ (m.node a).level > key) → b.length < fuel →
      scan_back m key fuel (backOr (l ++ b) none) = some u := by
  intro b
  induction b using List.reverseRecOn with
  | nil =>
    intro s fuel _ _ hf
    obtain ⟨fuel, rfl⟩ : ∃ j, fuel = j + 1 := ⟨fuel - 1, by omega⟩
    rw [List.append_nil, backOr_of_getLast? hu none]
    unfold scan_back
    rw [if_neg hstop]
  | append_singleton b a ih =>
    intro s fuel hl hb hf
    obtain ⟨fuel, rfl⟩ : ∃ j, fuel = j + 1 := ⟨fuel - 1, by simp at hf; omega⟩
    have hl' : Doubly m.node none (l ++ b ++ a :: s) none := by
      have : l ++ (b ++ [a]) ++ s = l ++ b ++ a :: s := by simp
      rwa [this] at hl
    rw [← List.append_assoc, backOr_concat]
    unfold scan_back
    rw [if_pos (hb a (by simp)), doubly_first_prev hl']
    exact ih (a :: s) fuel hl' (fun c hc => hb c (by simp [hc]))
      (by simp at hf; omega)

theorem unlink_spec (m : Mem) (l r : List Nat) (tmp u : Nat)
    (hl : Doubly m.node none (l ++ tmp :: r) none) (hnd : (l ++ tmp :: r).Nodup)
    (hu : l.getLast? = some u) :
    ∃ m2, unlink m tmp = some m2 ∧ Doubly m2.node none (l ++ r) none ∧ SameEntries m m2 ∧
      m2.head = m.head := by
  have hprev : (m.node tmp).prev = some u := by
    rw [doubly_first_prev hl, backOr_of_getLast? hu none]
  have hnext : (m.node tmp).next = frontOr r none := doubly_first_next hl
  have hback : backOr l none = some u := backOr_of_getLast? hu none
  cases r with
  | nil =>
    have h1 : unlink_next m tmp = m := by
      unfold unlink_next
      rw [hnext]
      rfl
    refine ⟨m.setNext u none, ?_, ?_, sameEntries_setNext m u none, rfl⟩
    · unfold unlink
      rw [h1, hprev]
      simp only [hnext]
      rfl
    · refine doubly_unsplice hl hnd ?_ ?_ ?_ ?_
      · intro a _ hne
        have : a ≠ u := fun e => hne (by rw [e, hback])
        rw [setNext_next_ne _ _ this]
      · intro a _ _
        rw [setNext_prev]
      · intro v hv
        have : v = u := by rw [hback] at hv; exact (Option.some.inj hv).symm
        subst this
        rw [setNext_next_self]
        rfl
      · intro v hv
        cases hv
  | cons v r =>
    have htv : tmp ≠ v := by
      intro e
      have := hnd
      rw [List.nodup_append] at this
      have h2 := (List.nodup_cons.mp this.2.1).1
      exact h2 (by simp [e])
    have h1 : unlink_next m tmp = m.setPrev v (some u) := by
      unfold unlink_next
      rw [hnext, hprev]
      rfl
    refine ⟨(m.setPrev v (some u)).setNext u (some v), ?_, ?_,
      sameEntries_trans (sameEntries_setPrev m v (some u)) (sameEntries_setNext _ u (some v)),
      rfl⟩
    · unfold unlink
      rw [h1, setPrev_prev_ne _ _ htv, hprev]
      simp only [setPrev_next, hnext]
      rfl
    · refine doubly_unsplice hl hnd ?_ ?_ ?_ ?_
      · intro a _ hne
        have : a ≠ u := fun e => hne (by rw [e, hback])
        rw [setNext_next_ne _ _ this, setPrev_next]
      · intro a _ hne
        have : a ≠ v := fun e => hne (by rw [e]; rfl)
        rw [setNext_prev, setPrev_prev_ne _ _ this]
      · intro w hw
        have : w = u := by rw [hback] at hw; exact (Option.some.inj hw).symm
        subst this
        rw [setNext_next_self]
        rfl
      · intro w hw
        have : w = v := by
          simp only [frontOr, Option.some.injEq] at hw
          exact hw.symm
        subst this
        rw [setNext_prev, setPrev_prev_self, hback]

theorem link_after_spec (m : Mem) (l r : List Nat) (tmp bi : Nat)
    (hl : Doubly m.node none (l ++ r) none) (hnd : (l ++ r).Nodup) (ht : tmp ∉ l ++ r)
    (hbi : l.getLast? = some bi) :
    Doubly (link_after m tmp bi).node none (l ++ tmp :: r) none ∧
      SameEntries m (link_after m tmp bi) ∧ (link_after m tmp bi).head = m.head := by
  have hback : backOr l none = some bi := backOr_of_getLast? hbi none
  have hnext : (m.node bi).next = frontOr r none := doubly_last_next hl hbi
  have hbt : bi ≠ tmp := fun e => ht (by
    rw [← e]; exact List.mem_append_left _ (List.mem_of_getLast?_eq_some hbi))
  have hread : ((relink m tmp bi).node bi).next = frontOr r none := by
    unfold relink
    rw [setPrev_next, setNext_next_ne _ _ hbt, hnext]
  have hsame : SameEntries m (relink m tmp bi) :=
    sameEntries_trans (sameEntries_setNext m tmp _) (sameEntries_setPrev _ tmp _)
  cases r with
  | nil =>
    have h1 : link_after m tmp bi = (relink m tmp bi).setNext bi (some tmp) := by
      unfold link_after
      rw [hread]
      rfl
    rw [h1]
    refine ⟨?_, sameEntries_trans hsame (sameEntries_setNext _ bi _), rfl⟩
    refine doubly_splice hl hnd ?_ ?_ ?_ ?_ ?_ ?_
    · intro a ha hne
      have h2 : a ≠ bi := fun e => hne (by rw [e, hback])
      have h3 : a ≠ tmp := fun e => ht (e ▸ ha)
      unfold relink
      rw [setNext_next_ne _ _ h2, setPrev_next, setNext_next_ne _ _ h3]
    · intro a ha _
      have h3 : a ≠ tmp := fun e => ht (e ▸ ha)
      unfold relink
      rw [setNext_prev, setPrev_prev_ne _ _ h3, setNext_prev]
    · intro u hu
      have : u = bi := by rw [hback] at hu; exact (Option.some.inj hu).symm
      subst this
      rw [setNext_next_self]
    · intro v hv
      cases hv
    · unfold relink
      rw [setNext_prev, setPrev_prev_self, hback]
    · unfold relink
      rw [setNext_next_ne _ _ hbt.symm, setPrev_next, setNext_next_self, hnext]
  | cons v r =>
    have hvt : v ≠ tmp := fun e => ht (by rw [← e]; simp)
    have hvb : v ≠ bi := by
      intro e
      have := List.disjoint_of_nodup_append hnd (a := bi)
        (List.mem_of_getLast?_eq_some hbi) (by simp [e])
      exact this
    have h1 : link_after m tmp bi
        = ((relink m tmp bi).setPrev v (some tmp)).setNext bi (some tmp) := by
      unfold link_after
      rw [hread]
      rfl
    rw [h1]
    refine ⟨?_, sameEntries_trans (sameEntries_trans hsame (sameEntries_setPrev _ v _))
      (sameEntries_setNext _ bi _), rfl⟩
    refine doubly_splice hl hnd ?_ ?_ ?_ ?_ ?_ ?_
    · intro a ha hne
      have h2 : a ≠ bi := fun e => hne (by rw [e, hback])
      have h3 : a ≠ tmp := fun e => ht (e ▸ ha)
      unfold relink
      rw [setNext_next_ne _ _ h2, setPrev_next, setPrev_next, setNext_next_ne _ _ h3]
    · intro a ha hne
      have h2 : a ≠ v := fun e => hne (by rw [e]; rfl)
      have h3 : a ≠ tmp := fun e => ht (e ▸ ha)
      unfold relink
      rw [setNext_prev, setPrev_prev_ne _ _ h2, setPrev_prev_ne _ _ h3, setNext_prev]
    · intro u hu
      have : u = bi := by rw [hback] at hu; exact (Option.some.inj hu).symm
      subst this
      rw [setNext_next_self]
    · intro w hw
      have : w = v := by
        simp only [frontOr, Option.some.injEq] at hw
        exact hw.symm
      subst this
      rw [setNext_prev, setPrev_prev_self]
    · unfold relink
      rw [setNext_prev, setPrev_prev_ne _ _ hvt.symm, setPrev_prev_self, hback]
    · unfold relink
      rw [setNext_next_ne _ _ hbt.symm, setPrev_next, setPrev_next, setNext_next_self, hnext]

theorem rdropWhile_append_rtakeWhile (p : Nat → Bool) (l : List Nat) :
    l.rdropWhile p ++ l.rtakeWhile p = l := by
  unfold List.rdropWhile List.rtakeWhile
  rw [← List.reverse_append, List.takeWhile_append_dropWhile, List.reverse_reverse]

theorem rdropWhile_last_fails (p : Nat → Bool) (l : List Nat) (u : Nat)
    (h : (l.rdropWhile p).getLast? = some u) : p u = false := by
  have hne : l.rdropWhile p ≠ [] := by
    intro e
    rw [e] at h
    cases h
  have h1 := List.rdropWhile_last_not p l hne
  have h2 := List.getLast?_eq_getLast _ hne
  rw [h] at h2
  rw [← Option.some.inj h2] at h1
  simpa using h1

theorem placed_by_level_perm (level : Nat → Int) (x : Nat) (l : List Nat) :
    (placed_by_level level x l).Perm (x :: l) := by
  unfold placed_by_level
  have h := @List.perm_middle _ x
    (l.rdropWhile (fun b => decide (level b > level x)))
    (l.rtakeWhile (fun b => decide (level b > level x)))
  rw [rdropWhile_append_rtakeWhile] at h
  exact h

theorem placed_by_level_length (level : Nat → Int) (x : Nat) (l : List Nat) :
    (placed_by_level level x l).length = l.length + 1 := by
  rw [(placed_by_level_perm level x l).length_eq, List.length_cons]

theorem sort_step_spec (m : Mem) (d0 tmp : Nat) (rest todo : List Nat) (fuel : Nat)
    (hc : Chain m (d0 :: rest ++ tmp :: todo)) (hf : rest.length < fuel) :
    ∃ m', sort_step fuel m tmp = some (m', todo.head?) ∧
      Chain m' (d0 :: placed_by_level (fun a => (m.node a).level) tmp rest ++ todo) ∧
      SameEntries m m' := by
  have hsplit := rdropWhile_append_rtakeWhile
    (fun b => decide ((m.node b).level > (m.node tmp).level)) rest
  generalize hA : rest.rdropWhile (fun b => decide ((m.node b).level > (m.node tmp).level))
    = A at hsplit
  generalize hB : rest.rtakeWhile (fun b => decide ((m.node b).level > (m.node tmp).level))
    = B at hsplit
  have hpl : placed_by_level (fun a => (m.node a).level) tmp rest = A ++ tmp :: B := by
    unfold placed_by_level
    rw [hA, hB]
  have hlist : d0 :: rest ++ tmp :: todo = (d0 :: A) ++ B ++ tmp :: todo := by
    rw [← hsplit]; simp
  have hlink : Doubly m.node none ((d0 :: A) ++ B ++ tmp :: todo) none := by
    rw [← hlist]; exact hc.linked
  have hnd : ((d0 :: A) ++ B ++ tmp :: todo).Nodup := by
    rw [← hlist]; exact hc.nodup
  have hhead : m.head = some d0 := hc.head
  -- the node after which `tmp` is placed
  obtain ⟨u, hu⟩ : ∃ u, (d0 :: A).getLast? = some u := by
    cases hg : (d0 :: A).getLast? with
    | none => simp at hg
    | some u => exact ⟨u, rfl⟩
  have hstop : ¬ (some u ≠ m.head ∧ (m.node u).level > (m.node tmp).level) := by
    rintro ⟨h1, h2⟩
    cases hAe : A with
    | nil =>
      rw [hAe] at hu
      simp only [List.getLast?_singleton, Option.some.injEq] at hu
      exact h1 (by rw [hhead, hu])
    | cons c A' =>
      have h3 : (d0 :: A).getLast? = A.getLast? := by
        rw [hAe, List.getLast?_cons_cons]
      rw [h3, ← hA] at hu
      have := rdropWhile_last_fails _ rest u hu
      simp only [decide_eq_false_iff_not] at this
      exact this h2
  have hBall : ∀ a ∈ B, some a ≠ m.head ∧ (m.node a).level > (m.node tmp).level := by
    intro a ha
    constructor
    · rw [hhead]
      intro e
      have e' : a = d0 := Option.some.inj e
      have h5 := hnd
      rw [List.append_assoc, List.nodup_append] at h5
      have hd := h5.2.2
      exact hd (List.mem_cons_self d0 A) (by rw [← e']; exact List.mem_append_left _ ha)
    · rw [← hB] at ha
      simpa using List.mem_rtakeWhile_imp ha
  have hBlen : B.length < fuel := by
    have : (A ++ B).length = rest.length := by rw [hsplit]
    simp only [List.length_append] at this
    omega
  have hscan : scan_back m (m.node tmp).level fuel (m.node tmp).prev = some u := by
    rw [doubly_first_prev hlink]
    exact scan_back_spec m _ (d0 :: A) u hu hstop B (tmp :: todo) fuel hlink hBall hBlen
  -- `tmp` is taken out
  obtain ⟨w, hw⟩ : ∃ w, ((d0 :: A) ++ B).getLast? = some w := by
    cases hg : ((d0 :: A) ++ B).getLast? with
    | none => simp at hg
    | some w => exact ⟨w, rfl⟩
  obtain ⟨m2, hm2, hl2, hs2, hh2⟩ := unlink_spec m ((d0 :: A) ++ B) todo tmp w hlink hnd hw
  -- and placed after `u`
  have hnd2 : ((d0 :: A) ++ (B ++ todo)).Nodup ∧ tmp ∉ (d0 :: A) ++ (B ++ todo) := by
    have h5 := hnd
    have hp : ((d0 :: A) ++ B ++ tmp :: todo).Perm (tmp :: ((d0 :: A) ++ (B ++ todo))) := by
      rw [← List.append_assoc]
      exact List.perm_middle
    have h6 := hp.nodup_iff.mp h5
    exact ⟨(List.nodup_cons.mp h6).2, (List.nodup_cons.mp h6).1⟩
  have hl2' : Doubly m2.node none ((d0 :: A) ++ (B ++ todo)) none := by
    rw [← List.append_assoc]; exact hl2
  obtain ⟨hl3, hs3, hh3⟩ := link_after_spec m2 (d0 :: A) (B ++ todo) tmp u hl2' hnd2.1 hnd2.2 hu
  refine ⟨link_after m2 tmp u, ?_, ⟨?_, ?_, ?_⟩, sameEntries_trans hs2 hs3⟩
  · unfold sort_step
    rw [hscan]
    simp only [hm2]
    rw [doubly_first_next hlink, frontOr_eq_head?]
  · rw [hpl]
    have hp : (d0 :: (A ++ tmp :: B) ++ todo).Perm (tmp :: ((d0 :: A) ++ (B ++ todo))) := by
      have : d0 :: (A ++ tmp :: B) ++ todo = (d0 :: A) ++ tmp :: (B ++ todo) := by simp
      rw [this]
      exact List.perm_middle
    exact hp.nodup_iff.mpr (List.nodup_cons.mpr ⟨hnd2.2, hnd2.1⟩)
  · rw [hpl]
    have : d0 :: (A ++ tmp :: B) ++ todo = (d0 :: A) ++ tmp :: (B ++ todo) := by simp
    rw [this]
    exact hl3
  · rw [hh3, hh2, hhead]
    rfl

theorem sort_loop_spec (d0 inner : Nat) :
    ∀ (todo rest : List Nat) (m : Mem) (fuel : Nat), Chain m (d0 :: rest ++ todo) →
      todo.length < fuel → rest.length + todo.length ≤ inner →
      ∃ m', sort_loop inner fuel m todo.head? = some m' ∧
        Chain m' (d0 :: todo.foldl
          (fun acc t => placed_by_level (fun a => (m.node a).level) t acc) rest) ∧
        SameEntries m m' := by
  intro todo
  induction todo with
  | nil =>
    intro rest m fuel hc hf _
    obtain ⟨fuel, rfl⟩ : ∃ j, fuel = j + 1 := ⟨fuel - 1, by simp at hf; omega⟩
    refine ⟨m, rfl, ?_, sameEntries_refl m⟩
    simpa using hc
  | cons t todo ih =>
    intro rest m fuel hc hf hin
    obtain ⟨fuel, rfl⟩ : ∃ j, fuel = j + 1 := ⟨fuel - 1, by omega⟩
    simp only [List.length_cons] at hf hin
    obtain ⟨m1, hstep, hc1, hs1⟩ := sort_step_spec m d0 t rest todo inner hc (by omega)
    have hlv : (fun a => (m1.node a).level) = (fun a => (m.node a).level) := by
      funext a
      exact (hs1 a).2
    obtain ⟨m', hloop, hc', hs'⟩ := ih (placed_by_level (fun a => (m.node a).level) t rest)
      m1 fuel hc1 (by omega) (by rw [placed_by_level_length]; omega)
    refine ⟨m', ?_, ?_, sameEntries_trans hs1 hs'⟩
    · show sort_loop inner (fuel + 1) m (some t) = some m'
      unfold sort_loop
      simp only [hstep]
      exact hloop
    · rw [hlv] at hc'
      exact hc'

theorem insertion_sort_spec (m : Mem) (d0 : Nat) (l : List Nat) (fuel : Nat)
    (hc : Chain m (d0 :: l)) (hf : (d0 :: l).length ≤ fuel) :
    ∃ m', insertion_sort_by_level_increasing fuel m = some m' ∧
      Chain m' (d0 :: l.foldl
        (fun acc t => placed_by_level (fun a => (m.node a).level) t acc) []) ∧
      SameEntries m m' := by
  have hh : m.head = some d0 := hc.head
  have hnext : (m.node d0).next = l.head? := by
    have := hc.linked
    rw [doubly_cons] at this
    rw [this.2.1, frontOr_eq_head?]
  simp only [List.length_cons] at hf
  obtain ⟨m', h1, h2, h3⟩ := sort_loop_spec d0 fuel l [] m fuel (by simpa using hc)
    (by omega) (by simp; omega)
  refine ⟨m', ?_, h2, h3⟩
  unfold insertion_sort_by_level_increasing
  rw [hh]
  simp only [hnext]
  exact h1

/-! ## The order after the level sort -/

theorem placed_by_level_sorted (level : Nat → Int) (x : Nat) (l : List Nat)
    (hs : l.Pairwise (fun a b => level a ≤ level b)) :
    (placed_by_level level x l).Pairwise (fun a b => level a ≤ level b) := by
  have hsplit := rdropWhile_append_rtakeWhile (fun b => decide (level b > level x)) l
  unfold placed_by_level
  rw [← hsplit, List.pairwise_append] at hs
  obtain ⟨h1, h2, h3⟩ := hs
  have hA : ∀ a ∈ l.rdropWhile (fun b => decide (level b > level x)), level a ≤ level x := by
    intro a ha
    obtain ⟨u, hu⟩ : ∃ u, (l.rdropWhile (fun b => decide (level b > level x))).getLast?
        = some u := by
      cases hg : (l.rdropWhile (fun b => decide (level b > level x))).getLast? with
      | none =>
        rw [List.getLast?_eq_none_iff] at hg
        rw [hg] at ha
        cases ha
      | some u => exact ⟨u, rfl⟩
    have hux : level u ≤ level x := by
      have := rdropWhile_last_fails _ l u hu
      simp only [decide_eq_false_iff_not] at this
      omega
    obtain ⟨init, hinit⟩ := List.getLast?_eq_some_iff.mp hu
    rw [hinit] at ha h1
    rcases List.mem_append.mp ha with h | h
    · have := (List.pairwise_append.mp h1).2.2 a h u (by simp)
      omega
    · rw [List.mem_singleton.mp h]
      exact hux
  have hB : ∀ b ∈ l.rtakeWhile (fun b => decide (level b > level x)), level x ≤ level b := by
    intro b hb
    have := List.mem_rtakeWhile_imp hb
    simp only [decide_eq_true_eq] at this
    omega
  rw [List.pairwise_append]
  refine ⟨h1, List.pairwise_cons.mpr ⟨hB, h2⟩, ?_⟩
  intro a ha b hb
  rcases List.mem_cons.mp hb with e | hb'
  · rw [e]; exact hA a ha
  · exact h3 a ha b hb'

theorem placed_by_level_filter (level : Nat → Int) (x : Nat) (l : List Nat) (v : Int) :
    (placed_by_level level x l).filter (fun a => decide (level a = v)) =
      (l ++ [x]).filter (fun a => decide (level a = v)) := by
  have hsplit := rdropWhile_append_rtakeWhile (fun b => decide (level b > level x)) l
  unfold placed_by_level
  conv_rhs => rw [← hsplit]
  simp only [List.filter_append, List.append_assoc]
  congr 1
  by_cases hx : level x = v
  · have hB : (l.rtakeWhile (fun b => decide (level b > level x))).filter
        (fun a => decide (level a = v)) = [] := by
      rw [List.filter_eq_nil_iff]
      intro b hb
      have := List.mem_rtakeWhile_imp hb
      simp only [decide_eq_true_eq] at this ⊢
      omega
    rw [List.filter_cons_of_pos (by simpa using hx), hB]
    simp [hx]
  · rw [List.filter_cons_of_neg (by simpa using hx)]
    simp [hx]

theorem level_sort_sorted (level : Nat → Int) (todo : List Nat) :
    ∀ rest : List Nat, rest.Pairwise (fun a b => level a ≤ level b) →
      (todo.foldl (fun acc t => placed_by_level level t acc) rest).Pairwise
        (fun a b => level a ≤ level b) := by
  induction todo with
  | nil => intro rest h; exact h
  | cons t todo ih =>
    intro rest h
    exact ih _ (placed_by_level_sorted level t rest h)

theorem level_sort_filter (level : Nat → Int) (v : Int) (todo : List Nat) :
    ∀ rest : List Nat,
      (todo.foldl (fun acc t => placed_by_level level t acc) rest).filter
          (fun a => decide (level a = v)) =
        (rest ++ todo).filter (fun a => decide (level a = v)) := by
  induction todo with
  | nil => intro rest; simp
  | cons t todo ih =>
    intro rest
    rw [List.foldl_cons, ih, List.filter_append, placed_by_level_filter, ← List.filter_append]
    simp

theorem level_sort_perm (level : Nat → Int) (todo : List Nat) :
    ∀ rest : List Nat,
      (todo.foldl (fun acc t => placed_by_level level t acc) rest).Perm (rest ++ todo) := by
  induction todo with
  | nil => intro rest; simp
  | cons t todo ih =>
    intro rest
    rw [List.foldl_cons]
    refine (ih _).trans ?_
    refine ((placed_by_level_perm level t rest).append_right todo).trans ?_
    simpa using (@List.perm_middle _ t rest todo).symm

/-! ## The lines printed -/

theorem print_loop_spec (m : Mem) :
    ∀ (l : List Nat) (p : Option Nat) (fuel : Nat) (order : Int),
      Doubly m.node p l none → l.length < fuel →
      print_loop m fuel (frontOr l none) order =
        some (numbered m (p.map (fun a => (m.node a).level)) order l) := by
  intro l
  induction l with
  | nil =>
    intro p fuel order _ hf
    obtain ⟨fuel, rfl⟩ : ∃ j, fuel = j + 1 := ⟨fuel - 1, by simp at hf; omega⟩
    rfl
  | cons a l ih =>
    intro p fuel order hl hf
    obtain ⟨fuel, rfl⟩ : ∃ j, fuel = j + 1 := ⟨fuel - 1, by omega⟩
    rw [doubly_cons] at hl
    obtain ⟨h1, h2, h3⟩ := hl
    have hrec := ih (some a) fuel
      (match (m.node a).prev with
        | none => 1
        | some p => if (m.node a).level = (m.node p).level then order + 1 else 1)
      h3 (by simp only [List.length_cons] at hf; omega)
    show print_loop m (fuel + 1) (some a) order = _
    unfold print_loop
    rw [h2, hrec, h1]
    cases p <;> rfl

theorem numbered_filter (m : Mem) (v : Int) :
    ∀ (l : List Nat) (before : Int) (order : Int) (k : Nat),
      LevelSorted m l → (∀ a ∈ l, before ≤ (m.node a).level) → (v = before → order = k) →
      (numbered m (some before) order l).filter (fun x => decide (x.level = v)) =
        ((l.filter (fun a => decide ((m.node a).level = v))).enumFrom
            (if v = before then k else 0)).map
          (fun p => ({ level := v, order := (p.1 : Int) + 1, path := (m.node p.2).path } :
            Line)) := by
  intro l
  induction l with
  | nil => intro before order k _ _ _; rfl
  | cons a l ih =>
    intro before order k hs hmin hk
    have hs' : LevelSorted m l := (List.pairwise_cons.mp hs).2
    have hmin' : ∀ b ∈ l, (m.node a).level ≤ (m.node b).level := (List.pairwise_cons.mp hs).1
    have hrec := ih (m.node a).level
      (if (m.node a).level = before then order + 1 else 1)
      (if (m.node a).level = before then k + 1 else 1) hs' hmin'
    show (({ level := (m.node a).level
             order := if (m.node a).level = before then order + 1 else 1
             path := (m.node a).path } : Line) ::
          numbered m (some (m.node a).level)
            (if (m.node a).level = before then order + 1 else 1) l).filter
          (fun x => decide (x.level = v)) = _
    by_cases hv : (m.node a).level = v
    · -- the node has the level `v`
      rw [List.filter_cons_of_pos (by simpa using hv),
        List.filter_cons_of_pos (by simpa using hv), List.enumFrom_cons, List.map_cons]
      have hrec' := hrec (by
        intro _
        by_cases hb : (m.node a).level = before
        · rw [if_pos hb, if_pos hb, hk (hv.symm.trans hb)]
          push_cast
          rfl
        · rw [if_neg hb, if_neg hb]
          rfl)
      rw [hrec', if_pos hv.symm]
      by_cases hb : (m.node a).level = before
      · have hvb : v = before := hv.symm.trans hb
        simp only [if_pos hb, if_pos hvb, hk hvb, hv]
      · have hvb : ¬ v = before := fun e => hb (hv.trans e)
        simp only [if_neg hb, if_neg hvb, hv]
        rfl
    · -- the node has another level
      rw [List.filter_cons_of_neg (by simpa using hv),
        List.filter_cons_of_neg (by simpa using hv)]
      have hva : ¬ v = (m.node a).level := fun e => hv e.symm
      have hrec' := hrec (fun e => absurd e hva)
      rw [hrec', if_neg hva]
      by_cases hvb : v = before
      · -- no node of level `before` is left
        have hnil : l.filter (fun a => decide ((m.node a).level = v)) = [] := by
          rw [List.filter_eq_nil_iff]
          intro b hb
          have h1 := hmin' b hb
          have h2 := hmin a (by simp)
          simp only [decide_eq_true_eq]
          omega
        rw [hnil]
        rfl
      · rw [if_neg hvb]

/-! ## The two routines on every list -/

/-- C23: a list is doubly linked through the distinct nodes `l`, with `head` and `tail`
at its first and last node, and its paths are in non-decreasing `strcmp` order. After
`insert_sorted` on a node fresh from `create_node`, the list holds the nodes of `l` and
the new node and no other, each with the path and level it had; it is doubly linked
with `head` and `tail` at its first and last node, and its paths are in non-decreasing
order. A bound of `l.length` on the iterations of the search loop is enough. -/
theorem insert_sorted_keeps_order (m : Mem) (l : List Nat) (a : Nat) (path : List Nat)
    (level : Int) (fuel : Nat) (hw : WellFormed m l) (hs : PathSorted m l) (ha : a ∉ l)
    (hf : l.length ≤ fuel) :
    ∃ m' l', insert_sorted fuel a (create_node a path level m) = some m' ∧
      l'.Perm (a :: l) ∧ WellFormed m' l' ∧ PathSorted m' l' ∧
      (m'.node a).path = path ∧ (m'.node a).level = level ∧
      ∀ b ∈ l, (m'.node b).path = (m.node b).path ∧ (m'.node b).level = (m.node b).level := by
  have hw0 := wellFormed_create_node m l a path level hw ha
  have hs0 : PathSorted (create_node a path level m) l := by
    unfold PathSorted at hs ⊢
    refine hs.imp_of_mem ?_
    intro b c hb hc hbc
    have h1 : b ≠ a := fun e => ha (e ▸ hb)
    have h2 : c ≠ a := fun e => ha (e ▸ hc)
    simpa [create_node, h1, h2] using hbc
  obtain ⟨m', h1, h2, h3⟩ := insert_sorted_spec (create_node a path level m) l a fuel hw0 hs0
    ha (by simp [create_node]) (by simp [create_node]) hf
  refine ⟨m', _, h1, placed_by_path_perm _ a l, h2,
    pathSorted_of_sameEntries h3 (placed_by_path_sorted _ a l hs0), ?_, ?_, ?_⟩
  · rw [(h3 a).1]; simp [create_node]
  · rw [(h3 a).2]; simp [create_node]
  · intro b hb
    have hne : b ≠ a := fun e => ha (e ▸ hb)
    rw [(h3 b).1, (h3 b).2]
    simp [create_node, hne]

theorem insert_sorted_keeps_order_witness :
    ∃ m' l', insert_sorted 2 2 (create_node 2 [98] 2 twoNodes) = some m' ∧
      l'.Perm (2 :: [0, 1]) ∧ WellFormed m' l' ∧ PathSorted m' l' ∧
      (m'.node 2).path = [98] ∧ (m'.node 2).level = 2 ∧
      ∀ b ∈ [0, 1], (m'.node b).path = (twoNodes.node b).path ∧
        (m'.node b).level = (twoNodes.node b).level :=
  insert_sorted_keeps_order twoNodes [0, 1] 2 [98] 2 2 (by decide) (by decide) (by decide)
    (by decide)

/-- C24: a list is doubly linked from `head` through the distinct nodes `d0 :: l`, and no
node has a smaller level than the head `d0`. Then `insertion_sort_by_level_increasing`
returns; the list is then doubly linked from the same head through a permutation of the
same nodes, each with the path and level it had, in non-decreasing order of level, and
the nodes of each level are in the order they had before. `print_list_to_file` then
writes, for each level, the nodes of that level in that order with the numbers 1, 2, 3
and so on; when the list was in path order before the sort, the lines of each level are
in path order. A bound of the length of the list on the iterations of the loops of the
sort, and of one more on the loop of the printing, is enough; the value `order` holds
at the start does not matter. -/
theorem level_sort_numbers_each_level (m : Mem) (d0 : Nat) (l : List Nat) (fuel : Nat)
    (order : Int) (hc : Chain m (d0 :: l))
    (hmin : ∀ a ∈ l, (m.node d0).level ≤ (m.node a).level)
    (hf : (d0 :: l).length ≤ fuel) :
    ∃ m' l' lines, insertion_sort_by_level_increasing fuel m = some m' ∧
      Chain m' l' ∧ l'.Perm (d0 :: l) ∧ SameEntries m m' ∧ LevelSorted m' l' ∧
      (∀ v : Int, l'.filter (fun a => decide ((m.node a).level = v)) =
        (d0 :: l).filter (fun a => decide ((m.node a).level = v))) ∧
      print_list_to_file (fuel + 1) order m' = some lines ∧
      (∀ v : Int, lines.filter (fun x => decide (x.level = v)) =
        (((d0 :: l).filter (fun a => decide ((m.node a).level = v))).enum.map
          (fun p => ({ level := v, order := (p.1 : Int) + 1, path := (m.node p.2).path } :
            Line)))) ∧
      (PathSorted m (d0 :: l) → ∀ v : Int,
        ((lines.filter (fun x => decide (x.level = v))).map Line.path).Pairwise
          (fun s t => strcmp s t ≤ 0)) := by
  obtain ⟨m', h1, h2, h3⟩ := insertion_sort_spec m d0 l fuel hc hf
  generalize hL : l.foldl (fun acc t => placed_by_level (fun a => (m.node a).level) t acc) []
    = L at h2
  have hperm : L.Perm l := by
    rw [← hL]
    simpa using level_sort_perm (fun a => (m.node a).level) l []
  have hsorted : L.Pairwise (fun a b => (m.node a).level ≤ (m.node b).level) := by
    rw [← hL]
    exact level_sort_sorted (fun a => (m.node a).level) l [] List.Pairwise.nil
  have hfilter : ∀ v : Int, L.filter (fun a => decide ((m.node a).level = v)) =
      l.filter (fun a => decide ((m.node a).level = v)) := by
    intro v
    rw [← hL]
    simpa using level_sort_filter (fun a => (m.node a).level) v l []
  have hminL : ∀ a ∈ L, (m.node d0).level ≤ (m.node a).level :=
    fun a ha => hmin a (hperm.mem_iff.mp ha)
  have hsorted' : LevelSorted m (d0 :: L) := List.pairwise_cons.mpr ⟨hminL, hsorted⟩
  have hfilter' : ∀ v : Int, (d0 :: L).filter (fun a => decide ((m.node a).level = v)) =
      (d0 :: l).filter (fun a => decide ((m.node a).level = v)) := by
    intro v
    simp only [List.filter_cons, hfilter v]
  -- the lines printed
  have hlinked := h2.linked
  rw [doubly_cons] at hlinked
  have hprint : print_list_to_file (fuel + 1) order m' =
      some (numbered m' none order (d0 :: L)) := by
    unfold print_list_to_file
    rw [h2.head]
    have := print_loop_spec m' (d0 :: L) none (fuel + 1) order h2.linked
      (by have := hperm.length_eq; simp only [List.length_cons] at hf ⊢; omega)
    simpa using this
  have hlines : ∀ v : Int,
      (numbered m' none order (d0 :: L)).filter (fun x => decide (x.level = v)) =
        (((d0 :: l).filter (fun a => decide ((m.node a).level = v))).enum.map
          (fun p => ({ level := v, order := (p.1 : Int) + 1, path := (m.node p.2).path } :
            Line))) := by
    intro v
    have hlv : ∀ a, (m'.node a).level = (m.node a).level := fun a => (h3 a).2
    have hpa : ∀ a, (m'.node a).path = (m.node a).path := fun a => (h3 a).1
    have hsL : LevelSorted m' L := levelSorted_of_sameEntries h3 hsorted
    have hminL' : ∀ a ∈ L, (m'.node d0).level ≤ (m'.node a).level := by
      intro a ha
      rw [hlv, hlv]
      exact hminL a ha
    have htail := numbered_filter m' v L (m'.node d0).level 1 1 hsL hminL' (fun _ => rfl)
    show (({ level := (m'.node d0).level, order := 1, path := (m'.node d0).path } : Line) ::
      numbered m' (some (m'.node d0).level) 1 L).filter (fun x => decide (x.level = v)) = _
    rw [← hfilter' v, List.enum]
    simp only [hlv, hpa] at htail ⊢
    by_cases hv : (m.node d0).level = v
    · rw [List.filter_cons_of_pos (by simpa using hv),
        List.filter_cons_of_pos (by simpa using hv), List.enumFrom_cons, List.map_cons, htail,
        if_pos hv.symm]
      simp [hv]
    · rw [List.filter_cons_of_neg (by simpa using hv),
        List.filter_cons_of_neg (by simpa using hv), htail,
        if_neg (fun e => hv e.symm)]
  refine ⟨m', d0 :: L, numbered m' none order (d0 :: L), h1, h2, hperm.cons d0, h3,
    levelSorted_of_sameEntries h3 hsorted', hfilter', hprint, hlines, ?_⟩
  intro hps v
  rw [hlines v, List.map_map]
  have hmap : (fun p : Nat × Nat => (m.node p.2).path) =
      (fun a => (m.node a).path) ∘ Prod.snd := rfl
  have hcomp : (Line.path ∘ fun p : Nat × Nat =>
      ({ level := v, order := (p.1 : Int) + 1, path := (m.node p.2).path } : Line)) =
      (fun a => (m.node a).path) ∘ Prod.snd := rfl
  rw [hcomp, ← List.map_map, List.enum_map_snd, List.pairwise_map]
  exact List.Pairwise.sublist (List.filter_sublist _) hps

theorem level_sort_numbers_each_level_witness :
    ∃ m' l' lines, insertion_sort_by_level_increasing 4 treeNodes = some m' ∧
      Chain m' l' ∧ l'.Perm (0 :: [1, 2, 3]) ∧ SameEntries treeNodes m' ∧
      LevelSorted m' l' ∧
      (∀ v : Int, l'.filter (fun a => decide ((treeNodes.node a).level = v)) =
        (0 :: [1, 2, 3]).filter (fun a => decide ((treeNodes.node a).level = v))) ∧
      print_list_to_file (4 + 1) 7 m' = some lines ∧
      (∀ v : Int, lines.filter (fun x => decide (x.level = v)) =
        (((0 :: [1, 2, 3]).filter (fun a => decide ((treeNodes.node a).level = v))).enum.map
          (fun p => ({ level := v, order := (p.1 : Int) + 1,
                       path := (treeNodes.node p.2).path } : Line)))) ∧
      (PathSorted treeNodes (0 :: [1, 2, 3]) → ∀ v : Int,
        ((lines.filter (fun x => decide (x.level = v))).map Line.path).Pairwise
          (fun s t => strcmp s t ≤ 0)) :=
  level_sort_numbers_each_level treeNodes 0 [1, 2, 3] 4 7 (by decide) (by decide) (by decide)


end Dirlist
